import Mathlib

/-!
Shallow embedding of the ECLIPSR eclipse-finding core
(`eclipsr/eclipse_finding.py`, `eclipsr/utility.py`) over `List ℚ`,
together with theorems settling the specification claims.

Conventions:
* numpy float arrays become `List ℚ`; integer index arrays become `List ℕ`
  (or `List ℤ` where the code can produce the value `-1` that numpy then
  interprets as an index from the end);
* boolean mask arrays become `List Bool`;
* `np.sqrt` (inside `np.std`) is transcendental, so functions using it take
  an abstract `sq : ℚ → ℚ` parameter standing for the square root;
* out-of-range reads (which would be errors or undefined behaviour in the
  original) default to `0`; the theorems only use them inside the bounds the
  code itself guarantees.
-/

namespace Eclipsr

/-- Read of a numpy float array at a nonnegative index (default 0 out of range). -/
def idx (a : List ℚ) (i : ℕ) : ℚ := a.getD i 0

/-- Python-style read allowing negative indices counting from the end,
as numpy does for in-range negative indices. -/
def pyGet (a : List ℚ) (i : ℤ) : ℚ :=
  if i < 0 then a.getD (a.length - (-i).toNat) 0 else a.getD i.toNat 0

/-- Embedding of `np.diff`: consecutive differences. -/
def npDiff (a : List ℚ) : List ℚ := List.zipWith (fun next cur => next - cur) a.tail a

/-- Embedding of `np.sum` over a float array. -/
def npSum (l : List ℚ) : ℚ := l.sum

/-- Embedding of `np.mean` (the mean of the empty array, `nan` in numpy, is 0 here). -/
def npMean (l : List ℚ) : ℚ := l.sum / l.length

/-- Embedding of `np.min` on a nonempty float array (0 for the empty array). -/
def npMinQ : List ℚ → ℚ
  | [] => 0
  | x :: xs => xs.foldl min x

/-- Embedding of `np.max` on a nonempty float array (0 for the empty array). -/
def npMaxQ : List ℚ → ℚ
  | [] => 0
  | x :: xs => xs.foldl max x

/-- Embedding of `np.ptp`: peak to peak, max minus min. -/
def npPtp (l : List ℚ) : ℚ := npMaxQ l - npMinQ l

/-- Embedding of `np.std` (population standard deviation), with the square root
abstracted as `sq`. -/
def npStd (sq : ℚ → ℚ) (l : List ℚ) : ℚ :=
  sq (npMean (l.map (fun x => (x - npMean l) ^ 2)))

/-- Boolean-mask selection `a[mask]` (numpy fancy indexing with a boolean array). -/
def maskSelect {α : Type} (l : List α) (m : List Bool) : List α :=
  ((l.zip m).filter (fun p => p.2)).map (fun p => p.1)

/-- Boolean-mask assignment `a[mask] = vals` with an array right-hand side:
the values are written, in order, at the mask's true positions. -/
def maskAssignList {α : Type} : List α → List Bool → List α → List α
  | [], _, _ => []
  | x :: xs, [], _ => x :: xs
  | x :: xs, b :: bs, vs =>
    if b then
      match vs with
      | [] => x :: maskAssignList xs bs []
      | v :: vt => v :: maskAssignList xs bs vt
    else x :: maskAssignList xs bs vs

/-- Boolean-mask assignment `a[mask] = v` with a scalar right-hand side. -/
def maskAssignConst {α : Type} (l : List α) (m : List Bool) (v : α) : List α :=
  List.zipWith (fun x b => if b then v else x) l m

/-- Integer-index-array assignment `a[indices] = v` with a scalar right-hand side. -/
def idxAssignConst {α : Type} (l : List α) (is : List ℕ) (v : α) : List α :=
  is.foldl (fun acc i => acc.set i v) l

/-- Number of `true` entries of a boolean mask (`np.sum` of a boolean array). -/
def countTrue (m : List Bool) : ℕ := m.count true

/-- Embedding of `np.any` on a boolean array. -/
def anyTrue (m : List Bool) : Bool := m.any id

/-- Embedding of `np.cumsum` on an integer array. -/
def cumsum (l : List ℕ) : List ℕ := (l.scanl (· + ·) 0).tail

/-- Embedding of `np.repeat(l, counts)` for equal-length inputs. -/
def npRepeat {α : Type} (l : List α) (counts : List ℕ) : List α :=
  ((l.zip counts).map (fun p => List.replicate p.2 p.1)).flatten

/-- Assignment `m[positions] = True` on a boolean array. -/
def scatterTrue (m : List Bool) (ps : List ℕ) : List Bool :=
  ps.foldl (fun acc p => acc.set p true) m

/-- Slice assignment `m[i1 : i2 + 1] = False` on a boolean array. -/
def setFalseRange (m : List Bool) (i1 i2 : ℕ) : List Bool :=
  List.zipWith (fun j b => if i1 ≤ j ∧ j ≤ i2 then false else b) (List.range m.length) m

/-- Stable insertion of an element into a list sorted by `le`. -/
def insertLe {α : Type} (le : α → α → Bool) (x : α) : List α → List α
  | [] => [x]
  | y :: ys => if le x y then x :: y :: ys else y :: insertLe le x ys

/-- Stable insertion sort by `le`. -/
def sortBy {α : Type} (le : α → α → Bool) : List α → List α
  | [] => []
  | x :: xs => insertLe le x (sortBy le xs)

/-- Sorting a float array, `np.sort`. -/
def sortQ (l : List ℚ) : List ℚ := sortBy (fun a b => decide (a ≤ b)) l

/-- Embedding of `np.median` (0 for the empty array, where numpy yields `nan`). -/
def npMedian (l : List ℚ) : ℚ :=
  let s := sortQ l
  let n := s.length
  if n = 0 then 0
  else if n % 2 = 1 then idx s (n / 2)
  else (idx s (n / 2 - 1) + idx s (n / 2)) / 2

/-- Embedding of `np.arange(start, stop, step)` for a positive step
(the code never uses a nonpositive step). -/
def npArange (start stop step : ℚ) : List ℚ :=
  if 0 < step then
    (List.range (⌈(stop - start) / step⌉.toNat)).map (fun (i : ℕ) => start + step * (i : ℚ))
  else []

/-- Consecutive integers `a, a+1, ..., b` (the value of `np.arange(a, b + 1)`). -/
def intRange (a b : ℤ) : List ℤ := (List.range (b + 1 - a).toNat).map (fun (i : ℕ) => a + (i : ℤ))

/-- Three-argument zipWith. -/
def zipWith3 {α β γ δ : Type} (f : α → β → γ → δ) : List α → List β → List γ → List δ
  | a :: as, b :: bs, c :: cs => f a b c :: zipWith3 f as bs cs
  | _, _, _ => []

/-- Value of the numpy expression `x % 1` on a float: the fractional part in [0, 1). -/
def mod1 (x : ℚ) : ℚ := x - ⌊x⌋

/-! ## utility.fold_time_series -/

/-- Embedding of `utility.fold_time_series` (utility.py line 35):
`phases = ((times - zero) / period + 0.5) % 1 - 0.5`, per timestamp. -/
def fold_time_series (t period zero : ℚ) : ℚ :=
  mod1 ((t - zero) / period + 1 / 2) - 1 / 2

theorem mod1_eq_fract (x : ℚ) : mod1 x = Int.fract x := rfl

theorem mod1_nonneg (x : ℚ) : 0 ≤ mod1 x := by
  rw [mod1_eq_fract]
  exact Int.fract_nonneg x

theorem mod1_lt_one (x : ℚ) : mod1 x < 1 := by
  rw [mod1_eq_fract]
  exact Int.fract_lt_one x

/-- C10: for every timestamp, every period > 0 and every reference zero point,
the phase returned by `fold_time_series` lies in the half-open interval
[-0.5, 0.5), and a timestamp exactly half a period from the reference maps to
-0.5 (never +0.5). -/
theorem C10_fold_time_series_range (t period zero : ℚ) (hp : 0 < period) :
    -(1 / 2) ≤ fold_time_series t period zero ∧
      fold_time_series t period zero < 1 / 2 ∧
      fold_time_series (zero + period / 2) period zero = -(1 / 2) := by
  refine ⟨?_, ?_, ?_⟩
  · have h := mod1_nonneg ((t - zero) / period + 1 / 2)
    unfold fold_time_series
    linarith
  · have h := mod1_lt_one ((t - zero) / period + 1 / 2)
    unfold fold_time_series
    linarith
  · have harg : (zero + period / 2 - zero) / period + 1 / 2 = 1 := by
      field_simp
      ring
    unfold fold_time_series
    rw [harg]
    norm_num [mod1]

/-- Witness for C10 at t = 0, period = 1, zero = 0. -/
theorem C10_fold_time_series_range_witness :
    -(1 / 2) ≤ fold_time_series 0 1 0 ∧
      fold_time_series 0 1 0 < 1 / 2 ∧
      fold_time_series (0 + 1 / 2) 1 0 = -(1 / 2) :=
  C10_fold_time_series_range 0 1 0 (by norm_num)

/-! ## cut_eclipses and mask_eclipses -/

/-- Embedding of `cut_eclipses` (eclipse_finding.py lines 67-70): start from an
all-true mask and, for each pair of eclipse start and end times, keep only the
samples strictly before the start or strictly after the end. -/
def cut_eclipses (times : List ℚ) (eclipses : List (ℚ × ℚ)) : List Bool :=
  eclipses.foldl
    (fun mask e =>
      List.zipWith (fun b t => b && (decide (t < e.1) || decide (e.2 < t))) mask times)
    (List.replicate times.length true)

/-- Embedding of `mask_eclipses` (eclipse_finding.py lines 98-101): start from an
all-true mask and set `mask[start : end + 1] = False` for each index pair. -/
def mask_eclipses (n : ℕ) (eclipses : List (ℕ × ℕ)) : List Bool :=
  eclipses.foldl (fun mask e => setFalseRange mask e.1 e.2) (List.replicate n true)

theorem length_setFalseRange (m : List Bool) (i1 i2 : ℕ) :
    (setFalseRange m i1 i2).length = m.length := by
  simp [setFalseRange]

theorem getD_setFalseRange (m : List Bool) (i1 i2 j : ℕ) (hj : j < m.length) :
    (setFalseRange m i1 i2).getD j false =
      ((!decide (i1 ≤ j ∧ j ≤ i2)) && m.getD j false) := by
  have hj2 : j < (setFalseRange m i1 i2).length := by rw [length_setFalseRange]; exact hj
  rw [List.getD_eq_getElem _ _ hj2, List.getD_eq_getElem _ _ hj]
  unfold setFalseRange
  rw [List.getElem_zipWith]
  rw [List.getElem_range]
  by_cases h : i1 ≤ j ∧ j ≤ i2 <;> simp [h]

theorem cut_eclipses_foldl_getD (times : List ℚ) (ecls : List (ℚ × ℚ)) :
    ∀ (acc : List Bool), acc.length = times.length → ∀ j, (hj : j < times.length) →
      ((ecls.foldl
          (fun mask e =>
            List.zipWith (fun b t => b && (decide (t < e.1) || decide (e.2 < t))) mask times)
          acc).getD j false) =
        (acc.getD j false && decide (∀ e ∈ ecls, times[j] < e.1 ∨ e.2 < times[j])) := by
  induction ecls with
  | nil => intro acc hl j hj; simp
  | cons e es ih =>
    intro acc hl j hj
    rw [List.foldl_cons]
    have hstep : (List.zipWith (fun b t => b && (decide (t < e.1) || decide (e.2 < t)))
        acc times).length = times.length := by
      rw [List.length_zipWith, hl]; exact min_self _
    rw [ih _ hstep j hj]
    have hj1 : j < (List.zipWith (fun b t => b && (decide (t < e.1) || decide (e.2 < t)))
        acc times).length := by rw [hstep]; exact hj
    rw [List.getD_eq_getElem _ _ hj1, List.getElem_zipWith]
    have hja : j < acc.length := by rw [hl]; exact hj
    rw [← List.getD_eq_getElem acc false hja]
    have hsplit : decide (∀ x ∈ e :: es, times[j] < x.1 ∨ x.2 < times[j])
        = (decide (times[j] < e.1 ∨ e.2 < times[j])
            && decide (∀ x ∈ es, times[j] < x.1 ∨ x.2 < times[j])) := by
      rw [← Bool.decide_and]
      exact decide_eq_decide.mpr List.forall_mem_cons
    rw [hsplit]
    by_cases h1 : times[j] < e.1 ∨ e.2 < times[j]
    · have hd : (decide (times[j] < e.1) || decide (e.2 < times[j])) = true := by
        rcases h1 with h | h <;> simp [h]
      simp [hd, h1]
    · have hd : (decide (times[j] < e.1) || decide (e.2 < times[j])) = false := by
        push_neg at h1
        simp [not_lt.mpr h1.1, not_lt.mpr h1.2]
      simp [hd, h1]

theorem mask_eclipses_foldl_getD (n : ℕ) (ecls : List (ℕ × ℕ)) :
    ∀ (acc : List Bool), acc.length = n → ∀ j, j < n →
      ((ecls.foldl (fun mask e => setFalseRange mask e.1 e.2) acc).getD j false) =
        (acc.getD j false && decide (∀ e ∈ ecls, ¬(e.1 ≤ j ∧ j ≤ e.2))) := by
  induction ecls with
  | nil => intro acc hl j hj; simp
  | cons e es ih =>
    intro acc hl j hj
    rw [List.foldl_cons]
    have hstep : (setFalseRange acc e.1 e.2).length = n := by
      rw [length_setFalseRange]; exact hl
    rw [ih _ hstep j hj]
    rw [getD_setFalseRange acc e.1 e.2 j (by rw [hl]; exact hj)]
    have hsplit : decide (∀ x ∈ e :: es, ¬(x.1 ≤ j ∧ j ≤ x.2))
        = (decide (¬(e.1 ≤ j ∧ j ≤ e.2)) && decide (∀ x ∈ es, ¬(x.1 ≤ j ∧ j ≤ x.2))) := by
      rw [← Bool.decide_and]
      exact decide_eq_decide.mpr List.forall_mem_cons
    rw [hsplit]
    by_cases h1 : e.1 ≤ j ∧ j ≤ e.2 <;> simp [h1]

/-- C8: for every strictly increasing times array and every list of in-bounds
index pairs (i1, i2) with i1 ≤ i2, the boolean mask returned by `cut_eclipses`
for the time pairs (times[i1], times[i2]) is elementwise equal to the mask
returned by `mask_eclipses` for the index pairs, and both mark exactly the
samples with index in [i1, i2] of some pair (endpoints included) as eclipse
(mask entry false). -/
theorem C8_cut_mask_eclipses_agree (times : List ℚ) (prs : List (ℕ × ℕ))
    (hsort : times.Sorted (· < ·))
    (hb : ∀ e ∈ prs, e.1 ≤ e.2 ∧ e.2 < times.length) :
    ∀ j, j < times.length →
      ((cut_eclipses times (prs.map (fun e => (times.getD e.1 0, times.getD e.2 0)))).getD
          j false
        = (mask_eclipses times.length prs).getD j false) ∧
      ((mask_eclipses times.length prs).getD j false = false ↔
        ∃ e ∈ prs, e.1 ≤ j ∧ j ≤ e.2) := by
  intro j hj
  unfold cut_eclipses mask_eclipses
  have hcut := cut_eclipses_foldl_getD times
    (prs.map (fun e => (times.getD e.1 0, times.getD e.2 0)))
    (List.replicate times.length true) (by simp) j hj
  have hmask := mask_eclipses_foldl_getD times.length prs
    (List.replicate times.length true) (by simp) j hj
  have hrepl : (List.replicate times.length true).getD j false = true := by
    rw [List.getD_eq_getElem _ _ (by simpa using hj), List.getElem_replicate]
  rw [hrepl] at hcut hmask
  have hmono := hsort.get_strictMono
  have hiff : (∀ e ∈ prs.map (fun e => (times.getD e.1 0, times.getD e.2 0)),
      times[j] < e.1 ∨ e.2 < times[j]) ↔ (∀ e ∈ prs, ¬(e.1 ≤ j ∧ j ≤ e.2)) := by
    rw [List.forall_mem_map]
    refine forall₂_congr (fun e he => ?_)
    obtain ⟨h12, h2⟩ := hb e he
    have h1 : e.1 < times.length := lt_of_le_of_lt h12 h2
    have hg1 : times.getD e.1 0 = times.get ⟨e.1, h1⟩ := by
      rw [List.getD_eq_getElem _ _ h1]; rfl
    have hg2 : times.getD e.2 0 = times.get ⟨e.2, h2⟩ := by
      rw [List.getD_eq_getElem _ _ h2]; rfl
    have hgj : times[j] = times.get ⟨j, hj⟩ := rfl
    rw [hg1, hg2, hgj]
    have key : ∀ (a b : ℕ) (ha : a < times.length) (hb2 : b < times.length),
        times.get ⟨a, ha⟩ < times.get ⟨b, hb2⟩ ↔ a < b := by
      intro a b ha hb2
      rw [hmono.lt_iff_lt]
      exact Fin.mk_lt_mk
    rw [key j e.1 hj h1, key e.2 j h2 hj]
    omega
  constructor
  · rw [hcut, hmask]
    simp only [Bool.true_and]
    exact decide_eq_decide.mpr hiff
  · rw [hmask]
    simp only [Bool.true_and]
    constructor
    · intro h
      have hall := of_decide_eq_false h
      push_neg at hall
      obtain ⟨e, he, hc⟩ := hall
      exact ⟨e, he, hc⟩
    · rintro ⟨e, he, hc⟩
      exact decide_eq_false (fun hall => hall e he hc)

/-! ## prepare_derivatives with n_kernel = 1 -/

/-- Forward difference with the last difference repeated as a synthetic trailing
element: the value of `np.append(a[1:] - a[:-1], [a[-1] - a[-2]])`. -/
def fwdDiffRep (a : List ℚ) : List ℚ :=
  npDiff a ++ [pyGet a (-1) - pyGet a (-2)]

/-- Embedding of the `n_kernel == 1` branch of `prepare_derivatives`
(eclipse_finding.py lines 377-385): time deltas
`diff_t = np.diff(np.append(times, 2 * times[-1] - times[-2]))`, plain discrete
differences of each successive curve divided elementwise by `diff_t`, the
sign-inverted product curve, the unsmoothed signal, and raw and smoothed stacks
assigned to the same arrays. -/
def prepare_derivatives_k1 (times signal : List ℚ) :
    List ℚ × (List ℚ × List ℚ × List ℚ × List ℚ) × (List ℚ × List ℚ × List ℚ × List ℚ) :=
  let diff_t := npDiff (times ++ [2 * pyGet times (-1) - pyGet times (-2)])
  let deriv_1 := List.zipWith (· / ·) (fwdDiffRep signal) diff_t
  let deriv_2 := List.zipWith (· / ·) (fwdDiffRep deriv_1) diff_t
  let deriv_3 := List.zipWith (· / ·) (fwdDiffRep deriv_2) diff_t
  let deriv_13 := List.zipWith (fun x y => -(x * y)) deriv_1 deriv_3
  (signal, (deriv_1, deriv_2, deriv_3, deriv_13), (deriv_1, deriv_2, deriv_3, deriv_13))

theorem idx_eq_getElem (a : List ℚ) {i : ℕ} (h : i < a.length) : idx a i = a[i] :=
  List.getD_eq_getElem a 0 h

theorem idx_zipWith (f : ℚ → ℚ → ℚ) (a b : List ℚ) {i : ℕ}
    (ha : i < a.length) (hb : i < b.length) :
    idx (List.zipWith f a b) i = f (idx a i) (idx b i) := by
  have h : i < (List.zipWith f a b).length := by
    rw [List.length_zipWith]
    exact lt_min ha hb
  rw [idx_eq_getElem _ h, List.getElem_zipWith, idx_eq_getElem _ ha, idx_eq_getElem _ hb]

theorem length_npDiff (a : List ℚ) : (npDiff a).length = a.length - 1 := by
  simp [npDiff]

theorem idx_npDiff (a : List ℚ) {i : ℕ} (h : i + 1 < a.length) :
    idx (npDiff a) i = idx a (i + 1) - idx a i := by
  have hi : i < (npDiff a).length := by rw [length_npDiff]; omega
  have hts : i < a.tail.length := by rw [List.length_tail]; omega
  have ha : i < a.length := by omega
  rw [idx_eq_getElem _ hi]
  unfold npDiff
  rw [List.getElem_zipWith, List.getElem_tail, idx_eq_getElem _ h, idx_eq_getElem _ ha]

theorem pyGet_neg_one (a : List ℚ) : pyGet a (-1) = idx a (a.length - 1) := by
  simp [pyGet, idx]

theorem pyGet_neg_two (a : List ℚ) : pyGet a (-2) = idx a (a.length - 2) := by
  simp [pyGet, idx, Int.toNat_ofNat]

theorem length_fwdDiffRep (a : List ℚ) (h : 1 ≤ a.length) :
    (fwdDiffRep a).length = a.length := by
  simp only [fwdDiffRep, List.length_append, length_npDiff, List.length_singleton]
  omega

theorem idx_fwdDiffRep (a : List ℚ) {i : ℕ} (h1 : 2 ≤ a.length) (h : i < a.length) :
    idx (fwdDiffRep a) i =
      if i + 1 < a.length then idx a (i + 1) - idx a i
      else idx a (a.length - 1) - idx a (a.length - 2) := by
  by_cases hc : i + 1 < a.length
  · have hd : i < (npDiff a).length := by rw [length_npDiff]; omega
    have hall : i < (fwdDiffRep a).length := by rw [length_fwdDiffRep a (by omega)]; omega
    rw [idx_eq_getElem _ hall]
    unfold fwdDiffRep
    rw [List.getElem_append_left hd, ← idx_eq_getElem _ hd, idx_npDiff a hc]
    simp [hc]
  · have hi : i = a.length - 1 := by omega
    have hd : (npDiff a).length ≤ i := by rw [length_npDiff]; omega
    have hall : i < (fwdDiffRep a).length := by rw [length_fwdDiffRep a (by omega)]; omega
    rw [idx_eq_getElem _ hall]
    unfold fwdDiffRep
    rw [List.getElem_append_right hd]
    have h0 : i - (npDiff a).length < ([pyGet a (-1) - pyGet a (-2)] : List ℚ).length := by
      simp only [List.length_singleton]
      rw [length_npDiff]
      omega
    rw [← idx_eq_getElem _ h0]
    have h00 : i - (npDiff a).length = 0 := by rw [length_npDiff]; omega
    rw [h00]
    show pyGet a (-1) - pyGet a (-2) = _
    rw [pyGet_neg_one, pyGet_neg_two, if_neg hc]

/-- The time-delta array of `prepare_derivatives`: `diff_t[i] = times[i+1] - times[i]`
for interior points, and the synthetic trailing delta comes from the extrapolated
sample `2 * times[-1] - times[-2]`. -/
theorem idx_diff_t (times : List ℚ) (hL : 2 ≤ times.length) {i : ℕ} (h : i < times.length) :
    idx (npDiff (times ++ [2 * pyGet times (-1) - pyGet times (-2)])) i =
      if i + 1 < times.length then idx times (i + 1) - idx times i
      else 2 * idx times (times.length - 1) - idx times (times.length - 2)
        - idx times (times.length - 1) := by
  have hlen : (times ++ [2 * pyGet times (-1) - pyGet times (-2)]).length
      = times.length + 1 := by simp
  have hext : i + 1 < (times ++ [2 * pyGet times (-1) - pyGet times (-2)]).length := by
    rw [hlen]; omega
  rw [idx_npDiff _ hext]
  by_cases hc : i + 1 < times.length
  · have h1 : idx (times ++ [2 * pyGet times (-1) - pyGet times (-2)]) (i + 1)
        = idx times (i + 1) := by
      rw [idx_eq_getElem _ (by rw [hlen]; omega), List.getElem_append_left hc,
        idx_eq_getElem _ hc]
    have h0 : idx (times ++ [2 * pyGet times (-1) - pyGet times (-2)]) i = idx times i := by
      rw [idx_eq_getElem _ (by rw [hlen]; omega), List.getElem_append_left h,
        idx_eq_getElem _ h]
    rw [h1, h0]
    simp [hc]
  · have hi : i = times.length - 1 := by omega
    have h1 : idx (times ++ [2 * pyGet times (-1) - pyGet times (-2)]) (i + 1)
        = 2 * pyGet times (-1) - pyGet times (-2) := by
      rw [idx_eq_getElem _ (by rw [hlen]; omega),
        List.getElem_append_right (by omega)]
      have h0s : i + 1 - times.length
          < ([2 * pyGet times (-1) - pyGet times (-2)] : List ℚ).length := by
        simp only [List.length_singleton]
        omega
      rw [← idx_eq_getElem _ h0s]
      have h00 : i + 1 - times.length = 0 := by omega
      rw [h00]
      rfl
    have h0 : idx (times ++ [2 * pyGet times (-1) - pyGet times (-2)]) i = idx times i := by
      rw [idx_eq_getElem _ (by rw [hlen]; omega), List.getElem_append_left h,
        idx_eq_getElem _ h]
    rw [h1, h0, pyGet_neg_one, pyGet_neg_two, if_neg hc, hi]

theorem deriv_step_length (a times : List ℚ) (hL : 2 ≤ times.length)
    (ha : a.length = times.length) :
    (List.zipWith (· / ·) (fwdDiffRep a)
      (npDiff (times ++ [2 * pyGet times (-1) - pyGet times (-2)]))).length
      = times.length := by
  rw [List.length_zipWith, length_fwdDiffRep a (by omega), length_npDiff]
  simp only [List.length_append, List.length_singleton]
  omega

/-- One differentiation step of `prepare_derivatives` at `n_kernel = 1`: the
forward difference with repeated trailing element, divided by the time deltas. -/
theorem deriv_step_idx (a times : List ℚ) (hL : 2 ≤ times.length)
    (ha : a.length = times.length) {i : ℕ} (h : i < times.length) :
    idx (List.zipWith (· / ·) (fwdDiffRep a)
        (npDiff (times ++ [2 * pyGet times (-1) - pyGet times (-2)]))) i =
      (if i + 1 < times.length then idx a (i + 1) - idx a i
       else idx a (times.length - 1) - idx a (times.length - 2)) /
      (if i + 1 < times.length then idx times (i + 1) - idx times i
       else 2 * idx times (times.length - 1) - idx times (times.length - 2)
         - idx times (times.length - 1)) := by
  have h1 : i < (fwdDiffRep a).length := by rw [length_fwdDiffRep a (by omega)]; omega
  have h2 : i < (npDiff (times ++ [2 * pyGet times (-1) - pyGet times (-2)])).length := by
    rw [length_npDiff]
    simp only [List.length_append, List.length_singleton]
    omega
  rw [idx_zipWith _ _ _ h1 h2, idx_fwdDiffRep a (by omega) (by omega),
    idx_diff_t times hL h, ha]

/-- C3: for every strictly increasing times array of length at least 2 and every
signal of the same length, `prepare_derivatives` with `n_kernel = 1` returns the
signal unsmoothed, identical raw and smoothed derivative stacks, each derivative
equal to the plain discrete forward difference of the previous curve (with the
last difference repeated as a synthetic trailing element) divided elementwise by
the time deltas — the trailing delta coming from the extrapolated sample
`2 * times[-1] - times[-2]` — and the fourth curve equal to minus the product of
the first and third derivatives. -/
theorem C3_prepare_derivatives_k1 (times signal : List ℚ)
    (hsort : times.Sorted (· < ·)) (hL : 2 ≤ times.length)
    (hsig : signal.length = times.length) :
    (prepare_derivatives_k1 times signal).1 = signal ∧
    (prepare_derivatives_k1 times signal).2.2 = (prepare_derivatives_k1 times signal).2.1 ∧
    (∀ i, i < times.length →
      (idx (prepare_derivatives_k1 times signal).2.1.1 i =
        (if i + 1 < times.length then idx signal (i + 1) - idx signal i
         else idx signal (times.length - 1) - idx signal (times.length - 2)) /
        (if i + 1 < times.length then idx times (i + 1) - idx times i
         else 2 * idx times (times.length - 1) - idx times (times.length - 2)
           - idx times (times.length - 1))) ∧
      (idx (prepare_derivatives_k1 times signal).2.1.2.1 i =
        (if i + 1 < times.length
         then idx (prepare_derivatives_k1 times signal).2.1.1 (i + 1)
           - idx (prepare_derivatives_k1 times signal).2.1.1 i
         else idx (prepare_derivatives_k1 times signal).2.1.1 (times.length - 1)
           - idx (prepare_derivatives_k1 times signal).2.1.1 (times.length - 2)) /
        (if i + 1 < times.length then idx times (i + 1) - idx times i
         else 2 * idx times (times.length - 1) - idx times (times.length - 2)
           - idx times (times.length - 1))) ∧
      (idx (prepare_derivatives_k1 times signal).2.1.2.2.1 i =
        (if i + 1 < times.length
         then idx (prepare_derivatives_k1 times signal).2.1.2.1 (i + 1)
           - idx (prepare_derivatives_k1 times signal).2.1.2.1 i
         else idx (prepare_derivatives_k1 times signal).2.1.2.1 (times.length - 1)
           - idx (prepare_derivatives_k1 times signal).2.1.2.1 (times.length - 2)) /
        (if i + 1 < times.length then idx times (i + 1) - idx times i
         else 2 * idx times (times.length - 1) - idx times (times.length - 2)
           - idx times (times.length - 1))) ∧
      (idx (prepare_derivatives_k1 times signal).2.1.2.2.2 i =
        -(idx (prepare_derivatives_k1 times signal).2.1.1 i *
          idx (prepare_derivatives_k1 times signal).2.1.2.2.1 i))) := by
  refine ⟨rfl, rfl, ?_⟩
  intro i hi
  have hd1len : (prepare_derivatives_k1 times signal).2.1.1.length = times.length :=
    deriv_step_length signal times hL hsig
  have hd2len : (prepare_derivatives_k1 times signal).2.1.2.1.length = times.length :=
    deriv_step_length _ times hL hd1len
  have hd3len : (prepare_derivatives_k1 times signal).2.1.2.2.1.length = times.length :=
    deriv_step_length _ times hL hd2len
  refine ⟨deriv_step_idx signal times hL hsig hi,
    deriv_step_idx _ times hL hd1len hi,
    deriv_step_idx _ times hL hd2len hi, ?_⟩
  have h1 : i < (prepare_derivatives_k1 times signal).2.1.1.length := by
    rw [hd1len]; exact hi
  have h3 : i < (prepare_derivatives_k1 times signal).2.1.2.2.1.length := by
    rw [hd3len]; exact hi
  exact idx_zipWith _ _ _ h1 h3

/-- Witness for C3 with times [0, 1, 3] and signal [1, 2, 4]. -/
theorem C3_prepare_derivatives_k1_witness :
    (prepare_derivatives_k1 [0, 1, 3] [1, 2, 4]).1 = [1, 2, 4] ∧
    (prepare_derivatives_k1 [0, 1, 3] [1, 2, 4]).2.2
      = (prepare_derivatives_k1 [0, 1, 3] [1, 2, 4]).2.1 ∧
    (∀ i, i < ([0, 1, 3] : List ℚ).length →
      (idx (prepare_derivatives_k1 [0, 1, 3] [1, 2, 4]).2.1.1 i =
        (if i + 1 < ([0, 1, 3] : List ℚ).length
         then idx [1, 2, 4] (i + 1) - idx [1, 2, 4] i
         else idx [1, 2, 4] (([0, 1, 3] : List ℚ).length - 1)
           - idx [1, 2, 4] (([0, 1, 3] : List ℚ).length - 2)) /
        (if i + 1 < ([0, 1, 3] : List ℚ).length
         then idx [0, 1, 3] (i + 1) - idx [0, 1, 3] i
         else 2 * idx [0, 1, 3] (([0, 1, 3] : List ℚ).length - 1)
           - idx [0, 1, 3] (([0, 1, 3] : List ℚ).length - 2)
           - idx [0, 1, 3] (([0, 1, 3] : List ℚ).length - 1))) ∧
      (idx (prepare_derivatives_k1 [0, 1, 3] [1, 2, 4]).2.1.2.1 i =
        (if i + 1 < ([0, 1, 3] : List ℚ).length
         then idx (prepare_derivatives_k1 [0, 1, 3] [1, 2, 4]).2.1.1 (i + 1)
           - idx (prepare_derivatives_k1 [0, 1, 3] [1, 2, 4]).2.1.1 i
         else idx (prepare_derivatives_k1 [0, 1, 3] [1, 2, 4]).2.1.1
             (([0, 1, 3] : List ℚ).length - 1)
           - idx (prepare_derivatives_k1 [0, 1, 3] [1, 2, 4]).2.1.1
             (([0, 1, 3] : List ℚ).length - 2)) /
        (if i + 1 < ([0, 1, 3] : List ℚ).length
         then idx [0, 1, 3] (i + 1) - idx [0, 1, 3] i
         else 2 * idx [0, 1, 3] (([0, 1, 3] : List ℚ).length - 1)
           - idx [0, 1, 3] (([0, 1, 3] : List ℚ).length - 2)
           - idx [0, 1, 3] (([0, 1, 3] : List ℚ).length - 1))) ∧
      (idx (prepare_derivatives_k1 [0, 1, 3] [1, 2, 4]).2.1.2.2.1 i =
        (if i + 1 < ([0, 1, 3] : List ℚ).length
         then idx (prepare_derivatives_k1 [0, 1, 3] [1, 2, 4]).2.1.2.1 (i + 1)
           - idx (prepare_derivatives_k1 [0, 1, 3] [1, 2, 4]).2.1.2.1 i
         else idx (prepare_derivatives_k1 [0, 1, 3] [1, 2, 4]).2.1.2.1
             (([0, 1, 3] : List ℚ).length - 1)
           - idx (prepare_derivatives_k1 [0, 1, 3] [1, 2, 4]).2.1.2.1
             (([0, 1, 3] : List ℚ).length - 2)) /
        (if i + 1 < ([0, 1, 3] : List ℚ).length
         then idx [0, 1, 3] (i + 1) - idx [0, 1, 3] i
         else 2 * idx [0, 1, 3] (([0, 1, 3] : List ℚ).length - 1)
           - idx [0, 1, 3] (([0, 1, 3] : List ℚ).length - 2)
           - idx [0, 1, 3] (([0, 1, 3] : List ℚ).length - 1))) ∧
      (idx (prepare_derivatives_k1 [0, 1, 3] [1, 2, 4]).2.1.2.2.2 i =
        -(idx (prepare_derivatives_k1 [0, 1, 3] [1, 2, 4]).2.1.1 i *
          idx (prepare_derivatives_k1 [0, 1, 3] [1, 2, 4]).2.1.2.2.1 i))) :=
  C3_prepare_derivatives_k1 [0, 1, 3] [1, 2, 4]
    (by norm_num [List.Sorted]) (by norm_num) (by norm_num)

/-! ## smooth -/

theorem countTrue_nil : countTrue [] = 0 := rfl

theorem countTrue_cons_true (m : List Bool) :
    countTrue (true :: m) = countTrue m + 1 := by
  simp [countTrue, List.count_cons]

theorem countTrue_cons_false (m : List Bool) :
    countTrue (false :: m) = countTrue m := by
  simp [countTrue, List.count_cons]

theorem maskSelect_cons_true {α : Type} (x : α) (xs : List α) (bs : List Bool) :
    maskSelect (x :: xs) (true :: bs) = x :: maskSelect xs bs := by
  simp [maskSelect]

theorem maskSelect_cons_false {α : Type} (x : α) (xs : List α) (bs : List Bool) :
    maskSelect (x :: xs) (false :: bs) = maskSelect xs bs := by
  simp [maskSelect]

theorem length_maskSelect {α : Type} (l : List α) (m : List Bool)
    (h : l.length = m.length) : (maskSelect l m).length = countTrue m := by
  induction l generalizing m with
  | nil =>
    have hmn : m = [] := List.length_eq_zero.mp h.symm
    subst hmn
    simp [maskSelect, countTrue]
  | cons x xs ih =>
    cases m with
    | nil => simp at h
    | cons b bs =>
      have hlen : xs.length = bs.length := by simpa using h
      cases b
      · rw [maskSelect_cons_false, countTrue_cons_false, ih bs hlen]
      · rw [maskSelect_cons_true, countTrue_cons_true]
        simp [ih bs hlen]

theorem maskAssignList_length {α : Type} (base : List α) (m : List Bool) (vs : List α) :
    (maskAssignList base m vs).length = base.length := by
  induction base generalizing m vs with
  | nil => simp [maskAssignList]
  | cons x xs ih =>
    cases m with
    | nil => simp [maskAssignList]
    | cons b bs =>
      cases b
      · simpa [maskAssignList] using ih bs vs
      · cases vs with
        | nil => simpa [maskAssignList] using ih bs []
        | cons v vt => simpa [maskAssignList] using ih bs vt

theorem countTrue_take_lt (m : List Bool) (j : ℕ) (hj : j < m.length)
    (hmj : m.getD j false = true) : countTrue (m.take j) < countTrue m := by
  induction m generalizing j with
  | nil => simp at hj
  | cons b bs ih =>
    cases j with
    | zero =>
      have hb : b = true := by simpa [List.getD] using hmj
      subst hb
      have h0 : countTrue (List.take 0 (true :: bs)) = 0 := rfl
      rw [h0, countTrue_cons_true]
      omega
    | succ p =>
      have hp : p < bs.length := by simpa using hj
      have hm : bs.getD p false = true := by simpa using hmj
      have := ih p hp hm
      simp only [List.take_succ_cons]
      cases b
      · rw [countTrue_cons_false, countTrue_cons_false]
        omega
      · rw [countTrue_cons_true, countTrue_cons_true]
        omega

theorem maskAssignList_getD {α : Type} (base : List α) (m : List Bool) (vs : List α)
    (hbm : base.length = m.length) (hv : vs.length = countTrue m) (j : ℕ) (d : α) :
    (maskAssignList base m vs).getD j d =
      if m.getD j false then vs.getD (countTrue (m.take j)) d else base.getD j d := by
  induction base generalizing m vs j with
  | nil =>
    have hm : m = [] := List.length_eq_zero.mp hbm.symm
    subst hm
    simp [maskAssignList]
  | cons x xs ih =>
    cases m with
    | nil => simp at hbm
    | cons b bs =>
      have hlen : xs.length = bs.length := by simpa using hbm
      cases b
      · rw [countTrue_cons_false] at hv
        show (x :: maskAssignList xs bs vs).getD j d = _
        cases j with
        | zero => simp [List.getD, countTrue]
        | succ p =>
          have := ih bs vs hlen hv p
          simpa using this
      · rw [countTrue_cons_true] at hv
        cases vs with
        | nil =>
          have h0 : (0 : ℕ) = countTrue bs + 1 := by simpa using hv
          omega
        | cons v vt =>
          have hvb : vt.length = countTrue bs := by
            have h1 : vt.length + 1 = countTrue bs + 1 := by simpa using hv
            omega
          show (v :: maskAssignList xs bs vt).getD j d = _
          cases j with
          | zero => simp [List.getD, countTrue]
          | succ p =>
            have := ih bs vt hlen hvb p
            simp only [List.take_succ_cons, countTrue_cons_true]
            simpa using this

theorem maskSelect_getD {α : Type} (l : List α) (m : List Bool)
    (hlm : l.length = m.length) (j : ℕ) (d : α) (hj : j < m.length)
    (hmj : m.getD j false = true) :
    (maskSelect l m).getD (countTrue (m.take j)) d = l.getD j d := by
  induction l generalizing m j with
  | nil =>
    have hm : m = [] := List.length_eq_zero.mp hlm.symm
    subst hm
    simp at hj
  | cons x xs ih =>
    cases m with
    | nil => simp at hj
    | cons b bs =>
      have hlen : xs.length = bs.length := by simpa using hlm
      cases j with
      | zero =>
        have hb : b = true := by simpa [List.getD] using hmj
        subst hb
        rw [maskSelect_cons_true]
        simp [countTrue]
      | succ p =>
        have hp : p < bs.length := by simpa using hj
        have hm : bs.getD p false = true := by simpa using hmj
        cases b
        · rw [maskSelect_cons_false]
          simp only [List.take_succ_cons, countTrue_cons_false]
          simpa using ih bs hlen p hp hm
        · rw [maskSelect_cons_true]
          simp only [List.take_succ_cons, countTrue_cons_true]
          have := ih bs hlen p hp hm
          simpa using this

theorem getD_map_eq {α β : Type} (g : α → β) (l : List α) (j : ℕ) (hj : j < l.length)
    (d : β) (d0 : α) : (l.map g).getD j d = g (l.getD j d0) := by
  rw [List.getD_eq_getElem _ _ (by simpa using hj), List.getElem_map,
    List.getD_eq_getElem _ _ hj]

/-! ## measure_eclipses -/

/-- Embedding of `measure_eclipses` (eclipse_finding.py lines 1351-1382).
An eclipse record is the index quadruple (left outer `l_o`, left inner `l_i`,
right inner `r_i`, right outer `r_o`); flags are 0 = full, 1 = left half,
2 = right half. The numpy fancy-indexed assignments
`widths[mask] = times[col_a[mask]] - times[col_b[mask]]` are rendered as
`maskAssignList`/`maskSelect` over the per-record value lists (selecting the
records first and then reading `times` is elementwise the same). Returns
(ecl_mid, widths, depths, ratios). -/
def measure_eclipses (times signal : List ℚ) (ecl_indices : List (ℕ × ℕ × ℕ × ℕ))
    (flags_lrf : List ℕ) : List ℚ × List ℚ × List ℚ × List ℚ :=
  if 0 < flags_lrf.length then
    let n := flags_lrf.length
    let m_full := flags_lrf.map (fun f => decide (f = 0))
    let m_left := flags_lrf.map (fun f => decide (f = 1))
    let m_right := flags_lrf.map (fun f => decide (f = 2))
    let widths1 := maskAssignList (List.replicate n (0 : ℚ)) m_full
      (maskSelect (ecl_indices.map (fun e => idx times e.2.2.2 - idx times e.1)) m_full)
    let widths2 := maskAssignList widths1 m_left
      (maskSelect (ecl_indices.map (fun e => idx times e.2.1 - idx times e.1)) m_left)
    let widths := maskAssignList widths2 m_right
      (maskSelect (ecl_indices.map (fun e => idx times e.2.2.2 - idx times e.2.2.1)) m_right)
    let ratios := maskAssignList (List.replicate n (0 : ℚ)) m_full
      (List.zipWith (· / ·)
        (maskSelect (ecl_indices.map (fun e => idx times e.2.2.1 - idx times e.2.1)) m_full)
        (maskSelect widths m_full))
    let depths := List.zipWith
      (fun e f =>
        ((idx signal e.1 - idx signal e.2.1) + (idx signal e.2.2.2 - idx signal e.2.2.1)) /
          (2 * (if f = 0 then (1 : ℚ) else 0) + (if f = 1 then 1 else 0)
            + (if f = 2 then 1 else 0)))
      ecl_indices flags_lrf
    let mid1 := maskAssignList (List.replicate n (0 : ℚ)) m_full
      (maskSelect (ecl_indices.map (fun e =>
        (idx times e.1 + idx times e.2.2.2 + idx times e.2.1 + idx times e.2.2.1) / 4))
        m_full)
    let mid2 := maskAssignList mid1 m_left
      (maskSelect (ecl_indices.map (fun e => idx times e.2.1)) m_left)
    let ecl_mid := maskAssignList mid2 m_right
      (maskSelect (ecl_indices.map (fun e => idx times e.2.2.1)) m_right)
    (ecl_mid, widths, depths, ratios)
  else ([], [], [], [])

/-- C4 (code-versus-docstring divergence exhibited at a failing input):
`measure_eclipses` on a full record (0,1,3,4) and a left-half record (0,2,2,2).
The full eclipse gets midpoint = average of the four edge times, width =
outer-edge span, depth = average of the two height differences, flat-bottom
ratio = inner span / outer span — as the claim says. The left-half record gets
midpoint = its inner-edge time and depth from the left side only, but its width
is the single measured outer-to-inner span, NOT twice the single measured
half-width as the claim's main clause (and the function's own docstring,
"estimated as twice the width of half the eclipse") require. -/
theorem C4_measure_eclipses_eval :
    measure_eclipses [0, 1, 2, 3, 4] [10, 8, 0, 8, 10] [(0, 1, 3, 4), (0, 2, 2, 2)] [0, 1]
      = ([2, 2], [4, 2], [2, 10], [1 / 2, 0]) ∧
    (measure_eclipses [0, 1, 2, 3, 4] [10, 8, 0, 8, 10]
        [(0, 1, 3, 4), (0, 2, 2, 2)] [0, 1]).2.1.getD 1 0
      ≠ 2 * (idx [0, 1, 2, 3, 4] 2 - idx [0, 1, 2, 3, 4] 0) := by
  constructor <;> norm_num [measure_eclipses, maskAssignList, maskSelect, idx]

/-! ## match_in_egress: post-match sanity checks -/

/-- Read of an integer index array (default 0 out of range). -/
def nidx (l : List ℕ) (i : ℕ) : ℕ := l.getD i 0

/-- Python slice `l[a : b + 1]`. -/
def npSlice (l : List ℚ) (a b : ℕ) : List ℚ := (l.drop a).take (b + 1 - a)

theorem maskSelect_map_self {α : Type} (l : List α) (p : α → Bool) :
    maskSelect l (l.map p) = l.filter p := by
  induction l with
  | nil => rfl
  | cons x xs ih =>
    by_cases hp : p x = true
    · rw [List.map_cons, hp, maskSelect_cons_true, ih]
      simp [List.filter_cons, hp]
    · rw [List.map_cons, Bool.eq_false_iff.mpr hp, maskSelect_cons_false, ih]
      simp [List.filter_cons, hp]

/-- Bottom-index overlap adjustment of `match_in_egress` (lines 1068-1078): if
the bottom indices cross, move each to the midpoint of its edge and bottom
(integer division); if they still cross, fall back to the edge indices. -/
def mie_bots (peaks_edge peaks_bot : List ℕ) (e : ℕ × ℕ) : ℕ × ℕ :=
  let pk1 := nidx peaks_edge e.1
  let pk2 := nidx peaks_edge e.2
  let pk1b := nidx peaks_bot e.1
  let pk2b := nidx peaks_bot e.2
  let p := if pk1b > pk2b then ((pk1 + pk1b) / 2, (pk2 + pk2b) / 2) else (pk1b, pk2b)
  if p.1 > p.2 then (pk1, pk2) else p

/-- Average smoothed-signal level inside a matched pair (line 1079). -/
def mie_avg_inside (signal_s : List ℚ) (peaks_edge peaks_bot : List ℕ) (e : ℕ × ℕ) : ℚ :=
  npMean (npSlice signal_s (mie_bots peaks_edge peaks_bot e).1
    (mie_bots peaks_edge peaks_bot e).2)

/-- Standard deviation of the smoothed signal inside a matched pair (line 1080). -/
def mie_std_inside (sq : ℚ → ℚ) (signal_s : List ℚ) (peaks_edge peaks_bot : List ℕ)
    (e : ℕ × ℕ) : ℚ :=
  npStd sq (npSlice signal_s (mie_bots peaks_edge peaks_bot e).1
    (mie_bots peaks_edge peaks_bot e).2)

/-- Flank windows of a matched pair (lines 1081-1095): the left flank
`[max(0, min(pk1 - (pk2-pk1)//2, max_i)), pk1]` and the right flank
`[pk2, max(0, min(pk2 + (pk2-pk1)//2, max_i - 1))]`, used on whichever sides
exist. Average level and scatter are the mean of the two one-sided values
when both sides exist. -/
def mie_outside (sq : ℚ → ℚ) (times signal_s : List ℚ) (peaks_edge : List ℕ)
    (e : ℕ × ℕ) : ℚ × ℚ :=
  let max_i := times.length - 1
  let pk1 := nidx peaks_edge e.1
  let pk2 := nidx peaks_edge e.2
  let half : ℤ := ((pk2 : ℤ) - (pk1 : ℤ)).fdiv 2
  let pk1_l : ℕ := (max 0 (min ((pk1 : ℤ) - half) (max_i : ℤ))).toNat
  let pk2_r : ℕ := (max 0 (min ((pk2 : ℤ) + half) ((max_i : ℤ) - 1))).toNat
  if 0 < pk1 ∧ pk2 < max_i then
    (npMean (npSlice signal_s pk1_l pk1) / 2 + npMean (npSlice signal_s pk2 pk2_r) / 2,
      npStd sq (npSlice signal_s pk1_l pk1) / 2 + npStd sq (npSlice signal_s pk2 pk2_r) / 2)
  else if 0 < pk1 then
    (npMean (npSlice signal_s pk1_l pk1), npStd sq (npSlice signal_s pk1_l pk1))
  else if pk2 < max_i then
    (npMean (npSlice signal_s pk2 pk2_r), npStd sq (npSlice signal_s pk2 pk2_r))
  else (0, 0)

/-- Sample count between the matched edges over the matched time width in units
of the median time step (line 1097): `(pk2 - pk1) / (full_width / t_step)`. -/
def mie_gap_ratio (times : List ℚ) (peaks_edge : List ℕ) (e : ℕ × ℕ) : ℚ :=
  let pk1 := nidx peaks_edge e.1
  let pk2 := nidx peaks_edge e.2
  let t_step := npMedian (npDiff times)
  ((pk2 : ℚ) - (pk1 : ℚ)) / ((idx times pk2 - idx times pk1) / t_step)

/-- Ratio of the larger to the smaller added_snr of the two sides (lines
1098-1099). -/
def mie_snr_diff (added_snr : List ℚ) (e : ℕ × ℕ) : ℚ :=
  max (idx added_snr e.1) (idx added_snr e.2) / min (idx added_snr e.1) (idx added_snr e.2)

/-- The conjunction of the three post-match sanity checks (lines 1100-1102):
`avg_outside - avg_inside > min(std_inside, std_outside)`, `gap_ratio > 0.5`
and `snr_diff < 1.8`. -/
def mie_passed (sq : ℚ → ℚ) (times signal_s added_snr : List ℚ)
    (peaks_edge peaks_bot : List ℕ) (e : ℕ × ℕ) : Bool :=
  decide ((mie_outside sq times signal_s peaks_edge e).1
      - mie_avg_inside signal_s peaks_edge peaks_bot e
    > min (mie_std_inside sq signal_s peaks_edge peaks_bot e)
        (mie_outside sq times signal_s peaks_edge e).2)
  && decide (mie_gap_ratio times peaks_edge e > 1 / 2)
  && decide (mie_snr_diff added_snr e < 9 / 5)

/-- Embedding of the post-match filtering stage of `match_in_egress`
(eclipse_finding.py lines 1055-1108): given the candidate (ingress, egress)
pairs produced by the matching loop, keep `full_ecl[passed]` and mark the used
peaks; with no candidates, every peak stays unused. -/
def match_in_egress_filter (sq : ℚ → ℚ) (times signal_s added_snr : List ℚ)
    (peaks_edge peaks_bot : List ℕ) (full_ecl : List (ℕ × ℕ)) :
    List (ℕ × ℕ) × List Bool :=
  if full_ecl.length = 0 then ([], List.replicate added_snr.length true)
  else
    let kept := maskSelect full_ecl
      (full_ecl.map (mie_passed sq times signal_s added_snr peaks_edge peaks_bot))
    let not_used1 := idxAssignConst (List.replicate added_snr.length true)
      (kept.map (fun e => e.1)) false
    (kept, idxAssignConst not_used1 (kept.map (fun e => e.2)) false)

/-- C5: a candidate (ingress, egress) pair appears in the `full_ecl` list
returned by `match_in_egress` exactly when it was produced by the matching loop
and passes all three post-match sanity checks: the average smoothed-signal
level inside the eclipse is lower than the average flanking level by more than
the local scatter (the minimum of the inside and outside standard deviations),
the number of samples between the matched edges divided by the matched time
width in units of the median time step exceeds 0.5, and the ratio of the larger
to the smaller added_snr of the two sides is less than 1.8; any candidate pair
failing a check is excluded. -/
theorem C5_match_in_egress_filter_checks (sq : ℚ → ℚ)
    (times signal_s added_snr : List ℚ) (peaks_edge peaks_bot : List ℕ)
    (full_ecl : List (ℕ × ℕ)) (e : ℕ × ℕ) :
    e ∈ (match_in_egress_filter sq times signal_s added_snr peaks_edge peaks_bot
        full_ecl).1 ↔
      e ∈ full_ecl ∧
      ((mie_outside sq times signal_s peaks_edge e).1
          - mie_avg_inside signal_s peaks_edge peaks_bot e
        > min (mie_std_inside sq signal_s peaks_edge peaks_bot e)
            (mie_outside sq times signal_s peaks_edge e).2) ∧
      mie_gap_ratio times peaks_edge e > 1 / 2 ∧
      mie_snr_diff added_snr e < 9 / 5 := by
  unfold match_in_egress_filter
  by_cases h0 : full_ecl.length = 0
  · have he : full_ecl = [] := List.length_eq_zero.mp h0
    subst he
    simp
  · rw [if_neg h0]
    simp only [maskSelect_map_self, List.mem_filter]
    rw [mie_passed]
    simp [and_assoc]

/-! ## eclipse_score: penalty and score formula -/

/-- Embedding of the score-combination block of `eclipse_score` /
`eclipse_score_attr` (eclipse_finding.py lines 2374-2384 and 2461-2472),
taking the five attributes as inputs (they are produced by the preceding
attribute computations) and `np.sqrt` as `sq`. Returns (score, penalty):
`wide` is true when primaries exist and the mean primary width — maxed with
the mean secondary width when secondaries exist — exceeds `0.8 * period`;
`penalty = 1 - 0.5 * ((not any(m_full & prim_sec)) | wide)`; and
`score = attr_0 * attr_2 * sqrt(attr_1² + attr_2² + attr_3² + attr_4²) / 2
* penalty`. -/
def eclipse_score_block (sq : ℚ → ℚ) (period : ℚ) (widths : List ℚ)
    (flags_pst flags_lrf : List ℕ) (attr_0 attr_1 attr_2 attr_3 attr_4 : ℚ) : ℚ × ℚ :=
  let primaries := flags_pst.map (fun f => decide (f = 1))
  let secondaries := flags_pst.map (fun f => decide (f = 2))
  let prim_sec := List.zipWith (· || ·) primaries secondaries
  let m_full := flags_lrf.map (fun f => decide (f = 0))
  let wide :=
    if anyTrue primaries then
      decide ((if anyTrue secondaries then
          max (npMean (maskSelect widths primaries)) (npMean (maskSelect widths secondaries))
        else npMean (maskSelect widths primaries)) > 4 / 5 * period)
    else false
  let penalty : ℚ :=
    1 - 1 / 2 * (if (¬ anyTrue (List.zipWith (· && ·) m_full prim_sec)) ∨ wide then 1 else 0)
  (attr_0 * attr_2 * sq (attr_1 ^ 2 + attr_2 ^ 2 + attr_3 ^ 2 + attr_4 ^ 2) / 2 * penalty,
    penalty)

/-- C6 (amended): whenever at least one eclipse is classified primary or
secondary, the eclipse score equals
`attr_0 × attr_2 × sqrt(attr_1² + attr_2² + attr_3² + attr_4²) / 2` multiplied
by the penalty, and the penalty is 0.5 exactly when no full eclipse exists
among the primaries/secondaries, or when at least one primary exists and the
mean primary width — or, when secondaries also exist, the larger of the mean
primary and mean secondary widths — exceeds 0.8 times the period; otherwise the
penalty is 1. (When no primary exists the width condition is not evaluated,
even if wide secondaries exist.) -/
theorem C6_eclipse_score_formula (sq : ℚ → ℚ) (period : ℚ) (widths : List ℚ)
    (flags_pst flags_lrf : List ℕ) (a0 a1 a2 a3 a4 : ℚ)
    (hps : anyTrue (List.zipWith (· || ·) (flags_pst.map (fun f => decide (f = 1)))
      (flags_pst.map (fun f => decide (f = 2)))) = true) :
    (eclipse_score_block sq period widths flags_pst flags_lrf a0 a1 a2 a3 a4).1
      = a0 * a2 * sq (a1 ^ 2 + a2 ^ 2 + a3 ^ 2 + a4 ^ 2) / 2
        * (eclipse_score_block sq period widths flags_pst flags_lrf a0 a1 a2 a3 a4).2 ∧
    (eclipse_score_block sq period widths flags_pst flags_lrf a0 a1 a2 a3 a4).2
      = if (¬ anyTrue (List.zipWith (· && ·) (flags_lrf.map (fun f => decide (f = 0)))
              (List.zipWith (· || ·) (flags_pst.map (fun f => decide (f = 1)))
                (flags_pst.map (fun f => decide (f = 2))))) = true)
            ∨ (anyTrue (flags_pst.map (fun f => decide (f = 1))) = true ∧
                (if anyTrue (flags_pst.map (fun f => decide (f = 2))) = true then
                    max (npMean (maskSelect widths (flags_pst.map (fun f => decide (f = 1)))))
                      (npMean (maskSelect widths (flags_pst.map (fun f => decide (f = 2)))))
                  else npMean (maskSelect widths (flags_pst.map (fun f => decide (f = 1)))))
                  > 4 / 5 * period)
        then 1 / 2 else 1 := by
  constructor
  · rfl
  · simp only [eclipse_score_block]
    have hcequiv : ((¬ anyTrue (List.zipWith (· && ·)
            (flags_lrf.map (fun f => decide (f = 0)))
            (List.zipWith (· || ·) (flags_pst.map (fun f => decide (f = 1)))
              (flags_pst.map (fun f => decide (f = 2))))) = true)
        ∨ ((if anyTrue (flags_pst.map (fun f => decide (f = 1))) = true then
              decide ((if anyTrue (flags_pst.map (fun f => decide (f = 2))) = true then
                  max (npMean (maskSelect widths (flags_pst.map (fun f => decide (f = 1)))))
                    (npMean (maskSelect widths (flags_pst.map (fun f => decide (f = 2)))))
                else npMean (maskSelect widths (flags_pst.map (fun f => decide (f = 1)))))
                > 4 / 5 * period)
            else false) = true))
        ↔ ((¬ anyTrue (List.zipWith (· && ·) (flags_lrf.map (fun f => decide (f = 0)))
              (List.zipWith (· || ·) (flags_pst.map (fun f => decide (f = 1)))
                (flags_pst.map (fun f => decide (f = 2))))) = true)
            ∨ (anyTrue (flags_pst.map (fun f => decide (f = 1))) = true ∧
                (if anyTrue (flags_pst.map (fun f => decide (f = 2))) = true then
                    max (npMean (maskSelect widths (flags_pst.map (fun f => decide (f = 1)))))
                      (npMean (maskSelect widths (flags_pst.map (fun f => decide (f = 2)))))
                  else npMean (maskSelect widths (flags_pst.map (fun f => decide (f = 1)))))
                  > 4 / 5 * period)) := by
      by_cases hp : anyTrue (flags_pst.map (fun f => decide (f = 1))) = true
      · simp [hp]
      · simp [hp]
    simp only [hcequiv]
    by_cases h : (¬ anyTrue (List.zipWith (· && ·) (flags_lrf.map (fun f => decide (f = 0)))
          (List.zipWith (· || ·) (flags_pst.map (fun f => decide (f = 1)))
            (flags_pst.map (fun f => decide (f = 2))))) = true)
        ∨ (anyTrue (flags_pst.map (fun f => decide (f = 1))) = true ∧
            (if anyTrue (flags_pst.map (fun f => decide (f = 2))) = true then
                max (npMean (maskSelect widths (flags_pst.map (fun f => decide (f = 1)))))
                  (npMean (maskSelect widths (flags_pst.map (fun f => decide (f = 2)))))
              else npMean (maskSelect widths (flags_pst.map (fun f => decide (f = 1)))))
              > 4 / 5 * period)
    · rw [if_pos h, if_pos h]
      norm_num
    · rw [if_neg h, if_neg h]
      norm_num

/-- Witness for C6 (amended): one primary full eclipse of width 1 at period 10
(narrow, so penalty 1), with all five attributes 1 and the identity standing in
for sqrt. -/
theorem C6_eclipse_score_formula_witness :
    (eclipse_score_block (fun q => q) 10 [1] [1] [0] 1 1 1 1 1).1
      = 1 * 1 * (fun (q : ℚ) => q) (1 ^ 2 + 1 ^ 2 + 1 ^ 2 + 1 ^ 2) / 2
        * (eclipse_score_block (fun q => q) 10 [1] [1] [0] 1 1 1 1 1).2 ∧
    (eclipse_score_block (fun q => q) 10 [1] [1] [0] 1 1 1 1 1).2
      = if (¬ anyTrue (List.zipWith (· && ·) (([0] : List ℕ).map (fun f => decide (f = 0)))
              (List.zipWith (· || ·) (([1] : List ℕ).map (fun f => decide (f = 1)))
                (([1] : List ℕ).map (fun f => decide (f = 2))))) = true)
            ∨ (anyTrue (([1] : List ℕ).map (fun f => decide (f = 1))) = true ∧
                (if anyTrue (([1] : List ℕ).map (fun f => decide (f = 2))) = true then
                    max (npMean (maskSelect [1] (([1] : List ℕ).map (fun f => decide (f = 1)))))
                      (npMean (maskSelect [1] (([1] : List ℕ).map (fun f => decide (f = 2)))))
                  else npMean (maskSelect [1] (([1] : List ℕ).map (fun f => decide (f = 1)))))
                  > 4 / 5 * 10)
        then 1 / 2 else 1 :=
  C6_eclipse_score_formula (fun q => q) 10 [1] [1] [0] 1 1 1 1 1 (by decide)

/-- Counterexample to C6 as stated: one eclipse classified secondary (no
primaries), full, of width 1 with period 1. The mean secondary eclipse width
(1) exceeds 0.8 times the period, so the claim prescribes penalty 0.5; but the
code only tests widths when primaries exist, and a full prim/sec eclipse is
present, so the computed penalty is 1. -/
theorem C6_eclipse_score_counterexample :
    (eclipse_score_block (fun q => q) 1 [1] [2] [0] 1 1 1 1 1).2 = 1 ∧
    npMean (maskSelect [1] (([2] : List ℕ).map (fun f => decide (f = 2)))) > 4 / 5 * 1 ∧
    anyTrue (List.zipWith (· && ·) (([0] : List ℕ).map (fun f => decide (f = 0)))
      (List.zipWith (· || ·) (([2] : List ℕ).map (fun f => decide (f = 1)))
        (([2] : List ℕ).map (fun f => decide (f = 2))))) = true := by
  refine ⟨?_, ?_, by decide⟩
  · norm_num [eclipse_score_block, anyTrue]
  · norm_num [npMean, maskSelect]

/-! ## construct_range and nearest predicted times -/

/-- Embedding of `np.searchsorted(l, x)` with side left, valid on sorted input:
the number of elements strictly below x, which is the insertion index. -/
def searchsortedL (l : List ℚ) (x : ℚ) : ℕ := l.countP (fun y => decide (y < x))

/-- Embedding of `construct_range` (eclipse_finding.py lines 1407-1415): the
integer range runs from `ceil((domain[0] - t_0)/step)` to
`floor((domain[1] - t_0)/step)` where the step is `max(period, p_min)` in
effect, while the points are always spaced by the period:
`points = t_0 + period * n_range`. -/
def construct_range (t_0 period dlo dhi p_min : ℚ) : List ℚ × List ℤ :=
  let n_before : ℤ :=
    if period < p_min then ⌈(dlo - t_0) / p_min⌉ else ⌈(dlo - t_0) / period⌉
  let n_after : ℤ :=
    if period < p_min then ⌊(dhi - t_0) / p_min⌋ else ⌊(dhi - t_0) / period⌋
  let n_range := intRange n_before n_after
  (n_range.map (fun (n : ℤ) => t_0 + period * (n : ℚ)), n_range)

/-- The nearest-neighbour index computation of `pattern_test` and
`extract_pattern` (lines 1486-1489): search-sort the midpoint into the pattern,
clamp the insertion index to the last position, then compare against the point
one to the left (`pattern[i_nn - 1]`, which for an insertion index of 0 is the
numpy from-the-end read of the last pattern point). -/
def nnIdx (pattern : List ℚ) (x : ℚ) : ℤ :=
  let k0 := searchsortedL pattern x
  let k := if k0 = pattern.length then pattern.length - 1 else k0
  if |idx pattern k - x| < |x - pyGet pattern ((k : ℤ) - 1)| then (k : ℤ) else (k : ℤ) - 1

/-- Distance of a midpoint to the pattern point the code selects (line 1491). -/
def nnDist (pattern : List ℚ) (x : ℚ) : ℚ := |pyGet pattern (nnIdx pattern x) - x|

theorem pyGet_ofNat (l : List ℚ) (k : ℕ) : pyGet l (k : ℤ) = idx l k := by
  simp [pyGet, idx]

theorem foldl_min_le_init (l : List ℚ) : ∀ a : ℚ, l.foldl min a ≤ a := by
  induction l with
  | nil => intro a; simp
  | cons y ys ih =>
    intro a
    calc ys.foldl min (min a y) ≤ min a y := ih (min a y)
    _ ≤ a := min_le_left a y

theorem foldl_min_le_mem (l : List ℚ) : ∀ a : ℚ, ∀ y ∈ l, l.foldl min a ≤ y := by
  induction l with
  | nil => intro a y hy; simp at hy
  | cons z zs ih =>
    intro a y hy
    rcases List.mem_cons.mp hy with h | h
    · subst h
      calc zs.foldl min (min a y) ≤ min a y := foldl_min_le_init zs (min a y)
      _ ≤ y := min_le_right a y
    · exact ih (min a z) y h

theorem foldl_min_mem (l : List ℚ) : ∀ a : ℚ, l.foldl min a = a ∨ l.foldl min a ∈ l := by
  induction l with
  | nil => intro a; left; rfl
  | cons z zs ih =>
    intro a
    rcases ih (min a z) with h | h
    · rcases min_cases a z with ⟨hm, _⟩ | ⟨hm, _⟩
      · left
        rw [List.foldl_cons, h, hm]
      · right
        rw [List.foldl_cons, h, hm]
        exact List.mem_cons_self z zs
    · right
      exact List.mem_cons_of_mem z h

theorem npMinQ_le (l : List ℚ) (y : ℚ) (hy : y ∈ l) : npMinQ l ≤ y := by
  cases l with
  | nil => simp at hy
  | cons z zs =>
    rcases List.mem_cons.mp hy with h | h
    · subst h
      exact foldl_min_le_init zs y
    · exact foldl_min_le_mem zs z y h

theorem npMinQ_mem (l : List ℚ) (h : l ≠ []) : npMinQ l ∈ l := by
  cases l with
  | nil => exact absurd rfl h
  | cons z zs =>
    rcases foldl_min_mem zs z with h1 | h1
    · rw [npMinQ, h1]
      exact List.mem_cons_self z zs
    · exact List.mem_cons_of_mem z h1

/-- On a strictly sorted list, the elements below x are exactly the initial
segment of length `countP (· < x)` — the searchsorted insertion index. -/
theorem sorted_lt_iff_lt_countP (l : List ℚ) (hsort : l.Sorted (· < ·)) (x : ℚ) :
    ∀ j, (hj : j < l.length) →
      (l[j] < x ↔ j < l.countP (fun y => decide (y < x))) := by
  induction l with
  | nil => intro j hj; simp at hj
  | cons z zs ih =>
    have hz : ∀ b ∈ zs, z < b := (List.sorted_cons.mp hsort).1
    have hzs : zs.Sorted (· < ·) := (List.sorted_cons.mp hsort).2
    intro j hj
    rw [List.countP_cons]
    by_cases hzx : z < x
    · rw [decide_eq_true hzx, if_pos rfl]
      cases j with
      | zero =>
        simp only [List.getElem_cons_zero]
        exact ⟨fun _ => Nat.succ_pos _, fun _ => hzx⟩
      | succ p =>
        have hp : p < zs.length := by simpa using hj
        have hih := ih hzs p hp
        simp only [List.getElem_cons_succ]
        rw [hih]
        omega
    · have hno : zs.countP (fun y => decide (y < x)) = 0 := by
        rw [List.countP_eq_zero]
        intro b hb
        have h1 : z < b := hz b hb
        simp only [decide_eq_true_eq]
        push_neg at hzx
        push_neg
        linarith
      rw [decide_eq_false hzx, if_neg Bool.false_ne_true, hno]
      cases j with
      | zero =>
        simp only [List.getElem_cons_zero]
        simp [hzx]
      | succ p =>
        have hp : p < zs.length := by simpa using hj
        simp only [List.getElem_cons_succ]
        constructor
        · intro hc
          have h1 : z < zs[p] := hz _ (List.getElem_mem hp)
          push_neg at hzx
          linarith
        · omega

theorem pyGet_int_nonneg (l : List ℚ) (i : ℤ) (h : 0 ≤ i) : pyGet l i = idx l i.toNat := by
  simp [pyGet, idx, not_lt.mpr h]

theorem sorted_idx_lt_iff (pattern : List ℚ) (hsort : pattern.Sorted (· < ·)) (x : ℚ)
    (j : ℕ) (hj : j < pattern.length) :
    (idx pattern j < x ↔ j < searchsortedL pattern x) := by
  rw [idx_eq_getElem _ hj]
  exact sorted_lt_iff_lt_countP pattern hsort x j hj

theorem sorted_idx_mono (pattern : List ℚ) (hsort : pattern.Sorted (· < ·))
    {i j : ℕ} (hij : i ≤ j) (hj : j < pattern.length) :
    idx pattern i ≤ idx pattern j := by
  rcases Nat.lt_or_ge i j with h | h
  · have hi : i < pattern.length := lt_trans h hj
    rw [idx_eq_getElem _ hi, idx_eq_getElem _ hj]
    exact le_of_lt (hsort.get_strictMono (show (⟨i, hi⟩ : Fin _) < ⟨j, hj⟩ from h))
  · have hij2 : i = j := le_antisymm hij h
    subst hij2
    rfl

theorem sorted_idx_strict (pattern : List ℚ) (hsort : pattern.Sorted (· < ·))
    {i j : ℕ} (hij : i < j) (hj : j < pattern.length) :
    idx pattern i < idx pattern j := by
  have hi : i < pattern.length := lt_trans hij hj
  rw [idx_eq_getElem _ hi, idx_eq_getElem _ hj]
  exact hsort.get_strictMono (show (⟨i, hi⟩ : Fin _) < ⟨j, hj⟩ from hij)

/-- The distance the code computes via searchsorted-and-compare is exactly the
distance to the nearest predicted time: on a nonempty strictly increasing
pattern, `nnDist` is the minimum of `|y - x|` over the pattern points y. -/
theorem nnDist_eq_min (pattern : List ℚ) (hne : pattern ≠ [])
    (hsort : pattern.Sorted (· < ·)) (x : ℚ) :
    nnDist pattern x = npMinQ (pattern.map (fun y => |y - x|)) := by
  have hL1 : 1 ≤ pattern.length := List.length_pos.mpr hne
  have hk0le : searchsortedL pattern x ≤ pattern.length := List.countP_le_length _
  have hbelow : ∀ j, j < pattern.length → j < searchsortedL pattern x →
      idx pattern j < x := by
    intro j hj hjk
    exact (sorted_idx_lt_iff pattern hsort x j hj).mpr hjk
  have habove : ∀ j, j < pattern.length → searchsortedL pattern x ≤ j →
      x ≤ idx pattern j := by
    intro j hj hjk
    by_contra hc
    push_neg at hc
    have := (sorted_idx_lt_iff pattern hsort x j hj).mp hc
    omega
  have hcase : ∃ m, m < pattern.length ∧ nnDist pattern x = |idx pattern m - x| ∧
      ∀ j, j < pattern.length → |idx pattern m - x| ≤ |idx pattern j - x| := by
    simp only [nnDist, nnIdx]
    by_cases hk0L : searchsortedL pattern x = pattern.length
    · -- every pattern point is below x; the nearest is the last one
      rw [if_pos hk0L]
      have hall : ∀ j, j < pattern.length → idx pattern j < x := by
        intro j hj
        exact hbelow j hj (by omega)
      have habs : ∀ j, j < pattern.length → |idx pattern j - x| = x - idx pattern j := by
        intro j hj
        rw [abs_of_neg (by linarith [hall j hj]), neg_sub]
      refine ⟨pattern.length - 1, by omega, ?_, ?_⟩
      · by_cases hL2 : 2 ≤ pattern.length
        · have hcond : |idx pattern (pattern.length - 1) - x|
              < |x - pyGet pattern ((pattern.length - 1 : ℕ) - 1 : ℤ)| := by
            have he : ((pattern.length - 1 : ℕ) : ℤ) - 1
                = ((pattern.length - 2 : ℕ) : ℤ) := by omega
            rw [he, pyGet_int_nonneg _ _ (by omega), Int.toNat_ofNat]
            rw [habs _ (by omega)]
            have h2 : idx pattern (pattern.length - 2) < idx pattern (pattern.length - 1) :=
              sorted_idx_strict pattern hsort (by omega) (by omega)
            have h3 : idx pattern (pattern.length - 2) < x := hall _ (by omega)
            rw [abs_of_pos (by linarith)]
            linarith
          rw [if_pos hcond, pyGet_int_nonneg _ _ (by omega), Int.toNat_ofNat]
        · have hLeq : pattern.length = 1 := by omega
          have hcond : ¬(|idx pattern (pattern.length - 1) - x|
              < |x - pyGet pattern ((pattern.length - 1 : ℕ) - 1 : ℤ)|) := by
            rw [hLeq]
            show ¬(|idx pattern 0 - x| < |x - pyGet pattern (-1)|)
            rw [pyGet_neg_one, hLeq]
            rw [abs_sub_comm]
            norm_num
          rw [if_neg hcond, hLeq]
          show |pyGet pattern (-1) - x| = _
          rw [pyGet_neg_one, hLeq]
      · intro j hj
        rw [habs _ (by omega), habs j hj]
        have := sorted_idx_mono pattern hsort (show j ≤ pattern.length - 1 by omega)
          (by omega)
        linarith
    · rw [if_neg hk0L]
      by_cases hk00 : searchsortedL pattern x = 0
      · -- every pattern point is at or above x; the nearest is the first one
        rw [hk00]
        have hall : ∀ j, j < pattern.length → x ≤ idx pattern j := by
          intro j hj
          exact habove j hj (by omega)
        have habs : ∀ j, j < pattern.length → |idx pattern j - x| = idx pattern j - x := by
          intro j hj
          exact abs_of_nonneg (by linarith [hall j hj])
        refine ⟨0, by omega, ?_, ?_⟩
        · by_cases hL2 : 2 ≤ pattern.length
          · have hcond : |idx pattern 0 - x| < |x - pyGet pattern ((0 : ℕ) - 1 : ℤ)| := by
              show |idx pattern 0 - x| < |x - pyGet pattern (-1)|
              rw [pyGet_neg_one, habs 0 (by omega)]
              have h2 : idx pattern 0 < idx pattern (pattern.length - 1) :=
                sorted_idx_strict pattern hsort (by omega) (by omega)
              have h3 : x ≤ idx pattern (pattern.length - 1) := hall _ (by omega)
              rw [abs_sub_comm, abs_of_nonneg (by linarith)]
              linarith
            rw [if_pos hcond, pyGet_int_nonneg _ _ (by omega)]
            norm_num
          · have hLeq : pattern.length = 1 := by omega
            have hcond : ¬(|idx pattern 0 - x| < |x - pyGet pattern ((0 : ℕ) - 1 : ℤ)|) := by
              show ¬(|idx pattern 0 - x| < |x - pyGet pattern (-1)|)
              rw [pyGet_neg_one, hLeq]
              rw [abs_sub_comm]
              norm_num
            rw [if_neg hcond]
            show |pyGet pattern (-1) - x| = _
            rw [pyGet_neg_one, hLeq]
        · intro j hj
          rw [habs _ (by omega), habs j hj]
          have := sorted_idx_mono pattern hsort (Nat.zero_le j) hj
          linarith
      · -- x sits strictly inside the pattern: compare the two bracketing points
        have hk0pos : 0 < searchsortedL pattern x := by omega
        have hk0lt : searchsortedL pattern x < pattern.length := by omega
        have hdL : |x - pyGet pattern ((searchsortedL pattern x : ℕ) - 1 : ℤ)|
            = x - idx pattern (searchsortedL pattern x - 1) := by
          have he : ((searchsortedL pattern x : ℕ) : ℤ) - 1
              = ((searchsortedL pattern x - 1 : ℕ) : ℤ) := by omega
          rw [he, pyGet_int_nonneg _ _ (by omega), Int.toNat_ofNat]
          have h1 : idx pattern (searchsortedL pattern x - 1) < x :=
            hbelow _ (by omega) (by omega)
          exact abs_of_pos (by linarith)
        have hdR : |idx pattern (searchsortedL pattern x) - x|
            = idx pattern (searchsortedL pattern x) - x := by
          have h1 : x ≤ idx pattern (searchsortedL pattern x) :=
            habove _ hk0lt (by omega)
          exact abs_of_nonneg (by linarith)
        have hbound : ∀ j, j < pattern.length →
            min (x - idx pattern (searchsortedL pattern x - 1))
                (idx pattern (searchsortedL pattern x) - x) ≤ |idx pattern j - x| := by
          intro j hj
          rcases Nat.lt_or_ge j (searchsortedL pattern x) with hjk | hjk
          · have h1 : idx pattern j < x := hbelow j hj hjk
            have h2 : idx pattern j ≤ idx pattern (searchsortedL pattern x - 1) :=
              sorted_idx_mono pattern hsort (by omega) (by omega)
            rw [abs_of_neg (by linarith), neg_sub]
            calc min _ _ ≤ x - idx pattern (searchsortedL pattern x - 1) := min_le_left _ _
            _ ≤ x - idx pattern j := by linarith
          · have h1 : x ≤ idx pattern j := habove j hj hjk
            have h2 : idx pattern (searchsortedL pattern x) ≤ idx pattern j :=
              sorted_idx_mono pattern hsort hjk hj
            rw [abs_of_nonneg (by linarith)]
            calc min _ _ ≤ idx pattern (searchsortedL pattern x) - x := min_le_right _ _
            _ ≤ idx pattern j - x := by linarith
        by_cases hcond : |idx pattern (searchsortedL pattern x) - x|
            < |x - pyGet pattern ((searchsortedL pattern x : ℕ) - 1 : ℤ)|
        · refine ⟨searchsortedL pattern x, hk0lt, ?_, ?_⟩
          · rw [if_pos hcond, pyGet_int_nonneg _ _ (by omega), Int.toNat_ofNat]
          · intro j hj
            have hb := hbound j hj
            rw [hdL, hdR] at hcond
            rw [hdR]
            calc idx pattern (searchsortedL pattern x) - x
                = min (x - idx pattern (searchsortedL pattern x - 1))
                  (idx pattern (searchsortedL pattern x) - x) := by
                  rw [min_eq_right (by linarith)]
            _ ≤ |idx pattern j - x| := hb
        · refine ⟨searchsortedL pattern x - 1, by omega, ?_, ?_⟩
          · rw [if_neg hcond]
            have he : ((searchsortedL pattern x : ℕ) : ℤ) - 1
                = ((searchsortedL pattern x - 1 : ℕ) : ℤ) := by omega
            rw [he, pyGet_int_nonneg _ _ (by omega), Int.toNat_ofNat]
          · intro j hj
            have hb := hbound j hj
            rw [hdL, hdR] at hcond
            push_neg at hcond
            have h1 : idx pattern (searchsortedL pattern x - 1) < x :=
              hbelow _ (by omega) (by omega)
            rw [abs_of_neg (by linarith), neg_sub]
            calc x - idx pattern (searchsortedL pattern x - 1)
                = min (x - idx pattern (searchsortedL pattern x - 1))
                  (idx pattern (searchsortedL pattern x) - x) := by
                  rw [min_eq_left (by linarith)]
            _ ≤ |idx pattern j - x| := hb
  obtain ⟨m, hm, hmeq, hmmin⟩ := hcase
  apply le_antisymm
  · have hmem : npMinQ (pattern.map (fun y => |y - x|)) ∈ pattern.map (fun y => |y - x|) := by
      apply npMinQ_mem
      simp [hne]
    obtain ⟨y, hy, hyeq⟩ := List.mem_map.mp hmem
    obtain ⟨j, hj, hjeq⟩ := List.mem_iff_getElem.mp hy
    rw [hmeq, ← hyeq, ← hjeq, ← idx_eq_getElem _ hj]
    exact hmmin j hj
  · apply npMinQ_le
    rw [hmeq]
    apply List.mem_map.mpr
    refine ⟨idx pattern m, ?_, rfl⟩
    rw [idx_eq_getElem _ hm]
    exact List.getElem_mem hm

/-! ## pattern_test -/

/-- Resolution of the reference eclipse `ecl_0` of `pattern_test` (lines
1456-1460): when not given, the first eclipse whose added_snr exceeds
`max(mean, max/2)`. -/
def pattern_test_ecl0 (ecl_mid added_snr : List ℚ) (ecl_0 : Option ℕ) : ℕ :=
  match ecl_0 with
  | some e => e
  | none =>
    (maskSelect (List.range ecl_mid.length)
      (added_snr.map (fun s => decide (s > max (npMean added_snr) (npMaxQ added_snr / 2))))).headD 0

/-- Resolution of the maximum trial period of `pattern_test` (lines 1461-1467):
when not given, three times the median spacing of the high-SNR eclipses (of all
eclipses when fewer than two are high-SNR); a zero value falls back to the
all-eclipse median spacing; then at least 0.002. -/
def pattern_test_pmax (ecl_mid added_snr : List ℚ) (p_max0 : Option ℚ) : ℚ :=
  let high_snr := added_snr.map
    (fun s => decide (s > max (npMean added_snr) (npMaxQ added_snr / 2)))
  let p_max1 := match p_max0 with
    | some pm => pm
    | none =>
      if 1 < countTrue high_snr then 3 * npMedian (npDiff (maskSelect ecl_mid high_snr))
      else 3 * npMedian (npDiff ecl_mid)
  let p_max2 := if p_max1 = 0 then 3 * npMedian (npDiff ecl_mid) else p_max1
  max (1 / 500) p_max2

/-- The period grid of `pattern_test` (lines 1469-1479): a minimum of
`0.95 * min |t_0 - other midpoints|` (or 1% of the maximum when that exceeds
the maximum), floored at 0.001; a step of `mean(widths) / (10 * ptp(ecl_mid))`
when not given, clamped to at most 1% of the maximum and at least a thousandth
of the time step; and `np.arange` between them. -/
def pattern_test_grid (ecl_mid added_snr widths : List ℚ) (ecl_0 : Option ℕ)
    (p_max0 p_step0 : Option ℚ) (timestep : ℚ) : List ℚ :=
  let p_max := pattern_test_pmax ecl_mid added_snr p_max0
  let e0 := pattern_test_ecl0 ecl_mid added_snr ecl_0
  let t_0 := idx ecl_mid e0
  let p_min1 := (19 / 20) * npMinQ ((maskSelect ecl_mid
    ((List.range ecl_mid.length).map (fun i => decide (i ≠ e0)))).map (fun m => |t_0 - m|))
  let p_min2 := if p_max < p_min1 then (1 / 100) * p_max else p_min1
  let p_min := max (1 / 1000) p_min2
  let p_step1 := match p_step0 with
    | some s => s
    | none => npMean widths / (10 * npPtp ecl_mid)
  let p_step := max (min p_step1 ((1 / 100) * p_max)) (timestep / 1000)
  npArange p_min p_max p_step

/-- The matched mask of one trial period (line 1493): accept a midpoint when its
computed nearest-pattern distance is below half its width and below
`max(0.06, timestep)` of the period. -/
def pattern_cnw (pattern : List ℚ) (timestep p : ℚ) (ecl_mid widths : List ℚ) : List Bool :=
  List.zipWith
    (fun d w => decide (d / w < 1 / 2) && decide (d / p < max (3 / 50) timestep))
    (ecl_mid.map (fun x => nnDist pattern x)) widths

/-- The goodness-of-fit of one trial period (lines 1482-1497): zero for an
empty predicted-time sequence, otherwise
`matched/predicted × Σ snr(matched) − Σ d_nn(matched)`. -/
def pattern_gof_at (t_0 timestep p : ℚ) (ecl_mid added_snr widths : List ℚ)
    (dlo dhi : ℚ) : ℚ :=
  let pattern := (construct_range t_0 p dlo dhi (1 / 10)).1
  if pattern.length ≠ 0 then
    let cn_w := pattern_cnw pattern timestep p ecl_mid widths
    ((countTrue cn_w : ℚ) / (pattern.length : ℚ)) * npSum (maskSelect added_snr cn_w)
      - npSum (maskSelect (ecl_mid.map (fun x => nnDist pattern x)) cn_w)
  else 0

/-- Embedding of `pattern_test` (eclipse_finding.py lines 1419-1498): resolve
the reference eclipse, period bounds and step, and evaluate the goodness of fit
over the period grid. -/
def pattern_test (ecl_mid added_snr widths : List ℚ) (dlo dhi : ℚ) (ecl_0 : Option ℕ)
    (p_max0 p_step0 : Option ℚ) (timestep : ℚ) : List ℚ × List ℚ :=
  let periods := pattern_test_grid ecl_mid added_snr widths ecl_0 p_max0 p_step0 timestep
  (periods, periods.map (fun p =>
    pattern_gof_at (idx ecl_mid (pattern_test_ecl0 ecl_mid added_snr ecl_0)) timestep p
      ecl_mid added_snr widths dlo dhi))

/-- Distance of a midpoint to the nearest predicted time, written as the claim
states it: the minimum over the pattern of the absolute offsets. -/
def nearestDist (pattern : List ℚ) (x : ℚ) : ℚ := npMinQ (pattern.map (fun y => |y - x|))

theorem getD_zipWith_eq {α β γ : Type} (f : α → β → γ) (a : List α) (b : List β) (j : ℕ)
    (ha : j < a.length) (hb : j < b.length) (d : γ) (da : α) (db : β) :
    (List.zipWith f a b).getD j d = f (a.getD j da) (b.getD j db) := by
  have h : j < (List.zipWith f a b).length := by
    rw [List.length_zipWith]
    exact lt_min ha hb
  rw [List.getD_eq_getElem _ _ h, List.getElem_zipWith,
    List.getD_eq_getElem _ _ ha, List.getD_eq_getElem _ _ hb]

theorem filter_map_succ (p : ℕ → Bool) (l : List ℕ) :
    (l.map Nat.succ).filter p = (l.filter (fun j => p (j + 1))).map Nat.succ := by
  induction l with
  | nil => rfl
  | cons x xs ih =>
    by_cases hp : p (x + 1) = true
    · simp [List.filter_cons, hp, ih]
    · simp [List.filter_cons, hp, ih, Bool.eq_false_iff.mpr hp]

theorem maskSelect_eq_filter_map {α : Type} (l : List α) (m : List Bool) (d : α)
    (h : l.length = m.length) :
    maskSelect l m
      = ((List.range m.length).filter (fun j => m.getD j false)).map (fun j => l.getD j d) := by
  induction l generalizing m with
  | nil =>
    have hm : m = [] := List.length_eq_zero.mp h.symm
    subst hm
    rfl
  | cons x xs ih =>
    cases m with
    | nil => simp at h
    | cons b bs =>
      have hlen : xs.length = bs.length := by simpa using h
      have hps : (List.range bs.length).filter (fun j => (b :: bs).getD (j + 1) false)
          = (List.range bs.length).filter (fun j => bs.getD j false) := by
        apply List.filter_congr
        intro a ha
        rw [List.getD_cons_succ]
      have hfe : ((List.range bs.length).filter (fun j => bs.getD j false)).map
            ((fun j => (x :: xs).getD j d) ∘ Nat.succ)
          = ((List.range bs.length).filter (fun j => bs.getD j false)).map
            (fun j => xs.getD j d) := by
        apply List.map_congr_left
        intro j hj
        show (x :: xs).getD (j + 1) d = xs.getD j d
        rw [List.getD_cons_succ]
      have htail : ((List.map Nat.succ (List.range bs.length)).filter
            (fun j => (b :: bs).getD j false)).map (fun j => (x :: xs).getD j d)
          = maskSelect xs bs := by
        rw [filter_map_succ, hps, List.map_map, hfe, ← ih bs hlen]
      rw [List.length_cons, List.range_succ_eq_map]
      rw [List.filter_cons]
      cases b
      · rw [maskSelect_cons_false]
        rw [if_neg (by simp)]
        exact htail.symm
      · rw [maskSelect_cons_true]
        rw [if_pos (by simp)]
        simp only [List.map_cons]
        rw [htail, List.getD_cons_zero]

theorem countTrue_eq_filter_length (m : List Bool) :
    countTrue m = ((List.range m.length).filter (fun j => m.getD j false)).length := by
  have h1 := length_maskSelect m m rfl
  have h2 := maskSelect_eq_filter_map m m false rfl
  rw [← h1, h2, List.length_map]

theorem npArange_getD_pos (start stop step : ℚ) (hstart : 0 < start) (i : ℕ)
    (hi : i < (npArange start stop step).length) :
    0 < (npArange start stop step).getD i 0 := by
  unfold npArange at hi ⊢
  by_cases h : 0 < step
  · rw [if_pos h] at hi ⊢
    rw [getD_map_eq _ _ i (by simpa using hi) 0 0]
    have : (0 : ℚ) ≤ step * ((List.range (⌈(stop - start) / step⌉.toNat)).getD i 0 : ℚ) := by
      positivity
    linarith
  · rw [if_neg h] at hi
    simp at hi

theorem construct_range_sorted (t_0 period dlo dhi p_min : ℚ) (hp : 0 < period) :
    (construct_range t_0 period dlo dhi p_min).1.Sorted (· < ·) := by
  unfold construct_range intRange
  simp only [List.map_map]
  refine List.Pairwise.map _ ?_ (List.pairwise_lt_range _)
  · intro a b hab
    dsimp only [Function.comp]
    have h3 : ((if period < p_min then ⌈(dlo - t_0) / p_min⌉ else ⌈(dlo - t_0) / period⌉) : ℤ)
          + (a : ℤ)
        < (if period < p_min then ⌈(dlo - t_0) / p_min⌉ else ⌈(dlo - t_0) / period⌉)
          + (b : ℤ) := by
      omega
    have hq : (((if period < p_min then ⌈(dlo - t_0) / p_min⌉
            else ⌈(dlo - t_0) / period⌉) + (a : ℤ) : ℤ) : ℚ)
        < (((if period < p_min then ⌈(dlo - t_0) / p_min⌉
            else ⌈(dlo - t_0) / period⌉) + (b : ℤ) : ℤ) : ℚ) := by
      exact_mod_cast h3
    have h2 := mul_lt_mul_of_pos_left hq hp
    linarith

/-- The i-th trial period of a `pattern_test` call. -/
def trial_period (ecl_mid added_snr widths : List ℚ) (dlo dhi : ℚ) (ecl_0 : Option ℕ)
    (p_max0 p_step0 : Option ℚ) (timestep : ℚ) (i : ℕ) : ℚ :=
  (pattern_test ecl_mid added_snr widths dlo dhi ecl_0 p_max0 p_step0 timestep).1.getD i 0

/-- The predicted-time sequence of the i-th trial period of a `pattern_test`
call. -/
def trial_pattern (ecl_mid added_snr widths : List ℚ) (dlo dhi : ℚ) (ecl_0 : Option ℕ)
    (p_max0 p_step0 : Option ℚ) (timestep : ℚ) (i : ℕ) : List ℚ :=
  (construct_range (idx ecl_mid (pattern_test_ecl0 ecl_mid added_snr ecl_0))
    (trial_period ecl_mid added_snr widths dlo dhi ecl_0 p_max0 p_step0 timestep i)
    dlo dhi (1 / 10)).1

/-- The eclipses matched by the i-th trial period according to the claim's
criterion: distance to the nearest predicted time below half the eclipse width
and below `max(0.06, timestep)` times the period. -/
def matchedSet (ecl_mid added_snr widths : List ℚ) (dlo dhi : ℚ) (ecl_0 : Option ℕ)
    (p_max0 p_step0 : Option ℚ) (timestep : ℚ) (i : ℕ) : List ℕ :=
  (List.range ecl_mid.length).filter (fun j =>
    decide (nearestDist
        (trial_pattern ecl_mid added_snr widths dlo dhi ecl_0 p_max0 p_step0 timestep i)
        (idx ecl_mid j) < idx widths j / 2 ∧
      nearestDist
        (trial_pattern ecl_mid added_snr widths dlo dhi ecl_0 p_max0 p_step0 timestep i)
        (idx ecl_mid j)
        < max (3 / 50) timestep
          * trial_period ecl_mid added_snr widths dlo dhi ecl_0 p_max0 p_step0 timestep i))

theorem bool_eq_decide (b : Bool) (P : Prop) [Decidable P] (h : b = true ↔ P) :
    b = decide P := by
  cases b
  · have hP : ¬P := fun hp => by simpa using h.mpr hp
    simp [hP]
  · have hP : P := h.mp rfl
    simp [hP]

theorem trial_period_pos (ecl_mid added_snr widths : List ℚ) (dlo dhi : ℚ)
    (ecl_0 : Option ℕ) (p_max0 p_step0 : Option ℚ) (timestep : ℚ) (i : ℕ)
    (hi : i < (pattern_test ecl_mid added_snr widths dlo dhi ecl_0 p_max0 p_step0
      timestep).1.length) :
    0 < trial_period ecl_mid added_snr widths dlo dhi ecl_0 p_max0 p_step0 timestep i := by
  unfold trial_period
  have h1 : (pattern_test ecl_mid added_snr widths dlo dhi ecl_0 p_max0 p_step0 timestep).1
      = pattern_test_grid ecl_mid added_snr widths ecl_0 p_max0 p_step0 timestep := rfl
  rw [h1] at hi ⊢
  unfold pattern_test_grid at hi ⊢
  apply npArange_getD_pos
  · exact lt_of_lt_of_le (by norm_num) (le_max_left _ _)
  · exact hi

/-- C1: in every call of `pattern_test`, for every trial period p of the grid
whose predicted-time sequence over the time frame is nonempty (given positive
widths and aligned array lengths), an eclipse midpoint is counted as matched
exactly when its distance to the nearest predicted time is less than 0.5 times
its given width and less than `max(0.06, timestep)` times p; and the
goodness-of-fit value for p equals (matched count / predicted count) times the
sum of the matched midpoints' SNR values minus the sum of the matched
midpoints' distances to their nearest predicted times. -/
theorem C1_pattern_test_gof (ecl_mid added_snr widths : List ℚ) (dlo dhi : ℚ)
    (ecl_0 : Option ℕ) (p_max0 p_step0 : Option ℚ) (timestep : ℚ)
    (hw : ∀ w ∈ widths, 0 < w)
    (hlen_s : added_snr.length = ecl_mid.length)
    (hlen_w : widths.length = ecl_mid.length)
    (i : ℕ)
    (hi : i < (pattern_test ecl_mid added_snr widths dlo dhi ecl_0 p_max0 p_step0
      timestep).1.length)
    (hpat : trial_pattern ecl_mid added_snr widths dlo dhi ecl_0 p_max0 p_step0 timestep i
      ≠ []) :
    (∀ j, j < ecl_mid.length →
      ((pattern_cnw
          (trial_pattern ecl_mid added_snr widths dlo dhi ecl_0 p_max0 p_step0 timestep i)
          timestep
          (trial_period ecl_mid added_snr widths dlo dhi ecl_0 p_max0 p_step0 timestep i)
          ecl_mid widths).getD j false = true ↔
        (nearestDist
            (trial_pattern ecl_mid added_snr widths dlo dhi ecl_0 p_max0 p_step0 timestep i)
            (idx ecl_mid j) < idx widths j / 2 ∧
          nearestDist
            (trial_pattern ecl_mid added_snr widths dlo dhi ecl_0 p_max0 p_step0 timestep i)
            (idx ecl_mid j)
            < max (3 / 50) timestep
              * trial_period ecl_mid added_snr widths dlo dhi ecl_0 p_max0 p_step0 timestep
                i))) ∧
    (pattern_test ecl_mid added_snr widths dlo dhi ecl_0 p_max0 p_step0 timestep).2.getD i 0
      = (((matchedSet ecl_mid added_snr widths dlo dhi ecl_0 p_max0 p_step0 timestep
            i).length : ℚ)
          / ((trial_pattern ecl_mid added_snr widths dlo dhi ecl_0 p_max0 p_step0 timestep
            i).length : ℚ))
        * ((matchedSet ecl_mid added_snr widths dlo dhi ecl_0 p_max0 p_step0 timestep
            i).map (fun j => idx added_snr j)).sum
        - ((matchedSet ecl_mid added_snr widths dlo dhi ecl_0 p_max0 p_step0 timestep
            i).map (fun j =>
              nearestDist (trial_pattern ecl_mid added_snr widths dlo dhi ecl_0 p_max0
                p_step0 timestep i) (idx ecl_mid j))).sum := by
  have hp : 0 < trial_period ecl_mid added_snr widths dlo dhi ecl_0 p_max0 p_step0
      timestep i :=
    trial_period_pos ecl_mid added_snr widths dlo dhi ecl_0 p_max0 p_step0 timestep i hi
  have hsorted : (trial_pattern ecl_mid added_snr widths dlo dhi ecl_0 p_max0 p_step0
      timestep i).Sorted (· < ·) :=
    construct_range_sorted _ _ _ _ _ hp
  have hnn : ∀ x, nnDist (trial_pattern ecl_mid added_snr widths dlo dhi ecl_0 p_max0
      p_step0 timestep i) x
      = nearestDist (trial_pattern ecl_mid added_snr widths dlo dhi ecl_0 p_max0 p_step0
        timestep i) x := by
    intro x
    exact nnDist_eq_min _ hpat hsorted x
  -- the per-midpoint matched-mask characterisation
  have hmask : ∀ j, j < ecl_mid.length →
      ((pattern_cnw
          (trial_pattern ecl_mid added_snr widths dlo dhi ecl_0 p_max0 p_step0 timestep i)
          timestep
          (trial_period ecl_mid added_snr widths dlo dhi ecl_0 p_max0 p_step0 timestep i)
          ecl_mid widths).getD j false = true ↔
        (nearestDist
            (trial_pattern ecl_mid added_snr widths dlo dhi ecl_0 p_max0 p_step0 timestep i)
            (idx ecl_mid j) < idx widths j / 2 ∧
          nearestDist
            (trial_pattern ecl_mid added_snr widths dlo dhi ecl_0 p_max0 p_step0 timestep i)
            (idx ecl_mid j)
            < max (3 / 50) timestep
              * trial_period ecl_mid added_snr widths dlo dhi ecl_0 p_max0 p_step0 timestep
                i)) := by
    intro j hj
    have hja : j < (ecl_mid.map (fun x => nnDist (trial_pattern ecl_mid added_snr widths
        dlo dhi ecl_0 p_max0 p_step0 timestep i) x)).length := by
      simpa using hj
    have hjw : j < widths.length := by omega
    unfold pattern_cnw
    rw [getD_zipWith_eq _ _ _ j hja hjw false 0 0]
    rw [getD_map_eq _ _ j (by simpa using hj) 0 0]
    rw [hnn]
    have hw0 : 0 < widths.getD j 0 := by
      apply hw
      rw [List.getD_eq_getElem _ _ hjw]
      exact List.getElem_mem hjw
    simp only [Bool.and_eq_true, decide_eq_true_eq]
    unfold idx
    constructor
    · rintro ⟨h1, h2⟩
      rw [div_lt_iff₀ hw0] at h1
      rw [div_lt_iff₀ hp] at h2
      constructor <;> linarith
    · rintro ⟨h1, h2⟩
      constructor
      · rw [div_lt_iff₀ hw0]
        linarith
      · rw [div_lt_iff₀ hp]
        linarith
  refine ⟨hmask, ?_⟩
  -- the goodness-of-fit value
  have hi2 : i < (pattern_test_grid ecl_mid added_snr widths ecl_0 p_max0 p_step0
      timestep).length := hi
  have h2eq : (pattern_test ecl_mid added_snr widths dlo dhi ecl_0 p_max0 p_step0
      timestep).2.getD i 0
      = pattern_gof_at (idx ecl_mid (pattern_test_ecl0 ecl_mid added_snr ecl_0)) timestep
        (trial_period ecl_mid added_snr widths dlo dhi ecl_0 p_max0 p_step0 timestep i)
        ecl_mid added_snr widths dlo dhi := by
    show ((pattern_test_grid ecl_mid added_snr widths ecl_0 p_max0 p_step0 timestep).map
        (fun p => pattern_gof_at (idx ecl_mid (pattern_test_ecl0 ecl_mid added_snr ecl_0))
          timestep p ecl_mid added_snr widths dlo dhi)).getD i 0
      = _
    rw [getD_map_eq _ _ i hi2 0 0]
    rfl
  rw [h2eq]
  simp only [pattern_gof_at]
  have htp : (construct_range (idx ecl_mid (pattern_test_ecl0 ecl_mid added_snr ecl_0))
      (trial_period ecl_mid added_snr widths dlo dhi ecl_0 p_max0 p_step0 timestep i)
      dlo dhi (1 / 10)).1
      = trial_pattern ecl_mid added_snr widths dlo dhi ecl_0 p_max0 p_step0 timestep i :=
    rfl
  rw [htp]
  have hplen : (trial_pattern ecl_mid added_snr widths dlo dhi ecl_0 p_max0 p_step0
      timestep i).length ≠ 0 := fun hc => hpat (List.length_eq_zero.mp hc)
  rw [if_pos hplen]
  have hcnlen : (pattern_cnw
      (trial_pattern ecl_mid added_snr widths dlo dhi ecl_0 p_max0 p_step0 timestep i)
      timestep
      (trial_period ecl_mid added_snr widths dlo dhi ecl_0 p_max0 p_step0 timestep i)
      ecl_mid widths).length = ecl_mid.length := by
    unfold pattern_cnw
    rw [List.length_zipWith, List.length_map, hlen_w]
    exact min_self _
  have hpt : ∀ j ∈ List.range ecl_mid.length,
      (pattern_cnw
        (trial_pattern ecl_mid added_snr widths dlo dhi ecl_0 p_max0 p_step0 timestep i)
        timestep
        (trial_period ecl_mid added_snr widths dlo dhi ecl_0 p_max0 p_step0 timestep i)
        ecl_mid widths).getD j false
      = decide (nearestDist
          (trial_pattern ecl_mid added_snr widths dlo dhi ecl_0 p_max0 p_step0 timestep i)
          (idx ecl_mid j) < idx widths j / 2 ∧
        nearestDist
          (trial_pattern ecl_mid added_snr widths dlo dhi ecl_0 p_max0 p_step0 timestep i)
          (idx ecl_mid j)
          < max (3 / 50) timestep
            * trial_period ecl_mid added_snr widths dlo dhi ecl_0 p_max0 p_step0 timestep
              i) := by
    intro j hj
    exact bool_eq_decide _ _ (hmask j (List.mem_range.mp hj))
  have hfiltereq : (List.range ecl_mid.length).filter (fun j =>
        (pattern_cnw
          (trial_pattern ecl_mid added_snr widths dlo dhi ecl_0 p_max0 p_step0 timestep i)
          timestep
          (trial_period ecl_mid added_snr widths dlo dhi ecl_0 p_max0 p_step0 timestep i)
          ecl_mid widths).getD j false)
      = matchedSet ecl_mid added_snr widths dlo dhi ecl_0 p_max0 p_step0 timestep i := by
    unfold matchedSet
    exact List.filter_congr hpt
  have hcount : (countTrue (pattern_cnw
        (trial_pattern ecl_mid added_snr widths dlo dhi ecl_0 p_max0 p_step0 timestep i)
        timestep
        (trial_period ecl_mid added_snr widths dlo dhi ecl_0 p_max0 p_step0 timestep i)
        ecl_mid widths) : ℚ)
      = ((matchedSet ecl_mid added_snr widths dlo dhi ecl_0 p_max0 p_step0 timestep
          i).length : ℚ) := by
    rw [countTrue_eq_filter_length, hcnlen, hfiltereq]
  have hsnr : npSum (maskSelect added_snr (pattern_cnw
        (trial_pattern ecl_mid added_snr widths dlo dhi ecl_0 p_max0 p_step0 timestep i)
        timestep
        (trial_period ecl_mid added_snr widths dlo dhi ecl_0 p_max0 p_step0 timestep i)
        ecl_mid widths))
      = ((matchedSet ecl_mid added_snr widths dlo dhi ecl_0 p_max0 p_step0 timestep
          i).map (fun j => idx added_snr j)).sum := by
    unfold npSum
    rw [maskSelect_eq_filter_map added_snr _ 0 (by rw [hcnlen, hlen_s]), hcnlen, hfiltereq]
    rfl
  have hdn : npSum (maskSelect (ecl_mid.map (fun x => nnDist
        (trial_pattern ecl_mid added_snr widths dlo dhi ecl_0 p_max0 p_step0 timestep i) x))
      (pattern_cnw
        (trial_pattern ecl_mid added_snr widths dlo dhi ecl_0 p_max0 p_step0 timestep i)
        timestep
        (trial_period ecl_mid added_snr widths dlo dhi ecl_0 p_max0 p_step0 timestep i)
        ecl_mid widths))
      = ((matchedSet ecl_mid added_snr widths dlo dhi ecl_0 p_max0 p_step0 timestep
          i).map (fun j =>
            nearestDist (trial_pattern ecl_mid added_snr widths dlo dhi ecl_0 p_max0
              p_step0 timestep i) (idx ecl_mid j))).sum := by
    unfold npSum
    rw [maskSelect_eq_filter_map _ _ 0 (by rw [hcnlen, List.length_map]), hcnlen,
      hfiltereq]
    congr 1
    apply List.map_congr_left
    intro j hj
    have hjn : j < ecl_mid.length := by
      have := List.mem_range.mp (List.mem_of_mem_filter hj)
      exact this
    rw [getD_map_eq _ _ j hjn 0 0, hnn]
    rfl
  rw [hcount, hsnr, hdn]

/-- Witness for C1: midpoints [0, 1], SNRs [1, 1], widths [1/2, 1/2], time
frame [0, 1], reference eclipse 0, maximum period 1, step 1/100, timestep
1/100; the grid then starts at 19/20 and the first trial period has the
nonempty pattern [0, 19/20]. -/
theorem C1_pattern_test_gof_witness :
    (pattern_test [(0 : ℚ), 1] [1, 1] [1 / 2, 1 / 2] 0 1 (some 0) (some 1) (some (1 / 100))
        (1 / 100)).2.getD 0 0
      = (((matchedSet [(0 : ℚ), 1] [1, 1] [1 / 2, 1 / 2] 0 1 (some 0) (some 1)
            (some (1 / 100)) (1 / 100) 0).length : ℚ)
          / ((trial_pattern [(0 : ℚ), 1] [1, 1] [1 / 2, 1 / 2] 0 1 (some 0) (some 1)
            (some (1 / 100)) (1 / 100) 0).length : ℚ))
        * ((matchedSet [(0 : ℚ), 1] [1, 1] [1 / 2, 1 / 2] 0 1 (some 0) (some 1)
            (some (1 / 100)) (1 / 100) 0).map (fun j => idx [1, 1] j)).sum
        - ((matchedSet [(0 : ℚ), 1] [1, 1] [1 / 2, 1 / 2] 0 1 (some 0) (some 1)
            (some (1 / 100)) (1 / 100) 0).map (fun j =>
              nearestDist (trial_pattern [(0 : ℚ), 1] [1, 1] [1 / 2, 1 / 2] 0 1 (some 0)
                (some 1) (some (1 / 100)) (1 / 100) 0) (idx [(0 : ℚ), 1] j))).sum :=
  (C1_pattern_test_gof [(0 : ℚ), 1] [1, 1] [1 / 2, 1 / 2] 0 1 (some 0) (some 1)
    (some (1 / 100)) (1 / 100)
    (by norm_num) rfl rfl 0
    (by norm_num [pattern_test, pattern_test_grid, pattern_test_pmax, pattern_test_ecl0,
      npArange, idx, npMinQ, maskSelect, npMean, npPtp, npMaxQ, Int.toNat_ofNat,
      List.range_succ, List.zip_cons_cons, List.filter_cons, Function.comp])
    (by norm_num [trial_pattern, trial_period, pattern_test, pattern_test_grid,
      pattern_test_pmax, pattern_test_ecl0, npArange, construct_range, intRange, idx,
      npMinQ, maskSelect, npMean, npPtp, npMaxQ, Int.toNat_ofNat,
      List.range_succ, List.zip_cons_cons, List.filter_cons, Function.comp])).2

/-- Witness for C8 with times [0, 1, 2, 3] and the single index pair (1, 2). -/
theorem C8_cut_mask_eclipses_agree_witness :
    ((cut_eclipses [0, 1, 2, 3]
        ([((1 : ℕ), (2 : ℕ))].map (fun e => (([0, 1, 2, 3] : List ℚ).getD e.1 0,
          ([0, 1, 2, 3] : List ℚ).getD e.2 0)))).getD 1 false
      = (mask_eclipses 4 [(1, 2)]).getD 1 false) ∧
    ((mask_eclipses 4 [(1, 2)]).getD 1 false = false ↔
      ∃ e ∈ [((1 : ℕ), (2 : ℕ))], e.1 ≤ 1 ∧ 1 ≤ e.2) := by
  have h := C8_cut_mask_eclipses_agree [0, 1, 2, 3] [(1, 2)]
    (by norm_num [List.Sorted]) (by norm_num) 1 (by norm_num)
  exact h

/-! ## mark_gaps and repeat_points_internals -/

/-- Embedding of `np.cumsum` on a signed integer array. -/
def cumsumZ (l : List ℤ) : List ℤ := (l.scanl (· + ·) 0).tail

/-- Single-position assignment `m[i] = True` with a signed index (numpy wraps
negative in-range indices; an out-of-range write, an error in numpy, is a
no-op here and the theorems stay inside the bounds the code guarantees). -/
def pySetTrue (m : List Bool) (i : ℤ) : List Bool :=
  if i < 0 then m.set (m.length - (-i).toNat) true else m.set i.toNat true

/-- Assignment `m[positions] = True` with a signed index array. -/
def scatterTrueZ (m : List Bool) (ps : List ℤ) : List Bool := ps.foldl pySetTrue m

/-- In-place increment `a[i] += v` on a signed integer array. -/
def incrAt (l : List ℤ) (i : ℕ) (v : ℤ) : List ℤ := l.set i (l.getD i 0 + v)

/-- `mark_gaps` step (eclipse_finding.py line 124): the relative gap widths
`diff / min(diff)`. -/
def mg_gw (times : List ℚ) : List ℚ :=
  (npDiff times).map (fun d => d / npMinQ (npDiff times))

/-- `mark_gaps` step (line 125): the raw gap flags `gap_width > 4`. -/
def mg_gaps0 (times : List ℚ) : List Bool :=
  (mg_gw times).map (fun g => decide (4 < g))

/-- `mark_gaps` step (line 126): `gap_width[~gaps] = 1`. -/
def mg_gw1 (times : List ℚ) : List ℚ :=
  List.zipWith (fun g b => if b then g else 1) (mg_gw times) (mg_gaps0 times)

/-- `mark_gaps` steps (lines 127-128): append `False`, then
`gaps[1:] = gaps[1:] | gaps[:-1]` (the right-hand side is evaluated before the
assignment, so entry `i >= 1` becomes `old[i] | old[i-1]`). -/
def mg_gaps (times : List ℚ) : List Bool :=
  let g1 := mg_gaps0 times ++ [false]
  g1.headD false :: List.zipWith (· || ·) g1.tail g1

/-- `mark_gaps` step (line 129): `floor(gap_width[gaps[:-1]]).astype(int)`. -/
def mg_widthsSel (times : List ℚ) : List ℤ :=
  (maskSelect (mg_gw1 times) (mg_gaps times).dropLast).map (fun g => ⌊g⌋)

/-- `mark_gaps` steps (lines 130-131): append a width of 1 when the last point
is marked. -/
def mg_widths (times : List ℚ) : List ℤ :=
  if (mg_gaps times).getLastD false then mg_widthsSel times ++ [1] else mg_widthsSel times

/-- Embedding of `mark_gaps` (eclipse_finding.py lines 105-131). -/
def mark_gaps (times : List ℚ) : List Bool × List ℤ := (mg_gaps times, mg_widths times)

/-- `repeat_points_internals` step (line 186): `gap_start = (widths != 1)`. -/
def rpi_gap_start (times : List ℚ) : List Bool :=
  (mg_widths times).map (fun w => decide (w ≠ 1))

/-- `repeat_points_internals` steps (lines 187-188):
`gap_p1 = copy(gaps); gap_p1[gaps] = ~gap_start`. -/
def rpi_gap_p1 (times : List ℚ) : List Bool :=
  maskAssignList (mg_gaps times) (mg_gaps times) ((rpi_gap_start times).map (fun b => !b))

/-- `repeat_points_internals` steps (lines 189-190):
`gap_p2 = copy(gaps); gap_p2[gaps] = gap_start`. -/
def rpi_gap_p2 (times : List ℚ) : List Bool :=
  maskAssignList (mg_gaps times) (mg_gaps times) (rpi_gap_start times)

/-- `repeat_points_internals` steps (lines 192-193): zero the unit widths, then
`ceil(widths / 2)`. -/
def rpi_widths2 (times : List ℚ) : List ℤ :=
  (maskAssignConst (mg_widths times) ((mg_widths times).map (fun w => decide (w = 1))) 0).map
    (fun (w : ℤ) => ⌈((w : ℚ)) / 2⌉)

/-- `repeat_points_internals` steps (lines 194-195): `max_repeats = copy(widths);
max_repeats[1:] += max_repeats[:-1]` (entry i becomes `widths[i] + widths[i-1]`). -/
def rpi_max_repeats (times : List ℚ) : List ℤ :=
  List.zipWith (· + ·) (rpi_widths2 times) (0 :: rpi_widths2 times)

/-- `repeat_points_internals` step (line 196): `np.where(widths < n, widths, n)`. -/
def rpi_widths3 (times : List ℚ) (n_kernel : ℕ) : List ℤ :=
  (rpi_widths2 times).map (fun w => if w < (n_kernel : ℤ) then w else (n_kernel : ℤ))

/-- `repeat_points_internals` step (line 197):
`np.where(max_repeats < n, max_repeats, n)`. -/
def rpi_mr2 (times : List ℚ) (n_kernel : ℕ) : List ℤ :=
  (rpi_max_repeats times).map (fun w => if w < (n_kernel : ℤ) then w else (n_kernel : ℤ))

/-- `repeat_points_internals` steps (lines 199-200):
`repetitions = ones(len(times)); repetitions[gaps] = max_repeats`. -/
def rpi_reps (times : List ℚ) (n_kernel : ℕ) : List ℤ :=
  maskAssignList (List.replicate times.length (1 : ℤ)) (mg_gaps times)
    (rpi_mr2 times n_kernel)

/-- `repeat_points_internals` step (line 202):
`repetition_mask = np.repeat(~gaps, repetitions)`. -/
def rpi_mask0 (times : List ℚ) (n_kernel : ℕ) : List Bool :=
  npRepeat ((mg_gaps times).map (fun b => !b)) ((rpi_reps times n_kernel).map Int.toNat)

/-- `repeat_points_internals` step (line 204): `new_positions = cumsum(repetitions) - 1`. -/
def rpi_newpos (times : List ℚ) (n_kernel : ℕ) : List ℤ :=
  (cumsumZ (rpi_reps times n_kernel)).map (fun s => s - 1)

/-- `repeat_points_internals` steps (lines 205-207): the `gap_edges` array,
zeros with `gap_edges[new_positions[gap_p1]] = True` and
`gap_edges[new_positions[gap_p2] - (widths[gap_start] - 1)] = True`. -/
def rpi_edges (times : List ℚ) (n_kernel : ℕ) : List Bool :=
  scatterTrueZ
    (scatterTrueZ (List.replicate (rpi_mask0 times n_kernel).length false)
      (maskSelect (rpi_newpos times n_kernel) (rpi_gap_p1 times)))
    (List.zipWith (fun p w => p - (w - 1))
      (maskSelect (rpi_newpos times n_kernel) (rpi_gap_p2 times))
      (maskSelect (rpi_widths3 times n_kernel) (rpi_gap_start times)))

/-- `repeat_points_internals` step (line 209): `repetition_mask |= gap_edges`. -/
def rpi_mask1 (times : List ℚ) (n_kernel : ℕ) : List Bool :=
  List.zipWith (· || ·) (rpi_mask0 times n_kernel) (rpi_edges times n_kernel)

/-- Embedding of `repeat_points_internals` (eclipse_finding.py lines 135-214):
the kernel-width-below-2 identity branch, the `no_gaps` ends-only branch, and
the gap-aware branch built from the `rpi_*` steps, each ending by repeating the
two array ends `n_kernel - 1` extra times and padding the mask accordingly. -/
def repeat_points_internals (times : List ℚ) (n_kernel : ℕ) (no_gaps : Bool) :
    List ℤ × List Bool :=
  if n_kernel < 2 then
    (List.replicate times.length 1, List.replicate times.length true)
  else if no_gaps then
    (incrAt (incrAt (List.replicate times.length (1 : ℤ)) 0 ((n_kernel : ℤ) - 1))
      (times.length - 1) ((n_kernel : ℤ) - 1),
     List.replicate (n_kernel - 1) false ++ List.replicate times.length true
       ++ List.replicate (n_kernel - 1) false)
  else
    (incrAt (incrAt (rpi_reps times n_kernel) 0 ((n_kernel : ℤ) - 1))
      (times.length - 1) ((n_kernel : ℤ) - 1),
     List.replicate (n_kernel - 1) false ++ rpi_mask1 times n_kernel
       ++ List.replicate (n_kernel - 1) false)

/-- A boolean array with a single `true` (a proof-side device, not from the
source). -/
def oneHot (len pos : ℕ) : List Bool := (List.replicate len false).set pos true

theorem getD_set {α : Type} (l : List α) (i : ℕ) (v : α) (q : ℕ) (d : α) :
    (l.set i v).getD q d = if q = i ∧ q < l.length then v else l.getD q d := by
  rw [List.getD_eq_getElem?_getD, List.getD_eq_getElem?_getD, List.getElem?_set]
  by_cases h1 : i = q
  · subst h1
    by_cases h2 : i < l.length
    · simp [h2]
    · have hnone : l[i]? = none := List.getElem?_eq_none (by omega)
      simp [h2, hnone]
  · rw [if_neg h1, if_neg (fun hc => h1 hc.1.symm)]

theorem countTrue_append (a b : List Bool) :
    countTrue (a ++ b) = countTrue a + countTrue b := by
  simp [countTrue, List.count_append]

theorem countTrue_replicate_false (n : ℕ) : countTrue (List.replicate n false) = 0 := by
  simp [countTrue, List.count_replicate]

theorem length_oneHot (len pos : ℕ) : (oneHot len pos).length = len := by
  simp [oneHot]

theorem countTrue_oneHot (len pos : ℕ) (h : pos < len) :
    countTrue (oneHot len pos) = 1 := by
  induction len generalizing pos with
  | zero => omega
  | succ k ih =>
    cases pos with
    | zero =>
      show countTrue (true :: List.replicate k false) = 1
      rw [countTrue_cons_true, countTrue_replicate_false]
    | succ p =>
      show countTrue (false :: (List.replicate k false).set p true) = 1
      rw [countTrue_cons_false]
      exact ih p (by omega)

theorem getD_oneHot (len pos q : ℕ) (hq : q < len) :
    (oneHot len pos).getD q false = decide (q = pos) := by
  unfold oneHot
  rw [getD_set]
  by_cases h : q = pos
  · subst h
    simp [hq]
  · simp [h, List.getD_eq_getElem?_getD]

theorem sum_take_le (rs : List ℕ) (i j : ℕ) (h : i ≤ j) :
    (rs.take i).sum ≤ (rs.take j).sum := by
  induction rs generalizing i j with
  | nil => simp
  | cons r rt ih =>
    cases i with
    | zero => simp
    | succ i0 =>
      cases j with
      | zero => omega
      | succ j0 =>
        simp only [List.take_succ_cons, List.sum_cons]
        exact Nat.add_le_add_left (ih i0 j0 (by omega)) r

theorem sum_take_succ_getD (rs : List ℕ) (i : ℕ) (h : i < rs.length) :
    (rs.take (i + 1)).sum = (rs.take i).sum + rs.getD i 0 := by
  rw [List.sum_take_succ rs i h, List.getD_eq_getElem _ _ h]

theorem sum_take_getD_le (rs : List ℕ) (i : ℕ) (h : i < rs.length) :
    (rs.take i).sum + rs.getD i 0 ≤ rs.sum := by
  rw [← sum_take_succ_getD rs i h]
  calc (rs.take (i + 1)).sum ≤ (rs.take rs.length).sum :=
        sum_take_le rs (i + 1) rs.length (by omega)
    _ = rs.sum := by rw [List.take_length]

theorem block_decomp_exists (rs : List ℕ) (q : ℕ) (hq : q < rs.sum) :
    ∃ i, i < rs.length ∧ ∃ o, o < rs.getD i 0 ∧ q = (rs.take i).sum + o := by
  induction rs generalizing q with
  | nil => simp at hq
  | cons r rt ih =>
    by_cases h : q < r
    · exact ⟨0, by simp, q, by simpa using h, by simp⟩
    · have hq2 : q - r < rt.sum := by
        simp only [List.sum_cons] at hq
        omega
      obtain ⟨i, hi, o, ho, he⟩ := ih (q - r) hq2
      refine ⟨i + 1, by simpa using hi, o, by simpa using ho, ?_⟩
      simp only [List.take_succ_cons, List.sum_cons]
      omega

theorem block_decomp_unique (rs : List ℕ) (i j o o' : ℕ) (hi : i < rs.length)
    (hj : j < rs.length) (ho : o < rs.getD i 0) (ho' : o' < rs.getD j 0)
    (he : (rs.take i).sum + o = (rs.take j).sum + o') : i = j ∧ o = o' := by
  rcases lt_trichotomy i j with hij | hij | hij
  · exfalso
    have h1 : (rs.take (i + 1)).sum ≤ (rs.take j).sum := sum_take_le rs (i + 1) j hij
    rw [sum_take_succ_getD rs i hi] at h1
    omega
  · exact ⟨hij, by subst hij; omega⟩
  · exfalso
    have h1 : (rs.take (j + 1)).sum ≤ (rs.take i).sum := sum_take_le rs (j + 1) i hij
    rw [sum_take_succ_getD rs j hj] at h1
    omega

theorem npRepeat_cons {α : Type} (x : α) (xs : List α) (c : ℕ) (cs : List ℕ) :
    npRepeat (x :: xs) (c :: cs) = List.replicate c x ++ npRepeat xs cs := by
  simp [npRepeat]

theorem npRepeat_nil {α : Type} (cs : List ℕ) : npRepeat ([] : List α) cs = [] := by
  simp [npRepeat]

theorem length_npRepeat {α : Type} (l : List α) (cs : List ℕ) (h : l.length = cs.length) :
    (npRepeat l cs).length = cs.sum := by
  induction l generalizing cs with
  | nil =>
    have : cs = [] := List.length_eq_zero.mp h.symm
    subst this
    simp [npRepeat]
  | cons x xs ih =>
    cases cs with
    | nil => simp at h
    | cons c ct =>
      rw [npRepeat_cons, List.length_append, List.length_replicate,
        ih ct (by simpa using h), List.sum_cons]

theorem getD_npRepeat_block {α : Type} (l : List α) (cs : List ℕ)
    (h : l.length = cs.length) (i o : ℕ) (hi : i < l.length) (ho : o < cs.getD i 0)
    (d : α) : (npRepeat l cs).getD ((cs.take i).sum + o) d = l.getD i d := by
  induction l generalizing cs i with
  | nil => simp at hi
  | cons x xs ih =>
    cases cs with
    | nil => simp at h
    | cons c ct =>
      cases i with
      | zero =>
        rw [npRepeat_cons]
        have ho0 : o < c := by simpa using ho
        have hor : o < (List.replicate c x).length := by simpa using ho0
        simp only [List.take_zero, List.sum_nil, Nat.zero_add]
        rw [List.getD_append _ _ _ _ hor, List.getD_eq_getElem _ _ hor]
        simp
      | succ p =>
        rw [npRepeat_cons, List.take_succ_cons, List.sum_cons]
        have harr : (List.replicate c x).length ≤ c + ((ct.take p).sum + o) := by
          simp only [List.length_replicate]
          omega
        rw [Nat.add_assoc, List.getD_append_right _ _ _ _ harr]
        simp only [List.length_replicate, Nat.add_sub_cancel_left]
        have := ih ct (by simpa using h) p (by simpa using hi) (by simpa using ho)
        simpa using this

theorem getD_flatten_block {α : Type} (bs : List (List α)) (i o : ℕ)
    (hi : i < bs.length) (ho : o < (bs.getD i []).length) (d : α) :
    bs.flatten.getD (((bs.map List.length).take i).sum + o) d = (bs.getD i []).getD o d := by
  induction bs generalizing i with
  | nil => simp at hi
  | cons b bt ih =>
    cases i with
    | zero =>
      simp only [List.flatten_cons, List.take_zero, List.sum_nil, Nat.zero_add]
      have ho0 : o < b.length := by simpa using ho
      rw [List.getD_append _ _ _ _ ho0]
      rfl
    | succ p =>
      simp only [List.flatten_cons, List.map_cons, List.take_succ_cons, List.sum_cons]
      have harr : b.length ≤ b.length + (((bt.map List.length).take p).sum + o) := by omega
      rw [Nat.add_assoc, List.getD_append_right _ _ _ _ harr,
        Nat.add_sub_cancel_left]
      have := ih p (by simpa using hi) (by simpa using ho)
      simpa using this

theorem maskSelect_append {α : Type} (l1 l2 : List α) (m1 m2 : List Bool)
    (h : l1.length = m1.length) :
    maskSelect (l1 ++ l2) (m1 ++ m2) = maskSelect l1 m1 ++ maskSelect l2 m2 := by
  unfold maskSelect
  rw [List.zip_append h, List.filter_append, List.map_append]

theorem maskSelect_replicate {α : Type} (s : α) (m : List Bool) :
    maskSelect (List.replicate m.length s) m = List.replicate (countTrue m) s := by
  induction m with
  | nil => rfl
  | cons b bt ih =>
    show maskSelect (s :: List.replicate bt.length s) (b :: bt) = _
    cases b
    · rw [maskSelect_cons_false, countTrue_cons_false, ih]
    · rw [maskSelect_cons_true, countTrue_cons_true, ih, List.replicate_succ]

theorem roundtrip_blocks {α : Type} (ss : List α) (rs : List ℕ) (bs : List (List Bool))
    (h1 : rs.length = ss.length) (h2 : bs.length = ss.length)
    (h : ∀ k, k < ss.length → (bs.getD k []).length = rs.getD k 0
      ∧ countTrue (bs.getD k []) = 1) :
    maskSelect (npRepeat ss rs) bs.flatten = ss := by
  induction ss generalizing rs bs with
  | nil =>
    have : rs = [] := List.length_eq_zero.mp h1
    have h2n : bs = [] := List.length_eq_zero.mp h2
    subst this; subst h2n
    rfl
  | cons s st ih =>
    cases rs with
    | nil => simp at h1
    | cons r rt =>
      cases bs with
      | nil => simp at h2
      | cons b bt =>
        obtain ⟨hb1, hb2⟩ := h 0 (by simp)
        simp only [List.getD_cons_zero] at hb1 hb2
        rw [npRepeat_cons, List.flatten_cons,
          maskSelect_append _ _ _ _ (by simp [hb1]),
          ih rt bt (by simpa using h1) (by simpa using h2)
            (fun k hk => by simpa using h (k + 1) (by simpa using hk))]
        have hsel : maskSelect (List.replicate r s) b = [s] := by
          have := maskSelect_replicate s b
          rw [hb1] at this
          rw [this, hb2]
          rfl
        rw [hsel]
        rfl

theorem scatterTrueZ_length (m : List Bool) (ps : List ℤ) :
    (scatterTrueZ m ps).length = m.length := by
  induction ps generalizing m with
  | nil => rfl
  | cons p pt ih =>
    show (scatterTrueZ (pySetTrue m p) pt).length = m.length
    rw [ih]
    unfold pySetTrue
    by_cases h : p < 0 <;> simp [h]

theorem scatterTrueZ_getD (m : List Bool) (ps : List ℤ)
    (hps : ∀ p ∈ ps, 0 ≤ p ∧ p.toNat < m.length) (q : ℕ) :
    (scatterTrueZ m ps).getD q false
      = (m.getD q false || decide ((q : ℤ) ∈ ps)) := by
  induction ps generalizing m with
  | nil => simp [scatterTrueZ]
  | cons p pt ih =>
    show (scatterTrueZ (pySetTrue m p) pt).getD q false = _
    obtain ⟨hp0, hpl⟩ := hps p (by simp)
    have hset : pySetTrue m p = m.set p.toNat true := by
      unfold pySetTrue
      rw [if_neg (by omega)]
    have hlen : (pySetTrue m p).length = m.length := by rw [hset]; simp
    rw [ih (pySetTrue m p) (fun x hx => by
      obtain ⟨a, b⟩ := hps x (by simp [hx])
      exact ⟨a, by rw [hlen]; exact b⟩)]
    rw [hset, getD_set]
    by_cases hq : q = p.toNat ∧ q < m.length
    · rw [if_pos hq]
      have : (q : ℤ) = p := by omega
      simp [this]
    · rw [if_neg hq]
      by_cases hqp : (q : ℤ) = p
      · have hq2 : q = p.toNat := by omega
        have hq3 : ¬q < m.length := fun hc => hq ⟨hq2, hc⟩
        exfalso
        exact hq3 (hq2 ▸ hpl)
      · simp [hqp]

theorem mem_maskSelect_imp {α : Type} (l : List α) (m : List Bool) (x : α) (d : α)
    (h : x ∈ maskSelect l m) :
    ∃ j, j < l.length ∧ j < m.length ∧ m.getD j false = true ∧ l.getD j d = x := by
  induction l generalizing m with
  | nil => simp [maskSelect] at h
  | cons a at' ih =>
    cases m with
    | nil => simp [maskSelect] at h
    | cons b bt =>
      cases b
      · rw [maskSelect_cons_false] at h
        obtain ⟨j, h1, h2, h3, h4⟩ := ih bt h
        exact ⟨j + 1, by simpa using h1, by simpa using h2, by simpa using h3,
          by simpa using h4⟩
      · rw [maskSelect_cons_true] at h
        rcases List.mem_cons.mp h with h0 | h0
        · exact ⟨0, by simp, by simp, by simp, by simp [h0.symm]⟩
        · obtain ⟨j, h1, h2, h3, h4⟩ := ih bt h0
          exact ⟨j + 1, by simpa using h1, by simpa using h2, by simpa using h3,
            by simpa using h4⟩

theorem maskSelect_mem_of {α : Type} (l : List α) (m : List Bool) (j : ℕ) (d : α)
    (h1 : j < l.length) (h2 : j < m.length) (h3 : m.getD j false = true) :
    l.getD j d ∈ maskSelect l m := by
  induction l generalizing m j with
  | nil => simp at h1
  | cons a at' ih =>
    cases m with
    | nil => simp at h2
    | cons b bt =>
      cases j with
      | zero =>
        have hb : b = true := by simpa using h3
        subst hb
        rw [maskSelect_cons_true]
        simp
      | succ p =>
        have := ih bt p (by simpa using h1) (by simpa using h2) (by simpa using h3)
        cases b
        · rw [maskSelect_cons_false]
          simpa using this
        · rw [maskSelect_cons_true]
          simp only [List.getD_cons_succ]
          exact List.mem_cons_of_mem _ this

theorem mem_zipWith_imp {α β γ : Type} (f : α → β → γ) (a : List α) (b : List β) (x : γ)
    (da : α) (db : β) (h : x ∈ List.zipWith f a b) :
    ∃ k, k < a.length ∧ k < b.length ∧ f (a.getD k da) (b.getD k db) = x := by
  induction a generalizing b with
  | nil => simp at h
  | cons p pt ih =>
    cases b with
    | nil => simp at h
    | cons q qt =>
      rcases List.mem_cons.mp h with h0 | h0
      · exact ⟨0, by simp, by simp, by simp [h0.symm]⟩
      · obtain ⟨k, h1, h2, h3⟩ := ih qt h0
        exact ⟨k + 1, by simpa using h1, by simpa using h2, by simpa using h3⟩

theorem zipWith_mem_of {α β γ : Type} (f : α → β → γ) (a : List α) (b : List β) (k : ℕ)
    (da : α) (db : β) (h1 : k < a.length) (h2 : k < b.length) :
    f (a.getD k da) (b.getD k db) ∈ List.zipWith f a b := by
  induction a generalizing b k with
  | nil => simp at h1
  | cons p pt ih =>
    cases b with
    | nil => simp at h2
    | cons q qt =>
      cases k with
      | zero => simp
      | succ j =>
        have := ih qt j (by simpa using h1) (by simpa using h2)
        simp only [List.getD_cons_succ]
        exact List.mem_cons_of_mem _ this

theorem countTrue_take_succ (m : List Bool) (j : ℕ) :
    countTrue (m.take (j + 1))
      = countTrue (m.take j) + (if m.getD j false then 1 else 0) := by
  induction m generalizing j with
  | nil => simp [countTrue]
  | cons b bt ih =>
    cases j with
    | zero =>
      cases b
      · simp [countTrue_cons_false, countTrue]
      · simp [countTrue_cons_true, countTrue]
    | succ p =>
      simp only [List.take_succ_cons, List.getD_cons_succ]
      cases b
      · rw [countTrue_cons_false, countTrue_cons_false, ih]
      · rw [countTrue_cons_true, countTrue_cons_true, ih]
        omega

theorem exists_true_of_lt_countTrue (m : List Bool) (k : ℕ) (h : k < countTrue m) :
    ∃ j, j < m.length ∧ m.getD j false = true ∧ countTrue (m.take j) = k := by
  induction m generalizing k with
  | nil => simp [countTrue] at h
  | cons b bt ih =>
    cases b
    · rw [countTrue_cons_false] at h
      obtain ⟨j, h1, h2, h3⟩ := ih k h
      refine ⟨j + 1, by simpa using h1, by simpa using h2, ?_⟩
      rw [List.take_succ_cons, countTrue_cons_false, h3]
    · rw [countTrue_cons_true] at h
      cases k with
      | zero => exact ⟨0, by simp, by simp, rfl⟩
      | succ p =>
        obtain ⟨j, h1, h2, h3⟩ := ih p (by omega)
        refine ⟨j + 1, by simpa using h1, by simpa using h2, ?_⟩
        rw [List.take_succ_cons, countTrue_cons_true, h3]

theorem countTrue_take_maskAssign (m s : List Bool) (hs : countTrue m ≤ s.length)
    (j : ℕ) : countTrue ((maskAssignList m m s).take j)
      = countTrue (s.take (countTrue (m.take j))) := by
  induction m generalizing s j with
  | nil => simp [maskAssignList, countTrue]
  | cons b bt ih =>
    cases j with
    | zero => simp [countTrue]
    | succ p =>
      cases b
      · show countTrue ((false :: maskAssignList bt bt s).take (p + 1)) = _
        rw [List.take_succ_cons, countTrue_cons_false, List.take_succ_cons,
          countTrue_cons_false]
        exact ih s (by rw [countTrue_cons_false] at hs; exact hs) p
      · rw [countTrue_cons_true] at hs
        cases s with
        | nil => simp at hs
        | cons v vt =>
          show countTrue ((v :: maskAssignList bt bt vt).take (p + 1)) = _
          rw [List.take_succ_cons, List.take_succ_cons, countTrue_cons_true]
          have hvs : countTrue bt ≤ vt.length := by simpa using hs
          cases v
          · rw [countTrue_cons_false, ih vt hvs p, List.take_succ_cons,
              countTrue_cons_false]
          · rw [countTrue_cons_true, ih vt hvs p, List.take_succ_cons,
              countTrue_cons_true]

theorem cumsumZ_length (l : List ℤ) : (cumsumZ l).length = l.length := by
  simp [cumsumZ, List.length_scanl]

theorem cumsumZ_getD (l : List ℤ) (i : ℕ) (h : i < l.length) :
    (cumsumZ l).getD i 0 = (l.take (i + 1)).sum := by
  induction l generalizing i with
  | nil => simp at h
  | cons x xt ih =>
    have hx : cumsumZ (x :: xt) = x :: (cumsumZ xt).map (fun s => x + s) := by
      show (List.scanl (· + ·) 0 (x :: xt)).tail = _
      rw [List.scanl_cons]
      show List.scanl (· + ·) (0 + x) xt = _
      rw [zero_add]
      have hgen : ∀ (t : List ℤ) (a : ℤ),
          List.scanl (· + ·) a t = a :: (cumsumZ t).map (fun s => a + s) := by
        intro t
        induction t with
        | nil => intro a; rfl
        | cons y yt iht =>
          intro a
          rw [List.scanl_cons, iht (a + y)]
          show a :: (a + y) :: _ = a :: ((cumsumZ (y :: yt)).map fun s => a + s)
          have : cumsumZ (y :: yt) = y :: (cumsumZ yt).map (fun s => y + s) := by
            show (List.scanl (· + ·) 0 (y :: yt)).tail = _
            rw [List.scanl_cons]
            show List.scanl (· + ·) (0 + y) yt = _
            rw [zero_add, iht y]
          rw [this]
          simp only [List.map_cons, List.map_map]
          congr 1
          · congr 1
            ext s
            simp [add_assoc]
      exact hgen xt x
    rw [hx]
    cases i with
    | zero => simp
    | succ p =>
      have hp : p < xt.length := by simpa using h
      rw [List.getD_cons_succ,
        getD_map_eq (fun s => x + s) (cumsumZ xt) p (by rw [cumsumZ_length]; exact hp) 0 0,
        ih p hp]
      simp

theorem sum_toNat_cast (l : List ℤ) (h : ∀ x ∈ l, 0 ≤ x) :
    (((l.map Int.toNat).sum : ℕ) : ℤ) = l.sum := by
  induction l with
  | nil => rfl
  | cons x xt ih =>
    simp only [List.map_cons, List.sum_cons, Nat.cast_add]
    rw [ih (fun y hy => h y (by simp [hy]))]
    have := h x (by simp)
    omega

theorem sum_range_getD (l : List ℕ) (i : ℕ) (h : i ≤ l.length) :
    (((List.range i).map (fun k => l.getD k 0)).sum) = (l.take i).sum := by
  induction i with
  | zero => simp
  | succ p ih =>
    rw [List.range_succ, List.map_append, List.sum_append,
      ih (by omega), sum_take_succ_getD l p (by omega)]
    simp

theorem maskSelect_all_true {α : Type} (l : List α) :
    maskSelect l (List.replicate l.length true) = l := by
  induction l with
  | nil => rfl
  | cons x xt ih =>
    show maskSelect (x :: xt) (true :: List.replicate xt.length true) = _
    rw [maskSelect_cons_true, ih]

theorem npRepeat_ones {α : Type} (l : List α) :
    npRepeat l (List.replicate l.length 1) = l := by
  induction l with
  | nil => rfl
  | cons x xt ih =>
    show npRepeat (x :: xt) (1 :: List.replicate xt.length 1) = _
    rw [npRepeat_cons, ih]
    rfl

theorem npRepeat_head_add {α : Type} (s : α) (st : List α) (r p : ℕ) (rt : List ℕ) :
    npRepeat (s :: st) ((r + p) :: rt)
      = List.replicate p s ++ npRepeat (s :: st) (r :: rt) := by
  rw [npRepeat_cons, npRepeat_cons, ← List.append_assoc, ← List.replicate_add,
    Nat.add_comm p r]

theorem npRepeat_last_add {α : Type} (ss : List α) (rs : List ℕ) (p : ℕ) (d : α)
    (h : ss.length = rs.length) (hne : rs ≠ []) :
    npRepeat ss (rs.set (rs.length - 1) (rs.getD (rs.length - 1) 0 + p))
      = npRepeat ss rs ++ List.replicate p (ss.getD (rs.length - 1) d) := by
  induction ss generalizing rs with
  | nil =>
    have : rs = [] := List.length_eq_zero.mp h.symm
    exact absurd this hne
  | cons s st ih =>
    cases rs with
    | nil => simp at h
    | cons r rt =>
      cases rt with
      | nil =>
        have hst : st = [] := by simpa using h
        subst hst
        show npRepeat [s] [r + p] = npRepeat [s] [r] ++ List.replicate p s
        have e1 : npRepeat [s] [r + p] = List.replicate (r + p) s := by
          simp [npRepeat]
        have e2 : npRepeat [s] [r] = List.replicate r s := by
          simp [npRepeat]
        rw [e1, e2, List.replicate_add]
      | cons r2 rt2 =>
        have hlen : st.length = (r2 :: rt2).length := by simpa using h
        have hlpos : (r2 :: rt2).length ≠ 0 := by simp
        have hset : ((r :: r2 :: rt2).set ((r :: r2 :: rt2).length - 1)
            ((r :: r2 :: rt2).getD ((r :: r2 :: rt2).length - 1) 0 + p))
            = r :: ((r2 :: rt2).set ((r2 :: rt2).length - 1)
              ((r2 :: rt2).getD ((r2 :: rt2).length - 1) 0 + p)) := by
          have h1 : (r :: r2 :: rt2).length - 1 = ((r2 :: rt2).length - 1) + 1 := by
            simp
          rw [h1, List.set_cons_succ, List.getD_cons_succ]
        rw [hset]
        cases st with
        | nil => simp at hlen
        | cons s2 st2 =>
          have h2 : (s :: s2 :: st2).getD ((r :: r2 :: rt2).length - 1) d
              = (s2 :: st2).getD ((r2 :: rt2).length - 1) d := by
            have h3 : (r :: r2 :: rt2).length - 1 = ((r2 :: rt2).length - 1) + 1 := by
              simp
            rw [h3, List.getD_cons_succ]
          rw [h2, npRepeat_cons, npRepeat_cons, ih (r2 :: rt2) hlen (by simp),
            List.append_assoc]

theorem getD_tail {α : Type} (l : List α) (i : ℕ) (d : α) :
    l.tail.getD i d = l.getD (i + 1) d := by
  cases l with
  | nil => simp
  | cons x xs => simp

theorem getD_take {α : Type} (l : List α) (k i : ℕ) (d : α) (h : i < k) :
    (l.take k).getD i d = l.getD i d := by
  induction l generalizing k i with
  | nil => simp
  | cons x xs ih =>
    cases k with
    | zero => omega
    | succ k0 =>
      cases i with
      | zero => simp
      | succ p =>
        simp only [List.take_succ_cons, List.getD_cons_succ]
        exact ih k0 p (by omega)

theorem getD_dropLast {α : Type} (l : List α) (i : ℕ) (d : α) (h : i < l.length - 1) :
    l.dropLast.getD i d = l.getD i d := by
  rw [List.dropLast_eq_take, getD_take _ _ _ _ h]

theorem getD_replicate_self {α : Type} (n : ℕ) (a : α) (q : ℕ) :
    (List.replicate n a).getD q a = a := by
  by_cases h : q < n
  · rw [List.getD_eq_getElem _ _ (by simpa using h)]
    simp
  · rw [List.getD_eq_default _ _ (by simpa using h)]

theorem getD_getLastD (l : List α) (d : α) (h : l ≠ []) :
    l.getLastD d = l.getD (l.length - 1) d := by
  rw [List.getLastD_eq_getLast?, List.getLast?_eq_getElem?, List.getD_eq_getElem?_getD]

/-! ### mark_gaps structure -/

theorem mg_gaps0_length (times : List ℚ) :
    (mg_gaps0 times).length = times.length - 1 := by
  simp [mg_gaps0, mg_gw, length_npDiff]

theorem mg_gw_length (times : List ℚ) : (mg_gw times).length = times.length - 1 := by
  simp [mg_gw, length_npDiff]

theorem mg_gw1_length (times : List ℚ) : (mg_gw1 times).length = times.length - 1 := by
  simp [mg_gw1, mg_gw_length, mg_gaps0_length]

theorem mg_gaps_length (times : List ℚ) (h : 1 ≤ times.length) :
    (mg_gaps times).length = times.length := by
  show ((mg_gaps0 times ++ [false]).headD false ::
    List.zipWith (· || ·) (mg_gaps0 times ++ [false]).tail (mg_gaps0 times ++ [false])).length
    = times.length
  rw [List.length_cons, List.length_zipWith, List.length_tail, List.length_append,
    mg_gaps0_length]
  simp
  omega

theorem g1_getD (times : List ℚ) (j : ℕ) (h : j < times.length) :
    (mg_gaps0 times ++ [false]).getD j false = (mg_gaps0 times).getD j false := by
  by_cases hj : j < times.length - 1
  · exact List.getD_append _ _ _ _ (by rw [mg_gaps0_length]; exact hj)
  · have hge : (mg_gaps0 times).length ≤ j := by rw [mg_gaps0_length]; omega
    rw [List.getD_append_right _ _ _ _ hge, List.getD_eq_default _ _ hge]
    cases hk : j - (mg_gaps0 times).length with
    | zero => rfl
    | succ p => simp

theorem mg_gaps_getD_zero (times : List ℚ) :
    (mg_gaps times).getD 0 false = (mg_gaps0 times).getD 0 false := by
  show ((mg_gaps0 times ++ [false]).headD false :: _).getD 0 false = _
  rw [List.getD_cons_zero]
  cases hg : mg_gaps0 times with
  | nil => rfl
  | cons b bt => rfl

theorem mg_gaps_getD_succ (times : List ℚ) (i : ℕ) (h : i + 1 < times.length) :
    (mg_gaps times).getD (i + 1) false
      = ((mg_gaps0 times).getD (i + 1) false || (mg_gaps0 times).getD i false) := by
  show ((mg_gaps0 times ++ [false]).headD false ::
    List.zipWith (· || ·) (mg_gaps0 times ++ [false]).tail (mg_gaps0 times ++ [false])).getD
      (i + 1) false = _
  rw [List.getD_cons_succ]
  have hlen1 : i < (mg_gaps0 times ++ [false]).tail.length := by
    rw [List.length_tail, List.length_append, mg_gaps0_length]
    simp
    omega
  have hlen2 : i < (mg_gaps0 times ++ [false]).length := by
    rw [List.length_append, mg_gaps0_length]
    simp
    omega
  rw [getD_zipWith_eq _ _ _ i hlen1 hlen2 false false false, getD_tail,
    g1_getD times (i + 1) h, g1_getD times i (by omega)]

theorem mg_gaps0_getD (times : List ℚ) (i : ℕ) (h : i < times.length - 1) :
    (mg_gaps0 times).getD i false = decide (4 < (mg_gw times).getD i 0) := by
  unfold mg_gaps0
  rw [getD_map_eq _ _ i (by rw [mg_gw_length]; exact h) false 0]

theorem mg_gw1_getD (times : List ℚ) (i : ℕ) (h : i < times.length - 1) :
    (mg_gw1 times).getD i 0
      = if (mg_gaps0 times).getD i false then (mg_gw times).getD i 0 else 1 := by
  unfold mg_gw1
  rw [getD_zipWith_eq _ _ _ i (by rw [mg_gw_length]; exact h)
    (by rw [mg_gaps0_length]; exact h) 0 0 false]

theorem mg_widthsSel_length (times : List ℚ) (h : 1 ≤ times.length) :
    (mg_widthsSel times).length = countTrue (mg_gaps times).dropLast := by
  unfold mg_widthsSel
  rw [List.length_map, length_maskSelect]
  rw [mg_gw1_length, List.length_dropLast, mg_gaps_length times h]

theorem countTrue_dropLast_last (m : List Bool) (h : m ≠ []) :
    countTrue m = countTrue m.dropLast + (if m.getLastD false then 1 else 0) := by
  conv_lhs => rw [← List.dropLast_append_getLast h]
  rw [countTrue_append]
  congr 1
  have hgl : m.getLastD false = m.getLast h := by
    rw [List.getLastD_eq_getLast?, List.getLast?_eq_getLast m h]
    rfl
  rw [hgl]
  cases hv : m.getLast h <;> simp [countTrue]

theorem mg_widths_length (times : List ℚ) (h : 1 ≤ times.length) :
    (mg_widths times).length = countTrue (mg_gaps times) := by
  have hne : mg_gaps times ≠ [] := by
    apply List.ne_nil_of_length_pos
    rw [mg_gaps_length times h]
    omega
  rw [countTrue_dropLast_last (mg_gaps times) hne]
  unfold mg_widths
  by_cases hl : (mg_gaps times).getLastD false
  · rw [if_pos hl, if_pos hl, List.length_append, mg_widthsSel_length times h]
    rfl
  · rw [if_neg hl, if_neg hl, mg_widthsSel_length times h]
    simp

theorem mg_widths_getD (times : List ℚ) (i : ℕ) (hL : 2 ≤ times.length)
    (hi : i < times.length) (hm : (mg_gaps times).getD i false = true) :
    (mg_widths times).getD (countTrue ((mg_gaps times).take i)) 0
      = if i = times.length - 1 then 1 else ⌊(mg_gw1 times).getD i 0⌋ := by
  have hglen : (mg_gaps times).length = times.length := mg_gaps_length times (by omega)
  have hdl : (mg_gaps times).dropLast.length = times.length - 1 := by
    rw [List.length_dropLast, hglen]
  by_cases hlast : i = times.length - 1
  · rw [if_pos hlast]
    have hcnt : countTrue ((mg_gaps times).take i)
        = countTrue (mg_gaps times).dropLast := by
      rw [List.dropLast_eq_take, hglen, hlast]
    have hlt : (mg_gaps times).getLastD false = true := by
      rw [getD_getLastD _ _ (List.ne_nil_of_length_pos (by omega)), hglen, ← hlast]
      exact hm
    unfold mg_widths
    rw [if_pos hlt, hcnt]
    have hsl : (mg_widthsSel times).length = countTrue (mg_gaps times).dropLast :=
      mg_widthsSel_length times (by omega)
    rw [List.getD_append_right _ _ _ _ (by omega)]
    have hz : countTrue (mg_gaps times).dropLast - (mg_widthsSel times).length = 0 := by
      omega
    rw [hz]
    rfl
  · rw [if_neg hlast]
    have hilt : i < times.length - 1 := by omega
    have hcnt : countTrue ((mg_gaps times).take i)
        = countTrue ((mg_gaps times).dropLast.take i) := by
      rw [List.dropLast_eq_take, List.take_take, hglen, Nat.min_eq_left (by omega)]
    have hdli : (mg_gaps times).dropLast.getD i false = true := by
      rw [getD_dropLast _ _ _ (by rw [hglen]; exact hilt)]
      exact hm
    have hslot : countTrue ((mg_gaps times).dropLast.take i)
        < countTrue (mg_gaps times).dropLast :=
      countTrue_take_lt _ i (by rw [hdl]; exact hilt) hdli
    have hsel : (mg_widthsSel times).getD (countTrue ((mg_gaps times).dropLast.take i)) 0
        = ⌊(mg_gw1 times).getD i 0⌋ := by
      unfold mg_widthsSel
      rw [getD_map_eq _ _ _ (by
        rw [length_maskSelect _ _ (by rw [mg_gw1_length, hdl])]
        exact hslot) 0 0]
      congr 1
      exact maskSelect_getD _ _ (by rw [mg_gw1_length, hdl]) i 0
        (by rw [hdl]; exact hilt) hdli
    unfold mg_widths
    by_cases hlt : (mg_gaps times).getLastD false
    · rw [if_pos hlt, hcnt, List.getD_append _ _ _ _ (by
        rw [mg_widthsSel_length times (by omega)]
        exact hslot)]
      exact hsel
    · rw [if_neg hlt, hcnt]
      exact hsel

theorem getD_replicate_lt {α : Type} (n : ℕ) (a : α) (q : ℕ) (d : α) (h : q < n) :
    (List.replicate n a).getD q d = a := by
  rw [List.getD_eq_getElem _ _ (by simpa using h)]
  simp

theorem mg_widths_entry (times : List ℚ) (hL : 2 ≤ times.length) (k : ℕ)
    (hk : k < (mg_widths times).length) :
    (mg_widths times).getD k 0 = 1 ∨ 4 ≤ (mg_widths times).getD k 0 := by
  have hcnt : (mg_widths times).length = countTrue (mg_gaps times) :=
    mg_widths_length times (by omega)
  obtain ⟨i, hil, him, hslot⟩ := exists_true_of_lt_countTrue (mg_gaps times) k
    (by rw [← hcnt]; exact hk)
  have hglen := mg_gaps_length times (by omega)
  have hiL : i < times.length := by rw [← hglen]; exact hil
  have hval := mg_widths_getD times i hL hiL him
  rw [hslot] at hval
  rw [hval]
  by_cases hlast : i = times.length - 1
  · rw [if_pos hlast]
    left
    rfl
  · rw [if_neg hlast]
    have hilt : i < times.length - 1 := by omega
    rw [mg_gw1_getD times i hilt]
    by_cases hg0 : (mg_gaps0 times).getD i false
    · right
      rw [if_pos hg0]
      have h4 : 4 < (mg_gw times).getD i 0 := by
        have hd := mg_gaps0_getD times i hilt
        rw [hg0] at hd
        exact of_decide_eq_true hd.symm
      exact Int.le_floor.mpr (by exact_mod_cast le_of_lt h4)
    · left
      rw [if_neg hg0]
      simp

theorem rpi_widths2_length (times : List ℚ) :
    (rpi_widths2 times).length = (mg_widths times).length := by
  simp [rpi_widths2, maskAssignConst]

theorem rpi_widths2_getD (times : List ℚ) (k : ℕ) (hk : k < (mg_widths times).length) :
    (rpi_widths2 times).getD k 0
      = ⌈(((if (mg_widths times).getD k 0 = 1 then 0 else (mg_widths times).getD k 0) : ℤ)
          : ℚ) / 2⌉ := by
  unfold rpi_widths2 maskAssignConst
  rw [getD_map_eq _ _ k (by simpa [List.length_zipWith] using hk) 0 0,
    getD_zipWith_eq _ _ _ k hk (by simpa using hk) 0 0 false,
    getD_map_eq (fun w => decide (w = 1)) _ k hk false 0]
  simp only [decide_eq_true_eq]

theorem rpi_widths2_of_one (times : List ℚ) (k : ℕ) (hk : k < (mg_widths times).length)
    (h1 : (mg_widths times).getD k 0 = 1) : (rpi_widths2 times).getD k 0 = 0 := by
  rw [rpi_widths2_getD times k hk, if_pos h1]
  norm_num

theorem rpi_widths2_of_ge4 (times : List ℚ) (k : ℕ) (hk : k < (mg_widths times).length)
    (h4 : 4 ≤ (mg_widths times).getD k 0) : 2 ≤ (rpi_widths2 times).getD k 0 := by
  rw [rpi_widths2_getD times k hk, if_neg (by omega)]
  have h1 : (1 : ℤ) < ⌈(((mg_widths times).getD k 0 : ℤ) : ℚ) / 2⌉ := by
    rw [Int.lt_ceil]
    have : (4 : ℚ) ≤ (((mg_widths times).getD k 0 : ℤ) : ℚ) := by exact_mod_cast h4
    push_cast
    linarith
  omega

theorem rpi_widths2_nonneg (times : List ℚ) (hL : 2 ≤ times.length) (k : ℕ) :
    0 ≤ (rpi_widths2 times).getD k 0 := by
  by_cases hk : k < (mg_widths times).length
  · rcases mg_widths_entry times hL k hk with h1 | h4
    · rw [rpi_widths2_of_one times k hk h1]
    · have := rpi_widths2_of_ge4 times k hk h4
      omega
  · rw [List.getD_eq_default _ _ (by rw [rpi_widths2_length]; omega)]

theorem rpi_max_repeats_length (times : List ℚ) :
    (rpi_max_repeats times).length = (rpi_widths2 times).length := by
  simp [rpi_max_repeats]

theorem rpi_max_repeats_getD (times : List ℚ) (k : ℕ)
    (hk : k < (rpi_widths2 times).length) :
    (rpi_max_repeats times).getD k 0
      = (rpi_widths2 times).getD k 0
        + (if k = 0 then 0 else (rpi_widths2 times).getD (k - 1) 0) := by
  unfold rpi_max_repeats
  rw [getD_zipWith_eq _ _ _ k hk (by simp; omega) 0 0 0]
  congr 1
  cases k with
  | zero => rfl
  | succ p => simp

theorem rpi_widths3_getD (times : List ℚ) (n : ℕ) (k : ℕ)
    (hk : k < (rpi_widths2 times).length) :
    (rpi_widths3 times n).getD k 0
      = if (rpi_widths2 times).getD k 0 < (n : ℤ) then (rpi_widths2 times).getD k 0
        else (n : ℤ) := by
  unfold rpi_widths3
  rw [getD_map_eq _ _ k hk 0 0]

theorem rpi_mr2_getD (times : List ℚ) (n : ℕ) (k : ℕ)
    (hk : k < (rpi_max_repeats times).length) :
    (rpi_mr2 times n).getD k 0
      = if (rpi_max_repeats times).getD k 0 < (n : ℤ) then (rpi_max_repeats times).getD k 0
        else (n : ℤ) := by
  unfold rpi_mr2
  rw [getD_map_eq _ _ k hk 0 0]

theorem rpi_mr2_length (times : List ℚ) (n : ℕ) (hL : 2 ≤ times.length) :
    (rpi_mr2 times n).length = countTrue (mg_gaps times) := by
  unfold rpi_mr2
  rw [List.length_map, rpi_max_repeats_length, rpi_widths2_length,
    mg_widths_length times (by omega)]

theorem rpi_reps_length (times : List ℚ) (n : ℕ) (hL : 2 ≤ times.length) :
    (rpi_reps times n).length = times.length := by
  unfold rpi_reps
  rw [maskAssignList_length]
  simp

theorem rpi_reps_getD (times : List ℚ) (n : ℕ) (hL : 2 ≤ times.length) (i : ℕ)
    (hi : i < times.length) :
    (rpi_reps times n).getD i 0
      = if (mg_gaps times).getD i false
        then (rpi_mr2 times n).getD (countTrue ((mg_gaps times).take i)) 0
        else 1 := by
  unfold rpi_reps
  rw [maskAssignList_getD _ _ _ (by simp [mg_gaps_length times (by omega)])
    (rpi_mr2_length times n hL) i 0]
  by_cases hm : (mg_gaps times).getD i false
  · rw [if_pos hm, if_pos hm]
  · rw [if_neg hm, if_neg hm, getD_replicate_lt _ _ _ _ hi]

theorem p1_prev (times : List ℚ) (hL : 2 ≤ times.length) (i : ℕ) (hi : i < times.length)
    (hm : (mg_gaps times).getD i false = true)
    (hw1 : (mg_widths times).getD (countTrue ((mg_gaps times).take i)) 0 = 1) :
    1 ≤ i ∧ (mg_gaps times).getD (i - 1) false = true
      ∧ 4 ≤ (mg_widths times).getD (countTrue ((mg_gaps times).take (i - 1))) 0
      ∧ countTrue ((mg_gaps times).take i) = countTrue ((mg_gaps times).take (i - 1)) + 1 := by
  have key : 1 ≤ i ∧ (mg_gaps0 times).getD (i - 1) false = true := by
    by_cases hlast : i = times.length - 1
    · have h1i : 1 ≤ i := by omega
      refine ⟨h1i, ?_⟩
      have hsucc := mg_gaps_getD_succ times (times.length - 2) (by omega)
      have hrw : times.length - 2 + 1 = i := by omega
      rw [hrw] at hsucc
      have hout : (mg_gaps0 times).getD i false = false := by
        rw [List.getD_eq_default _ _ (by rw [mg_gaps0_length]; omega)]
      have hrw2 : times.length - 2 = i - 1 := by omega
      rw [hrw2] at hsucc
      rw [hsucc, hout] at hm
      simpa using hm
    · have hilt : i < times.length - 1 := by omega
      have hval := mg_widths_getD times i hL hi hm
      rw [if_neg hlast, mg_gw1_getD times i hilt] at hval
      have hg0 : (mg_gaps0 times).getD i false = false := by
        by_contra hc
        have hg0t : (mg_gaps0 times).getD i false = true := by
          cases hgv : (mg_gaps0 times).getD i false
          · exact absurd hgv hc
          · rfl
        rw [if_pos hg0t] at hval
        have h4 : 4 < (mg_gw times).getD i 0 := by
          have hd := mg_gaps0_getD times i hilt
          rw [hg0t] at hd
          exact of_decide_eq_true hd.symm
        have hfl : (4 : ℤ) ≤ ⌊(mg_gw times).getD i 0⌋ :=
          Int.le_floor.mpr (by exact_mod_cast le_of_lt h4)
        rw [hval] at hw1
        omega
      have hi1 : 1 ≤ i := by
        by_contra hc
        have hz : i = 0 := by omega
        rw [hz, mg_gaps_getD_zero times] at hm
        rw [hz] at hg0
        rw [hg0] at hm
        simp at hm
      refine ⟨hi1, ?_⟩
      have hsucc := mg_gaps_getD_succ times (i - 1) (by omega)
      have hrw : i - 1 + 1 = i := by omega
      rw [hrw] at hsucc
      rw [hsucc, hg0] at hm
      simpa using hm
  obtain ⟨hi1, hg0⟩ := key
  have hgprev : (mg_gaps times).getD (i - 1) false = true := by
    cases hq : i - 1 with
    | zero =>
      rw [mg_gaps_getD_zero times, ← hq, hg0]
    | succ q =>
      have hsucc := mg_gaps_getD_succ times q (by omega)
      rw [hsucc]
      rw [hq] at hg0
      rw [hg0]
      simp
  refine ⟨hi1, hgprev, ?_, ?_⟩
  · have hprevlt : i - 1 < times.length - 1 := by omega
    have hval := mg_widths_getD times (i - 1) hL (by omega) hgprev
    rw [if_neg (by omega), mg_gw1_getD times (i - 1) hprevlt, if_pos hg0] at hval
    have h4 : 4 < (mg_gw times).getD (i - 1) 0 := by
      have hd := mg_gaps0_getD times (i - 1) hprevlt
      rw [hg0] at hd
      exact of_decide_eq_true hd.symm
    have hfl : (4 : ℤ) ≤ ⌊(mg_gw times).getD (i - 1) 0⌋ :=
      Int.le_floor.mpr (by exact_mod_cast le_of_lt h4)
    rw [hval]
    exact hfl
  · have hstep := countTrue_take_succ (mg_gaps times) (i - 1)
    have hrw : i - 1 + 1 = i := by omega
    rw [hrw, hgprev] at hstep
    rw [hstep]
    rfl

theorem rpi_reps_ge (times : List ℚ) (n : ℕ) (hL : 2 ≤ times.length) (hn : 2 ≤ n)
    (i : ℕ) (hi : i < times.length) :
    1 ≤ (rpi_reps times n).getD i 0
      ∧ ((mg_gaps times).getD i false = true → 2 ≤ (rpi_reps times n).getD i 0) := by
  have hwlen : (mg_widths times).length = countTrue (mg_gaps times) :=
    mg_widths_length times (by omega)
  have hw2len : (rpi_widths2 times).length = (mg_widths times).length :=
    rpi_widths2_length times
  by_cases hm : (mg_gaps times).getD i false
  · have hslot : countTrue ((mg_gaps times).take i) < countTrue (mg_gaps times) :=
      countTrue_take_lt _ i (by rw [mg_gaps_length times (by omega)]; exact hi) hm
    have hslotw : countTrue ((mg_gaps times).take i) < (mg_widths times).length := by
      omega
    have hmr : (rpi_max_repeats times).getD (countTrue ((mg_gaps times).take i)) 0
        = (rpi_widths2 times).getD (countTrue ((mg_gaps times).take i)) 0
          + (if countTrue ((mg_gaps times).take i) = 0 then 0
            else (rpi_widths2 times).getD (countTrue ((mg_gaps times).take i) - 1) 0) :=
      rpi_max_repeats_getD times _ (by omega)
    have hmr2 : 2 ≤ (rpi_max_repeats times).getD (countTrue ((mg_gaps times).take i)) 0 := by
      rcases mg_widths_entry times hL (countTrue ((mg_gaps times).take i)) hslotw with h1 | h4
      · obtain ⟨hi1, hgprev, h4prev, hcnt⟩ := p1_prev times hL i hi hm h1
        have hw2z : (rpi_widths2 times).getD (countTrue ((mg_gaps times).take i)) 0 = 0 :=
          rpi_widths2_of_one times _ hslotw h1
        have hprevslot : countTrue ((mg_gaps times).take (i - 1))
            < (mg_widths times).length := by
          rw [hwlen]
          exact countTrue_take_lt _ (i - 1)
            (by rw [mg_gaps_length times (by omega)]; omega) hgprev
        have hw2p : 2 ≤ (rpi_widths2 times).getD (countTrue ((mg_gaps times).take (i - 1)))
            0 := rpi_widths2_of_ge4 times _ hprevslot h4prev
        rw [hmr, hw2z, if_neg (by omega)]
        have hidx : countTrue ((mg_gaps times).take i) - 1
            = countTrue ((mg_gaps times).take (i - 1)) := by omega
        rw [hidx]
        omega
      · have hw2g : 2 ≤ (rpi_widths2 times).getD (countTrue ((mg_gaps times).take i)) 0 :=
          rpi_widths2_of_ge4 times _ hslotw h4
        have hprev : 0 ≤ (if countTrue ((mg_gaps times).take i) = 0 then 0
            else (rpi_widths2 times).getD (countTrue ((mg_gaps times).take i) - 1) 0) := by
          by_cases hz : countTrue ((mg_gaps times).take i) = 0
          · rw [if_pos hz]
          · rw [if_neg hz]
            exact rpi_widths2_nonneg times hL _
        rw [hmr]
        omega
    have hrv : (rpi_reps times n).getD i 0
        = (rpi_mr2 times n).getD (countTrue ((mg_gaps times).take i)) 0 := by
      rw [rpi_reps_getD times n hL i hi, if_pos hm]
    have hmra : countTrue ((mg_gaps times).take i) < (rpi_max_repeats times).length := by
      rw [rpi_max_repeats_length, hw2len]
      omega
    rw [hrv, rpi_mr2_getD times n _ hmra]
    by_cases hcmp : (rpi_max_repeats times).getD (countTrue ((mg_gaps times).take i)) 0
        < (n : ℤ)
    · rw [if_pos hcmp]
      omega
    · rw [if_neg hcmp]
      omega
  · have hrv : (rpi_reps times n).getD i 0 = 1 := by
      rw [rpi_reps_getD times n hL i hi, if_neg hm]
    rw [hrv]
    exact ⟨le_refl 1, fun hc => absurd hc hm⟩

theorem rpi_w3_bounds (times : List ℚ) (n : ℕ) (hL : 2 ≤ times.length) (hn : 2 ≤ n)
    (i : ℕ) (hi : i < times.length) (hm : (mg_gaps times).getD i false = true)
    (hp2 : (mg_widths times).getD (countTrue ((mg_gaps times).take i)) 0 ≠ 1) :
    1 ≤ (rpi_widths3 times n).getD (countTrue ((mg_gaps times).take i)) 0
      ∧ (rpi_widths3 times n).getD (countTrue ((mg_gaps times).take i)) 0
        ≤ (rpi_reps times n).getD i 0 := by
  have hwlen : (mg_widths times).length = countTrue (mg_gaps times) :=
    mg_widths_length times (by omega)
  have hslot : countTrue ((mg_gaps times).take i) < countTrue (mg_gaps times) :=
    countTrue_take_lt _ i (by rw [mg_gaps_length times (by omega)]; exact hi) hm
  have hslotw : countTrue ((mg_gaps times).take i) < (mg_widths times).length := by omega
  have hslot2 : countTrue ((mg_gaps times).take i) < (rpi_widths2 times).length := by
    rw [rpi_widths2_length]
    omega
  have h4 : 4 ≤ (mg_widths times).getD (countTrue ((mg_gaps times).take i)) 0 := by
    rcases mg_widths_entry times hL _ hslotw with h1 | h4
    · exact absurd h1 hp2
    · exact h4
  have hw2g : 2 ≤ (rpi_widths2 times).getD (countTrue ((mg_gaps times).take i)) 0 :=
    rpi_widths2_of_ge4 times _ hslotw h4
  have hprev : 0 ≤ (if countTrue ((mg_gaps times).take i) = 0 then 0
      else (rpi_widths2 times).getD (countTrue ((mg_gaps times).take i) - 1) 0) := by
    by_cases hz : countTrue ((mg_gaps times).take i) = 0
    · rw [if_pos hz]
    · rw [if_neg hz]
      exact rpi_widths2_nonneg times hL _
  have hmr := rpi_max_repeats_getD times (countTrue ((mg_gaps times).take i)) hslot2
  have hrv : (rpi_reps times n).getD i 0
      = (rpi_mr2 times n).getD (countTrue ((mg_gaps times).take i)) 0 := by
    rw [rpi_reps_getD times n hL i hi, if_pos hm]
  have hmra : countTrue ((mg_gaps times).take i) < (rpi_max_repeats times).length := by
    rw [rpi_max_repeats_length]
    omega
  rw [hrv, rpi_mr2_getD times n _ hmra, rpi_widths3_getD times n _ hslot2]
  constructor
  · by_cases hcmp : (rpi_widths2 times).getD (countTrue ((mg_gaps times).take i)) 0 < (n : ℤ)
    · rw [if_pos hcmp]
      omega
    · rw [if_neg hcmp]
      omega
  · by_cases hc1 : (rpi_widths2 times).getD (countTrue ((mg_gaps times).take i)) 0 < (n : ℤ)
    · rw [if_pos hc1]
      by_cases hc2 : (rpi_max_repeats times).getD (countTrue ((mg_gaps times).take i)) 0
          < (n : ℤ)
      · rw [if_pos hc2]
        omega
      · rw [if_neg hc2]
        omega
    · rw [if_neg hc1]
      by_cases hc2 : (rpi_max_repeats times).getD (countTrue ((mg_gaps times).take i)) 0
          < (n : ℤ)
      · rw [if_pos hc2]
        omega
      · rw [if_neg hc2]

/-- The repetition counts as natural numbers, as `np.repeat` consumes them
(a proof-side name for the map appearing in the code). -/
def rpi_repsN (times : List ℚ) (n : ℕ) : List ℕ := (rpi_reps times n).map Int.toNat

/-- The in-block offset of the single kept sample of a gap block: the block end
for a point closing a gap, the block end minus (clamped width - 1) for a point
opening one (a proof-side device). -/
def rpi_off (times : List ℚ) (n : ℕ) (i : ℕ) : ℕ :=
  if (mg_widths times).getD (countTrue ((mg_gaps times).take i)) 0 ≠ 1 then
    ((rpi_reps times n).getD i 0).toNat
      - ((rpi_widths3 times n).getD (countTrue ((mg_gaps times).take i)) 0).toNat
  else ((rpi_reps times n).getD i 0).toNat - 1

/-- The per-point block of the repetition mask: all-false with a single kept
position for a gap point, `[true]` otherwise (a proof-side device). -/
def rpi_core (times : List ℚ) (n : ℕ) (i : ℕ) : List Bool :=
  if (mg_gaps times).getD i false then
    oneHot ((rpi_reps times n).getD i 0).toNat (rpi_off times n i)
  else [true]

theorem rpi_repsN_length (times : List ℚ) (n : ℕ) (hL : 2 ≤ times.length) :
    (rpi_repsN times n).length = times.length := by
  unfold rpi_repsN
  rw [List.length_map, rpi_reps_length times n hL]

theorem rpi_repsN_getD (times : List ℚ) (n : ℕ) (hL : 2 ≤ times.length) (i : ℕ)
    (hi : i < times.length) :
    (rpi_repsN times n).getD i 0 = ((rpi_reps times n).getD i 0).toNat := by
  unfold rpi_repsN
  rw [getD_map_eq _ _ i (by rw [rpi_reps_length times n hL]; exact hi) 0 0]

theorem rpi_reps_nonneg (times : List ℚ) (n : ℕ) (hL : 2 ≤ times.length) (hn : 2 ≤ n) :
    ∀ x ∈ rpi_reps times n, 0 ≤ x := by
  intro x hx
  obtain ⟨j, hj, hxe⟩ := List.mem_iff_getElem.mp hx
  have hjl : j < times.length := by rw [← rpi_reps_length times n hL]; exact hj
  have := (rpi_reps_ge times n hL hn j hjl).1
  rw [← List.getD_eq_getElem (rpi_reps times n) 0 hj] at hxe
  omega

theorem rpi_take_sum_cast (times : List ℚ) (n : ℕ) (hL : 2 ≤ times.length) (hn : 2 ≤ n)
    (k : ℕ) : ((((rpi_repsN times n).take k).sum : ℕ) : ℤ)
      = ((rpi_reps times n).take k).sum := by
  unfold rpi_repsN
  rw [← List.map_take]
  exact sum_toNat_cast _ (fun x hx =>
    rpi_reps_nonneg times n hL hn x (List.mem_of_mem_take hx))

theorem rpi_newpos_getD (times : List ℚ) (n : ℕ) (hL : 2 ≤ times.length) (hn : 2 ≤ n)
    (i : ℕ) (hi : i < times.length) :
    (rpi_newpos times n).getD i 0
      = ((((rpi_repsN times n).take i).sum + (rpi_repsN times n).getD i 0 : ℕ) : ℤ) - 1 := by
  unfold rpi_newpos
  have hcl : i < (cumsumZ (rpi_reps times n)).length := by
    rw [cumsumZ_length, rpi_reps_length times n hL]
    exact hi
  rw [getD_map_eq _ _ i hcl 0 0,
    cumsumZ_getD _ i (by rw [rpi_reps_length times n hL]; exact hi),
    ← rpi_take_sum_cast times n hL hn (i + 1),
    sum_take_succ_getD _ i (by rw [rpi_repsN_length times n hL]; exact hi)]

theorem rpi_mask0_length (times : List ℚ) (n : ℕ) (hL : 2 ≤ times.length) :
    (rpi_mask0 times n).length = (rpi_repsN times n).sum := by
  unfold rpi_mask0 rpi_repsN
  rw [length_npRepeat _ _ (by
    rw [List.length_map, List.length_map, mg_gaps_length times (by omega),
      rpi_reps_length times n hL])]

theorem rpi_mask0_block (times : List ℚ) (n : ℕ) (hL : 2 ≤ times.length) (i o : ℕ)
    (hi : i < times.length) (ho : o < (rpi_repsN times n).getD i 0) :
    (rpi_mask0 times n).getD (((rpi_repsN times n).take i).sum + o) false
      = !((mg_gaps times).getD i false) := by
  unfold rpi_mask0
  have hgl : (mg_gaps times).length = times.length := mg_gaps_length times (by omega)
  have h1 : ((mg_gaps times).map (fun b => !b)).length
      = ((rpi_reps times n).map Int.toNat).length := by
    rw [List.length_map, List.length_map, hgl, rpi_reps_length times n hL]
  have h2 : i < ((mg_gaps times).map (fun b => !b)).length := by
    rw [List.length_map, hgl]
    exact hi
  have hre : (rpi_reps times n).map Int.toNat = rpi_repsN times n := rfl
  rw [hre, getD_npRepeat_block _ _ (by rw [← hre]; exact h1) i o h2 ho false,
    getD_map_eq _ _ i (by rw [hgl]; exact hi) false false]

theorem rpi_gap_start_length (times : List ℚ) :
    (rpi_gap_start times).length = (mg_widths times).length := by
  simp [rpi_gap_start]

theorem rpi_gap_start_getD (times : List ℚ) (k : ℕ) (hk : k < (mg_widths times).length) :
    (rpi_gap_start times).getD k false = decide ((mg_widths times).getD k 0 ≠ 1) := by
  unfold rpi_gap_start
  rw [getD_map_eq _ _ k hk false 0]

theorem rpi_gap_p1_length (times : List ℚ) :
    (rpi_gap_p1 times).length = (mg_gaps times).length := by
  simp [rpi_gap_p1, maskAssignList_length]

theorem rpi_gap_p2_length (times : List ℚ) :
    (rpi_gap_p2 times).length = (mg_gaps times).length := by
  simp [rpi_gap_p2, maskAssignList_length]

theorem rpi_gap_p1_getD (times : List ℚ) (hL : 2 ≤ times.length) (i : ℕ)
    (hi : i < times.length) :
    (rpi_gap_p1 times).getD i false
      = ((mg_gaps times).getD i false
        && !((rpi_gap_start times).getD (countTrue ((mg_gaps times).take i)) false)) := by
  unfold rpi_gap_p1
  have hwl : (mg_widths times).length = countTrue (mg_gaps times) :=
    mg_widths_length times (by omega)
  rw [maskAssignList_getD _ _ _ rfl (by
    rw [List.length_map, rpi_gap_start_length, hwl]) i false]
  by_cases hm : (mg_gaps times).getD i false
  · rw [if_pos hm, hm, Bool.true_and]
    have hslot : countTrue ((mg_gaps times).take i) < (rpi_gap_start times).length := by
      rw [rpi_gap_start_length, hwl]
      exact countTrue_take_lt _ i (by rw [mg_gaps_length times (by omega)]; exact hi) hm
    rw [getD_map_eq _ _ _ hslot false false]
  · rw [if_neg hm]
    cases hv : (mg_gaps times).getD i false
    · rfl
    · exact absurd hv hm

theorem rpi_gap_p2_getD (times : List ℚ) (hL : 2 ≤ times.length) (i : ℕ)
    (hi : i < times.length) :
    (rpi_gap_p2 times).getD i false
      = ((mg_gaps times).getD i false
        && (rpi_gap_start times).getD (countTrue ((mg_gaps times).take i)) false) := by
  unfold rpi_gap_p2
  have hwl : (mg_widths times).length = countTrue (mg_gaps times) :=
    mg_widths_length times (by omega)
  rw [maskAssignList_getD _ _ _ rfl (by rw [rpi_gap_start_length, hwl]) i false]
  by_cases hm : (mg_gaps times).getD i false
  · rw [if_pos hm, hm, Bool.true_and]
  · rw [if_neg hm]
    cases hv : (mg_gaps times).getD i false
    · rfl
    · exact absurd hv hm

theorem rpi_p2_slot_count (times : List ℚ) (hL : 2 ≤ times.length) (j : ℕ) :
    countTrue ((rpi_gap_p2 times).take j)
      = countTrue ((rpi_gap_start times).take (countTrue ((mg_gaps times).take j))) := by
  unfold rpi_gap_p2
  exact countTrue_take_maskAssign (mg_gaps times) (rpi_gap_start times)
    (by rw [rpi_gap_start_length, mg_widths_length times (by omega)]) j

theorem rpi_newpos_length (times : List ℚ) (n : ℕ) (hL : 2 ≤ times.length) :
    (rpi_newpos times n).length = times.length := by
  unfold rpi_newpos
  rw [List.length_map, cumsumZ_length, rpi_reps_length times n hL]

theorem rpi_P1_mem (times : List ℚ) (n : ℕ) (hL : 2 ≤ times.length) (hn : 2 ≤ n) (x : ℤ) :
    x ∈ maskSelect (rpi_newpos times n) (rpi_gap_p1 times)
      ↔ ∃ j, j < times.length ∧ (rpi_gap_p1 times).getD j false = true
        ∧ x = ((((rpi_repsN times n).take j).sum
            + ((rpi_repsN times n).getD j 0 - 1) : ℕ) : ℤ) := by
  have hnpl : (rpi_newpos times n).length = times.length := rpi_newpos_length times n hL
  have hp1l : (rpi_gap_p1 times).length = times.length := by
    rw [rpi_gap_p1_length, mg_gaps_length times (by omega)]
  constructor
  · intro hx
    obtain ⟨j, hj1, hj2, hj3, hj4⟩ := mem_maskSelect_imp _ _ x 0 hx
    have hjL : j < times.length := by rw [← hnpl]; exact hj1
    refine ⟨j, hjL, hj3, ?_⟩
    have hr1 : 1 ≤ (rpi_reps times n).getD j 0 := (rpi_reps_ge times n hL hn j hjL).1
    have hrn : (rpi_repsN times n).getD j 0 = ((rpi_reps times n).getD j 0).toNat :=
      rpi_repsN_getD times n hL j hjL
    rw [← hj4, rpi_newpos_getD times n hL hn j hjL]
    omega
  · rintro ⟨j, hjL, hp1, rfl⟩
    have hr1 : 1 ≤ (rpi_reps times n).getD j 0 := (rpi_reps_ge times n hL hn j hjL).1
    have hrn : (rpi_repsN times n).getD j 0 = ((rpi_reps times n).getD j 0).toNat :=
      rpi_repsN_getD times n hL j hjL
    have hval := rpi_newpos_getD times n hL hn j hjL
    have hx : ((((rpi_repsN times n).take j).sum
        + ((rpi_repsN times n).getD j 0 - 1) : ℕ) : ℤ)
        = (rpi_newpos times n).getD j 0 := by
      rw [hval]
      omega
    rw [hx]
    exact maskSelect_mem_of _ _ j 0 (by rw [hnpl]; exact hjL) (by rw [hp1l]; exact hjL) hp1

theorem rpi_P2_mem (times : List ℚ) (n : ℕ) (hL : 2 ≤ times.length) (hn : 2 ≤ n) (x : ℤ) :
    x ∈ List.zipWith (fun p w => p - (w - 1))
        (maskSelect (rpi_newpos times n) (rpi_gap_p2 times))
        (maskSelect (rpi_widths3 times n) (rpi_gap_start times))
      ↔ ∃ j, j < times.length ∧ (rpi_gap_p2 times).getD j false = true
        ∧ x = ((((rpi_repsN times n).take j).sum
            + ((rpi_repsN times n).getD j 0
              - ((rpi_widths3 times n).getD (countTrue ((mg_gaps times).take j)) 0).toNat)
            : ℕ) : ℤ) := by
  have hglen : (mg_gaps times).length = times.length := mg_gaps_length times (by omega)
  have hwl : (mg_widths times).length = countTrue (mg_gaps times) :=
    mg_widths_length times (by omega)
  have hnpl : (rpi_newpos times n).length = times.length := rpi_newpos_length times n hL
  have hp2l : (rpi_gap_p2 times).length = times.length := by
    rw [rpi_gap_p2_length, hglen]
  have hgsl : (rpi_gap_start times).length = countTrue (mg_gaps times) := by
    rw [rpi_gap_start_length, hwl]
  have hw3l : (rpi_widths3 times n).length = countTrue (mg_gaps times) := by
    unfold rpi_widths3
    rw [List.length_map, rpi_widths2_length, hwl]
  have hlen1 : (maskSelect (rpi_newpos times n) (rpi_gap_p2 times)).length
      = countTrue (rpi_gap_p2 times) :=
    length_maskSelect _ _ (by rw [hnpl, hp2l])
  have hlen2 : (maskSelect (rpi_widths3 times n) (rpi_gap_start times)).length
      = countTrue (rpi_gap_start times) :=
    length_maskSelect _ _ (by rw [hw3l, hgsl])
  constructor
  · intro hx
    obtain ⟨k, hk1, hk2, hk3⟩ := mem_zipWith_imp _ _ _ x 0 0 hx
    rw [hlen1] at hk1
    obtain ⟨j, hjlen, hp2j, hcnt⟩ := exists_true_of_lt_countTrue _ k hk1
    have hjL : j < times.length := by rw [← hp2l]; exact hjlen
    have hgboth := rpi_gap_p2_getD times hL j hjL
    rw [hp2j] at hgboth
    have hgands : (mg_gaps times).getD j false = true
        ∧ (rpi_gap_start times).getD (countTrue ((mg_gaps times).take j)) false = true := by
      simpa using hgboth.symm
    have hg : (mg_gaps times).getD j false = true := hgands.1
    have hgs : (rpi_gap_start times).getD (countTrue ((mg_gaps times).take j)) false
        = true := hgands.2
    have hslot : countTrue ((mg_gaps times).take j) < countTrue (mg_gaps times) :=
      countTrue_take_lt _ j (by rw [hglen]; exact hjL) hg
    have hval1 : (maskSelect (rpi_newpos times n) (rpi_gap_p2 times)).getD k 0
        = (rpi_newpos times n).getD j 0 := by
      rw [← hcnt]
      exact maskSelect_getD _ _ (by rw [hnpl, hp2l]) j 0 hjlen hp2j
    have hcnt2 : countTrue ((rpi_gap_p2 times).take j)
        = countTrue ((rpi_gap_start times).take (countTrue ((mg_gaps times).take j))) :=
      rpi_p2_slot_count times hL j
    have hval2 : (maskSelect (rpi_widths3 times n) (rpi_gap_start times)).getD k 0
        = (rpi_widths3 times n).getD (countTrue ((mg_gaps times).take j)) 0 := by
      rw [← hcnt, hcnt2]
      exact maskSelect_getD _ _ (by rw [hw3l, hgsl]) _ 0 (by rw [hgsl]; exact hslot) hgs
    refine ⟨j, hjL, hp2j, ?_⟩
    have hp2cond : (mg_widths times).getD (countTrue ((mg_gaps times).take j)) 0 ≠ 1 := by
      have := rpi_gap_start_getD times (countTrue ((mg_gaps times).take j)) (by omega)
      rw [hgs] at this
      exact of_decide_eq_true this.symm
    obtain ⟨hw3a, hw3b⟩ := rpi_w3_bounds times n hL hn j hjL hg hp2cond
    have hr1 : 1 ≤ (rpi_reps times n).getD j 0 := (rpi_reps_ge times n hL hn j hjL).1
    have hrn : (rpi_repsN times n).getD j 0 = ((rpi_reps times n).getD j 0).toNat :=
      rpi_repsN_getD times n hL j hjL
    rw [← hk3, hval1, hval2, rpi_newpos_getD times n hL hn j hjL]
    omega
  · rintro ⟨j, hjL, hp2j, rfl⟩
    have hjlen : j < (rpi_gap_p2 times).length := by rw [hp2l]; exact hjL
    have hgboth := rpi_gap_p2_getD times hL j hjL
    rw [hp2j] at hgboth
    have hgands : (mg_gaps times).getD j false = true
        ∧ (rpi_gap_start times).getD (countTrue ((mg_gaps times).take j)) false = true := by
      simpa using hgboth.symm
    have hg : (mg_gaps times).getD j false = true := hgands.1
    have hgs : (rpi_gap_start times).getD (countTrue ((mg_gaps times).take j)) false
        = true := hgands.2
    have hslot : countTrue ((mg_gaps times).take j) < countTrue (mg_gaps times) :=
      countTrue_take_lt _ j (by rw [hglen]; exact hjL) hg
    have hk1 : countTrue ((rpi_gap_p2 times).take j) < countTrue (rpi_gap_p2 times) :=
      countTrue_take_lt _ j hjlen hp2j
    have hcnt2 : countTrue ((rpi_gap_p2 times).take j)
        = countTrue ((rpi_gap_start times).take (countTrue ((mg_gaps times).take j))) :=
      rpi_p2_slot_count times hL j
    have hk2 : countTrue ((rpi_gap_p2 times).take j) < countTrue (rpi_gap_start times) := by
      rw [hcnt2]
      exact countTrue_take_lt _ _ (by rw [hgsl]; exact hslot) hgs
    have hval1 : (maskSelect (rpi_newpos times n) (rpi_gap_p2 times)).getD
        (countTrue ((rpi_gap_p2 times).take j)) 0 = (rpi_newpos times n).getD j 0 :=
      maskSelect_getD _ _ (by rw [hnpl, hp2l]) j 0 hjlen hp2j
    have hval2 : (maskSelect (rpi_widths3 times n) (rpi_gap_start times)).getD
        (countTrue ((rpi_gap_p2 times).take j)) 0
        = (rpi_widths3 times n).getD (countTrue ((mg_gaps times).take j)) 0 := by
      rw [hcnt2]
      exact maskSelect_getD _ _ (by rw [hw3l, hgsl]) _ 0 (by rw [hgsl]; exact hslot) hgs
    have hp2cond : (mg_widths times).getD (countTrue ((mg_gaps times).take j)) 0 ≠ 1 := by
      have := rpi_gap_start_getD times (countTrue ((mg_gaps times).take j)) (by omega)
      rw [hgs] at this
      exact of_decide_eq_true this.symm
    obtain ⟨hw3a, hw3b⟩ := rpi_w3_bounds times n hL hn j hjL hg hp2cond
    have hr1 : 1 ≤ (rpi_reps times n).getD j 0 := (rpi_reps_ge times n hL hn j hjL).1
    have hrn : (rpi_repsN times n).getD j 0 = ((rpi_reps times n).getD j 0).toNat :=
      rpi_repsN_getD times n hL j hjL
    have hmem := zipWith_mem_of (fun p w => p - (w - 1))
      (maskSelect (rpi_newpos times n) (rpi_gap_p2 times))
      (maskSelect (rpi_widths3 times n) (rpi_gap_start times))
      (countTrue ((rpi_gap_p2 times).take j)) 0 0
      (by rw [hlen1]; exact hk1) (by rw [hlen2]; exact hk2)
    rw [hval1, hval2, rpi_newpos_getD times n hL hn j hjL] at hmem
    have hxeq : ((((rpi_repsN times n).take j).sum
        + ((rpi_repsN times n).getD j 0
          - ((rpi_widths3 times n).getD (countTrue ((mg_gaps times).take j)) 0).toNat)
        : ℕ) : ℤ)
        = ((((rpi_repsN times n).take j).sum + (rpi_repsN times n).getD j 0 : ℕ) : ℤ) - 1
          - ((rpi_widths3 times n).getD (countTrue ((mg_gaps times).take j)) 0 - 1) := by
      omega
    rw [hxeq]
    exact hmem

theorem rpi_edges_length (times : List ℚ) (n : ℕ) :
    (rpi_edges times n).length = (rpi_mask0 times n).length := by
  unfold rpi_edges
  rw [scatterTrueZ_length, scatterTrueZ_length, List.length_replicate]

theorem rpi_edges_getD (times : List ℚ) (n : ℕ) (hL : 2 ≤ times.length) (hn : 2 ≤ n)
    (q : ℕ) :
    (rpi_edges times n).getD q false
      = (decide ((q : ℤ) ∈ maskSelect (rpi_newpos times n) (rpi_gap_p1 times))
        || decide ((q : ℤ) ∈ List.zipWith (fun p w => p - (w - 1))
            (maskSelect (rpi_newpos times n) (rpi_gap_p2 times))
            (maskSelect (rpi_widths3 times n) (rpi_gap_start times)))) := by
  have hrNl : (rpi_repsN times n).length = times.length := rpi_repsN_length times n hL
  have hm0 : (rpi_mask0 times n).length = (rpi_repsN times n).sum :=
    rpi_mask0_length times n hL
  have hbnd1 : ∀ p ∈ maskSelect (rpi_newpos times n) (rpi_gap_p1 times),
      0 ≤ p ∧ p.toNat < (List.replicate (rpi_mask0 times n).length false).length := by
    intro p hp
    obtain ⟨j, hjL, hp1, hpe⟩ := (rpi_P1_mem times n hL hn p).mp hp
    have hjr : j < (rpi_repsN times n).length := by rw [hrNl]; exact hjL
    have hr1 : 1 ≤ (rpi_reps times n).getD j 0 := (rpi_reps_ge times n hL hn j hjL).1
    have hrn : (rpi_repsN times n).getD j 0 = ((rpi_reps times n).getD j 0).toNat :=
      rpi_repsN_getD times n hL j hjL
    have hle := sum_take_getD_le (rpi_repsN times n) j hjr
    rw [List.length_replicate, hm0]
    omega
  have hbnd2 : ∀ p ∈ List.zipWith (fun p w => p - (w - 1))
      (maskSelect (rpi_newpos times n) (rpi_gap_p2 times))
      (maskSelect (rpi_widths3 times n) (rpi_gap_start times)),
      0 ≤ p ∧ p.toNat < (scatterTrueZ (List.replicate (rpi_mask0 times n).length false)
        (maskSelect (rpi_newpos times n) (rpi_gap_p1 times))).length := by
    intro p hp
    obtain ⟨j, hjL, hp2, hpe⟩ := (rpi_P2_mem times n hL hn p).mp hp
    have hjr : j < (rpi_repsN times n).length := by rw [hrNl]; exact hjL
    have hr1 : 1 ≤ (rpi_reps times n).getD j 0 := (rpi_reps_ge times n hL hn j hjL).1
    have hrn : (rpi_repsN times n).getD j 0 = ((rpi_reps times n).getD j 0).toNat :=
      rpi_repsN_getD times n hL j hjL
    have hle := sum_take_getD_le (rpi_repsN times n) j hjr
    have hgboth := rpi_gap_p2_getD times hL j hjL
    rw [hp2] at hgboth
    have hgands : (mg_gaps times).getD j false = true
        ∧ (rpi_gap_start times).getD (countTrue ((mg_gaps times).take j)) false = true := by
      simpa using hgboth.symm
    have hslotw : countTrue ((mg_gaps times).take j) < (mg_widths times).length := by
      rw [mg_widths_length times (by omega)]
      exact countTrue_take_lt _ j (by rw [mg_gaps_length times (by omega)]; exact hjL)
        hgands.1
    have hp2cond : (mg_widths times).getD (countTrue ((mg_gaps times).take j)) 0 ≠ 1 := by
      have := rpi_gap_start_getD times (countTrue ((mg_gaps times).take j)) hslotw
      rw [hgands.2] at this
      exact of_decide_eq_true this.symm
    obtain ⟨hw3a, hw3b⟩ := rpi_w3_bounds times n hL hn j hjL hgands.1 hp2cond
    rw [scatterTrueZ_length, List.length_replicate, hm0]
    omega
  unfold rpi_edges
  rw [scatterTrueZ_getD _ _ hbnd2 q, scatterTrueZ_getD _ _ hbnd1 q,
    getD_replicate_self]
  simp [Bool.or_assoc]

theorem rpi_mask1_block (times : List ℚ) (n : ℕ) (hL : 2 ≤ times.length) (hn : 2 ≤ n)
    (i o : ℕ) (hi : i < times.length) (ho : o < (rpi_repsN times n).getD i 0) :
    (rpi_mask1 times n).getD (((rpi_repsN times n).take i).sum + o) false
      = (rpi_core times n i).getD o false := by
  have hrNl : (rpi_repsN times n).length = times.length := rpi_repsN_length times n hL
  have hm0 : (rpi_mask0 times n).length = (rpi_repsN times n).sum :=
    rpi_mask0_length times n hL
  have hir : i < (rpi_repsN times n).length := by rw [hrNl]; exact hi
  have hqlt : ((rpi_repsN times n).take i).sum + o < (rpi_repsN times n).sum := by
    have := sum_take_getD_le (rpi_repsN times n) i hir
    omega
  have hedl : (rpi_edges times n).length = (rpi_mask0 times n).length :=
    rpi_edges_length times n
  have hrn : (rpi_repsN times n).getD i 0 = ((rpi_reps times n).getD i 0).toNat :=
    rpi_repsN_getD times n hL i hi
  have hr1 : 1 ≤ (rpi_reps times n).getD i 0 := (rpi_reps_ge times n hL hn i hi).1
  unfold rpi_mask1
  rw [getD_zipWith_eq _ _ _ _ (by rw [hm0]; exact hqlt) (by rw [hedl, hm0]; exact hqlt)
    false false false]
  rw [rpi_mask0_block times n hL i o hi ho, rpi_edges_getD times n hL hn _]
  by_cases hg : (mg_gaps times).getD i false
  · rw [hg]
    have hslotw : countTrue ((mg_gaps times).take i) < (mg_widths times).length := by
      rw [mg_widths_length times (by omega)]
      exact countTrue_take_lt _ i (by rw [mg_gaps_length times (by omega)]; exact hi) hg
    have hp1v := rpi_gap_p1_getD times hL i hi
    rw [hg, Bool.true_and] at hp1v
    have hp2v := rpi_gap_p2_getD times hL i hi
    rw [hg, Bool.true_and] at hp2v
    have hiff1 : ((((rpi_repsN times n).take i).sum + o : ℕ) : ℤ)
        ∈ maskSelect (rpi_newpos times n) (rpi_gap_p1 times)
        ↔ ((rpi_gap_p1 times).getD i false = true
          ∧ o = (rpi_repsN times n).getD i 0 - 1) := by
      rw [rpi_P1_mem times n hL hn]
      constructor
      · rintro ⟨j, hjL, hp1j, hje⟩
        have hjr : j < (rpi_repsN times n).length := by rw [hrNl]; exact hjL
        have hrj : 1 ≤ (rpi_reps times n).getD j 0 := (rpi_reps_ge times n hL hn j hjL).1
        have hrnj : (rpi_repsN times n).getD j 0 = ((rpi_reps times n).getD j 0).toNat :=
          rpi_repsN_getD times n hL j hjL
        have hnat : ((rpi_repsN times n).take i).sum + o
            = ((rpi_repsN times n).take j).sum + ((rpi_repsN times n).getD j 0 - 1) := by
          exact_mod_cast hje
        have ho' : (rpi_repsN times n).getD j 0 - 1 < (rpi_repsN times n).getD j 0 := by
          omega
        obtain ⟨hij, hoe⟩ := block_decomp_unique (rpi_repsN times n) i j o _ hir hjr ho
          ho' hnat
        subst hij
        exact ⟨hp1j, hoe⟩
      · rintro ⟨hp1i, hoe⟩
        exact ⟨i, hi, hp1i, by rw [hoe]⟩
    have hiff2 : ((((rpi_repsN times n).take i).sum + o : ℕ) : ℤ)
        ∈ List.zipWith (fun p w => p - (w - 1))
          (maskSelect (rpi_newpos times n) (rpi_gap_p2 times))
          (maskSelect (rpi_widths3 times n) (rpi_gap_start times))
        ↔ ((rpi_gap_p2 times).getD i false = true
          ∧ o = (rpi_repsN times n).getD i 0
            - ((rpi_widths3 times n).getD (countTrue ((mg_gaps times).take i)) 0).toNat) := by
      rw [rpi_P2_mem times n hL hn]
      constructor
      · rintro ⟨j, hjL, hp2j, hje⟩
        have hjr : j < (rpi_repsN times n).length := by rw [hrNl]; exact hjL
        have hrj : 1 ≤ (rpi_reps times n).getD j 0 := (rpi_reps_ge times n hL hn j hjL).1
        have hrnj : (rpi_repsN times n).getD j 0 = ((rpi_reps times n).getD j 0).toNat :=
          rpi_repsN_getD times n hL j hjL
        have hgboth := rpi_gap_p2_getD times hL j hjL
        rw [hp2j] at hgboth
        have hgands : (mg_gaps times).getD j false = true
            ∧ (rpi_gap_start times).getD (countTrue ((mg_gaps times).take j)) false
              = true := by
          simpa using hgboth.symm
        have hslotwj : countTrue ((mg_gaps times).take j) < (mg_widths times).length := by
          rw [mg_widths_length times (by omega)]
          exact countTrue_take_lt _ j (by rw [mg_gaps_length times (by omega)]; exact hjL)
            hgands.1
        have hp2cond : (mg_widths times).getD (countTrue ((mg_gaps times).take j)) 0
            ≠ 1 := by
          have := rpi_gap_start_getD times (countTrue ((mg_gaps times).take j)) hslotwj
          rw [hgands.2] at this
          exact of_decide_eq_true this.symm
        obtain ⟨hw3a, hw3b⟩ := rpi_w3_bounds times n hL hn j hjL hgands.1 hp2cond
        have hnat : ((rpi_repsN times n).take i).sum + o
            = ((rpi_repsN times n).take j).sum
              + ((rpi_repsN times n).getD j 0
                - ((rpi_widths3 times n).getD (countTrue ((mg_gaps times).take j))
                  0).toNat) := by
          exact_mod_cast hje
        have ho' : (rpi_repsN times n).getD j 0
            - ((rpi_widths3 times n).getD (countTrue ((mg_gaps times).take j)) 0).toNat
            < (rpi_repsN times n).getD j 0 := by omega
        obtain ⟨hij, hoe⟩ := block_decomp_unique (rpi_repsN times n) i j o _ hir hjr ho
          ho' hnat
        subst hij
        exact ⟨hp2j, hoe⟩
      · rintro ⟨hp2i, hoe⟩
        exact ⟨i, hi, hp2i, by rw [hoe]⟩
    unfold rpi_core rpi_off
    rw [if_pos hg, getD_oneHot _ _ o (by rw [← hrn]; exact ho)]
    by_cases hgs : (rpi_gap_start times).getD (countTrue ((mg_gaps times).take i)) false
    · have hd1 : decide (((((rpi_repsN times n).take i).sum + o : ℕ) : ℤ)
          ∈ maskSelect (rpi_newpos times n) (rpi_gap_p1 times)) = false := by
        apply decide_eq_false
        intro hc
        obtain ⟨h1, _⟩ := hiff1.mp hc
        rw [hp1v, hgs] at h1
        simp at h1
      have hd2 : decide (((((rpi_repsN times n).take i).sum + o : ℕ) : ℤ)
          ∈ List.zipWith (fun p w => p - (w - 1))
            (maskSelect (rpi_newpos times n) (rpi_gap_p2 times))
            (maskSelect (rpi_widths3 times n) (rpi_gap_start times)))
          = decide (o = (rpi_repsN times n).getD i 0
            - ((rpi_widths3 times n).getD (countTrue ((mg_gaps times).take i))
              0).toNat) := by
        apply decide_eq_decide.mpr
        rw [hiff2]
        constructor
        · rintro ⟨_, h⟩
          exact h
        · intro h
          exact ⟨by rw [hp2v, hgs], h⟩
      rw [hd1, hd2]
      have hw1 : (mg_widths times).getD (countTrue ((mg_gaps times).take i)) 0 ≠ 1 := by
        have := rpi_gap_start_getD times (countTrue ((mg_gaps times).take i)) hslotw
        rw [hgs] at this
        exact of_decide_eq_true this.symm
      rw [if_pos hw1, hrn]
      simp
    · have hgsf : (rpi_gap_start times).getD (countTrue ((mg_gaps times).take i)) false
          = false := by
        cases hv : (rpi_gap_start times).getD (countTrue ((mg_gaps times).take i)) false
        · rfl
        · exact absurd hv hgs
      have hd2 : decide (((((rpi_repsN times n).take i).sum + o : ℕ) : ℤ)
          ∈ List.zipWith (fun p w => p - (w - 1))
            (maskSelect (rpi_newpos times n) (rpi_gap_p2 times))
            (maskSelect (rpi_widths3 times n) (rpi_gap_start times))) = false := by
        apply decide_eq_false
        intro hc
        obtain ⟨h1, _⟩ := hiff2.mp hc
        rw [hp2v, hgsf] at h1
        simp at h1
      have hd1 : decide (((((rpi_repsN times n).take i).sum + o : ℕ) : ℤ)
          ∈ maskSelect (rpi_newpos times n) (rpi_gap_p1 times))
          = decide (o = (rpi_repsN times n).getD i 0 - 1) := by
        apply decide_eq_decide.mpr
        rw [hiff1]
        constructor
        · rintro ⟨_, h⟩
          exact h
        · intro h
          exact ⟨by rw [hp1v, hgsf]; rfl, h⟩
      rw [hd1, hd2]
      have hw1 : ¬(mg_widths times).getD (countTrue ((mg_gaps times).take i)) 0 ≠ 1 := by
        have hdd := rpi_gap_start_getD times (countTrue ((mg_gaps times).take i)) hslotw
        rw [hgsf] at hdd
        exact of_decide_eq_false hdd.symm
      rw [if_neg hw1, hrn]
      simp
  · have hgf : (mg_gaps times).getD i false = false := by
      cases hv : (mg_gaps times).getD i false
      · rfl
      · exact absurd hv hg
    rw [hgf]
    have hrep1 : (rpi_reps times n).getD i 0 = 1 := by
      rw [rpi_reps_getD times n hL i hi, if_neg hg]
    have ho0 : o = 0 := by
      rw [hrn, hrep1] at ho
      simpa using Nat.lt_one_iff.mp ho
    unfold rpi_core
    rw [if_neg hg, ho0]
    simp

theorem rpi_core_length (times : List ℚ) (n : ℕ) (hL : 2 ≤ times.length) (hn : 2 ≤ n)
    (k : ℕ) (hk : k < times.length) :
    (rpi_core times n k).length = (rpi_repsN times n).getD k 0 := by
  unfold rpi_core
  by_cases hg : (mg_gaps times).getD k false
  · rw [if_pos hg, length_oneHot, rpi_repsN_getD times n hL k hk]
  · rw [if_neg hg]
    have h1 : (rpi_reps times n).getD k 0 = 1 := by
      rw [rpi_reps_getD times n hL k hk, if_neg hg]
    rw [rpi_repsN_getD times n hL k hk, h1]
    rfl

theorem rpi_core_count (times : List ℚ) (n : ℕ) (hL : 2 ≤ times.length) (hn : 2 ≤ n)
    (k : ℕ) (hk : k < times.length) : countTrue (rpi_core times n k) = 1 := by
  unfold rpi_core
  by_cases hg : (mg_gaps times).getD k false
  · rw [if_pos hg]
    apply countTrue_oneHot
    unfold rpi_off
    have hr1 : 1 ≤ (rpi_reps times n).getD k 0 := (rpi_reps_ge times n hL hn k hk).1
    by_cases hw : (mg_widths times).getD (countTrue ((mg_gaps times).take k)) 0 ≠ 1
    · rw [if_pos hw]
      obtain ⟨hw3a, hw3b⟩ := rpi_w3_bounds times n hL hn k hk hg hw
      omega
    · rw [if_neg hw]
      omega
  · rw [if_neg hg]
    rfl

theorem rpi_mask1_length (times : List ℚ) (n : ℕ) (hL : 2 ≤ times.length) :
    (rpi_mask1 times n).length = (rpi_repsN times n).sum := by
  unfold rpi_mask1
  rw [List.length_zipWith, rpi_edges_length, Nat.min_self, rpi_mask0_length times n hL]

theorem rpi_mask1_eq (times : List ℚ) (n : ℕ) (hL : 2 ≤ times.length) (hn : 2 ≤ n) :
    rpi_mask1 times n = ((List.range times.length).map (rpi_core times n)).flatten := by
  have hrNl : (rpi_repsN times n).length = times.length := rpi_repsN_length times n hL
  have hlen1 : (rpi_mask1 times n).length = (rpi_repsN times n).sum :=
    rpi_mask1_length times n hL
  have hsum : (((List.range times.length).map (rpi_core times n)).map List.length).sum
      = (rpi_repsN times n).sum := by
    rw [List.map_map]
    have hcg : (List.range times.length).map (List.length ∘ rpi_core times n)
        = (List.range times.length).map (fun k => (rpi_repsN times n).getD k 0) :=
      List.map_congr_left (fun k hk => by
        have hkL : k < times.length := List.mem_range.mp hk
        show (List.length ∘ rpi_core times n) k = _
        simp only [Function.comp]
        exact rpi_core_length times n hL hn k hkL)
    rw [hcg, sum_range_getD _ _ (le_of_eq hrNl.symm), ← hrNl, List.take_length]
  have hlen2 : ((List.range times.length).map (rpi_core times n)).flatten.length
      = (rpi_repsN times n).sum := by
    rw [List.length_flatten, hsum]
  apply List.ext_getElem (by rw [hlen1, hlen2])
  intro q h1 h2
  rw [← List.getD_eq_getElem _ false h1, ← List.getD_eq_getElem _ false h2]
  have hqN : q < (rpi_repsN times n).sum := by rw [← hlen1]; exact h1
  obtain ⟨iq, hiq, oq, hoq, hqe⟩ := block_decomp_exists (rpi_repsN times n) q hqN
  have hiqL : iq < times.length := by rw [← hrNl]; exact hiq
  rw [hqe, rpi_mask1_block times n hL hn iq oq hiqL hoq]
  have hbsl : iq < ((List.range times.length).map (rpi_core times n)).length := by
    simpa using hiqL
  have hbge : ((List.range times.length).map (rpi_core times n)).getD iq []
      = rpi_core times n iq := by
    rw [getD_map_eq _ _ iq (by simpa using hiqL) [] 0]
    congr 1
    rw [List.getD_eq_getElem _ _ (by simpa using hiqL), List.getElem_range]
  have hsumtake : ((((List.range times.length).map (rpi_core times n)).map
      List.length).take iq).sum = ((rpi_repsN times n).take iq).sum := by
    rw [List.map_map, ← List.map_take, List.take_range, Nat.min_eq_left (le_of_lt hiqL)]
    have hcg : (List.range iq).map (List.length ∘ rpi_core times n)
        = (List.range iq).map (fun k => (rpi_repsN times n).getD k 0) :=
      List.map_congr_left (fun k hk => by
        have hkL : k < times.length := lt_of_lt_of_le (List.mem_range.mp hk)
          (le_of_lt hiqL)
        show (List.length ∘ rpi_core times n) k = _
        simp only [Function.comp]
        exact rpi_core_length times n hL hn k hkL)
    rw [hcg, sum_range_getD _ _ (by omega)]
  have hflat := getD_flatten_block ((List.range times.length).map (rpi_core times n)) iq
    oq hbsl (by rw [hbge, rpi_core_length times n hL hn iq hiqL]; exact hoq) false
  rw [hsumtake, hbge] at hflat
  rw [hflat]

theorem rpi_mid_roundtrip (times : List ℚ) (n : ℕ) (signal : List ℚ)
    (hL : 2 ≤ times.length) (hn : 2 ≤ n) (hsig : signal.length = times.length) :
    maskSelect (npRepeat signal (rpi_repsN times n)) (rpi_mask1 times n) = signal := by
  rw [rpi_mask1_eq times n hL hn]
  apply roundtrip_blocks signal (rpi_repsN times n) _
    (by rw [rpi_repsN_length times n hL, hsig])
    (by simp [hsig])
  intro k hk
  have hkL : k < times.length := by rw [← hsig]; exact hk
  have hbge : ((List.range times.length).map (rpi_core times n)).getD k []
      = rpi_core times n k := by
    rw [getD_map_eq _ _ k (by simpa using hkL) [] 0]
    congr 1
    rw [List.getD_eq_getElem _ _ (by simpa using hkL), List.getElem_range]
  rw [hbge]
  exact ⟨rpi_core_length times n hL hn k hkL, rpi_core_count times n hL hn k hkL⟩

theorem npRepeat_head_add2 {α : Type} (ss : List α) (rs : List ℕ) (p : ℕ) (d : α)
    (h1 : 0 < ss.length) (h2 : 0 < rs.length) :
    npRepeat ss (rs.set 0 (rs.getD 0 0 + p))
      = List.replicate p (ss.getD 0 d) ++ npRepeat ss rs := by
  cases ss with
  | nil => simp at h1
  | cons s st =>
    cases rs with
    | nil => simp at h2
    | cons r rt =>
      show npRepeat (s :: st) ((r + p) :: rt)
        = List.replicate p s ++ npRepeat (s :: st) (r :: rt)
      exact npRepeat_head_add s st r p rt

theorem ends_assemble (signal : List ℚ) (reps : List ℤ) (m1 : List Bool) (p : ℕ)
    (hlen : reps.length = signal.length) (hs2 : 2 ≤ signal.length)
    (hpos : ∀ i, i < reps.length → 1 ≤ reps.getD i 0)
    (hm1len : m1.length = (reps.map Int.toNat).sum)
    (hmid : maskSelect (npRepeat signal (reps.map Int.toNat)) m1 = signal) :
    (List.replicate p false ++ m1 ++ List.replicate p false).length
      = (npRepeat signal ((incrAt (incrAt reps 0 (p : ℤ)) (signal.length - 1)
          (p : ℤ)).map Int.toNat)).length
    ∧ maskSelect
        (npRepeat signal ((incrAt (incrAt reps 0 (p : ℤ)) (signal.length - 1)
          (p : ℤ)).map Int.toNat))
        (List.replicate p false ++ m1 ++ List.replicate p false) = signal := by
  have hr0pos : 0 < reps.length := by omega
  have hr0 : 1 ≤ reps.getD 0 0 := hpos 0 hr0pos
  have hlpos : signal.length - 1 < reps.length := by omega
  have hrl : 1 ≤ reps.getD (signal.length - 1) 0 := hpos _ hlpos
  have hlenN : (reps.map Int.toNat).length = signal.length := by
    rw [List.length_map, hlen]
  have hgetl : (reps.set 0 (reps.getD 0 0 + (p : ℤ))).getD (signal.length - 1) 0
      = reps.getD (signal.length - 1) 0 := by
    rw [getD_set, if_neg (by omega)]
  have heF : (incrAt (incrAt reps 0 (p : ℤ)) (signal.length - 1) (p : ℤ)).map Int.toNat
      = ((reps.map Int.toNat).set 0 ((reps.map Int.toNat).getD 0 0 + p)).set
          (signal.length - 1) ((reps.map Int.toNat).getD (signal.length - 1) 0 + p) := by
    unfold incrAt
    rw [hgetl, List.map_set, List.map_set]
    have h0v : (reps.getD 0 0 + (p : ℤ)).toNat = (reps.map Int.toNat).getD 0 0 + p := by
      rw [getD_map_eq _ _ 0 hr0pos 0 0]
      omega
    have hlv : (reps.getD (signal.length - 1) 0 + (p : ℤ)).toNat
        = (reps.map Int.toNat).getD (signal.length - 1) 0 + p := by
      rw [getD_map_eq _ _ _ hlpos 0 0]
      omega
    rw [h0v, hlv]
  have hA1len : ((reps.map Int.toNat).set 0 ((reps.map Int.toNat).getD 0 0 + p)).length
      = signal.length := by
    rw [List.length_set, hlenN]
  have hgetl2 : ((reps.map Int.toNat).set 0 ((reps.map Int.toNat).getD 0 0 + p)).getD
      (signal.length - 1) 0 = (reps.map Int.toNat).getD (signal.length - 1) 0 := by
    rw [getD_set, if_neg (by omega)]
  have hlast := npRepeat_last_add signal
    ((reps.map Int.toNat).set 0 ((reps.map Int.toNat).getD 0 0 + p)) p 0
    (by rw [hA1len]) (by
      apply List.ne_nil_of_length_pos
      rw [hA1len]
      omega)
  rw [hA1len, hgetl2] at hlast
  have hhead := npRepeat_head_add2 signal (reps.map Int.toNat) p 0 (by omega)
    (by rw [hlenN]; omega)
  have harr : npRepeat signal ((incrAt (incrAt reps 0 (p : ℤ)) (signal.length - 1)
        (p : ℤ)).map Int.toNat)
      = (List.replicate p (signal.getD 0 0) ++ npRepeat signal (reps.map Int.toNat))
        ++ List.replicate p (signal.getD (signal.length - 1) 0) := by
    rw [heF, hlast, hhead]
  have hmidlen : (npRepeat signal (reps.map Int.toNat)).length
      = (reps.map Int.toNat).sum := length_npRepeat _ _ hlenN.symm
  have he1 : maskSelect (List.replicate p (signal.getD 0 0))
      (List.replicate p false) = [] := by
    apply List.length_eq_zero.mp
    rw [length_maskSelect _ _ (by simp), countTrue_replicate_false]
  have he2 : maskSelect (List.replicate p (signal.getD (signal.length - 1) 0))
      (List.replicate p false) = [] := by
    apply List.length_eq_zero.mp
    rw [length_maskSelect _ _ (by simp), countTrue_replicate_false]
  constructor
  · rw [harr]
    simp only [List.length_append, List.length_replicate, hmidlen, hm1len]
  · rw [harr]
    rw [maskSelect_append
      (List.replicate p (signal.getD 0 0) ++ npRepeat signal (reps.map Int.toNat))
      (List.replicate p (signal.getD (signal.length - 1) 0))
      (List.replicate p false ++ m1) (List.replicate p false)
      (by simp [hmidlen, hm1len])]
    rw [maskSelect_append (List.replicate p (signal.getD 0 0))
      (npRepeat signal (reps.map Int.toNat)) (List.replicate p false) m1 (by simp)]
    rw [hmid, he1, he2]
    simp

/-- C9: for every strictly increasing times array of length at least 2 and every
kernel width at least 1, the repetitions and repetition mask returned by
`repeat_points_internals` round-trip every signal of matching length: repeating
the signal per point and selecting with the mask returns the original signal,
and the mask has the length of the repeated array. -/
theorem C9_repeat_points_roundtrip (times : List ℚ) (n_kernel : ℕ) (no_gaps : Bool)
    (hsort : times.Sorted (· < ·)) (hL : 2 ≤ times.length) (hn : 1 ≤ n_kernel)
    (signal : List ℚ) (hsig : signal.length = times.length) :
    (repeat_points_internals times n_kernel no_gaps).2.length
      = (npRepeat signal ((repeat_points_internals times n_kernel no_gaps).1.map
          Int.toNat)).length
    ∧ maskSelect
        (npRepeat signal ((repeat_points_internals times n_kernel no_gaps).1.map
          Int.toNat))
        (repeat_points_internals times n_kernel no_gaps).2 = signal := by
  by_cases hk : n_kernel < 2
  · have hbr : repeat_points_internals times n_kernel no_gaps
        = (List.replicate times.length 1, List.replicate times.length true) := by
      unfold repeat_points_internals
      rw [if_pos hk]
    rw [hbr]
    have hmap : (List.replicate times.length (1 : ℤ)).map Int.toNat
        = List.replicate times.length 1 := by
      rw [List.map_replicate]
      rfl
    constructor
    · show (List.replicate times.length true).length
        = (npRepeat signal ((List.replicate times.length (1 : ℤ)).map Int.toNat)).length
      rw [hmap, ← hsig, npRepeat_ones signal, List.length_replicate, hsig]
    · show maskSelect (npRepeat signal ((List.replicate times.length (1 : ℤ)).map
          Int.toNat)) (List.replicate times.length true) = signal
      rw [hmap, ← hsig, npRepeat_ones signal]
      exact maskSelect_all_true signal
  · have hn2 : 2 ≤ n_kernel := by omega
    have hcast : ((n_kernel : ℤ) - 1) = ((n_kernel - 1 : ℕ) : ℤ) := by omega
    have hs2 : 2 ≤ signal.length := by rw [hsig]; exact hL
    by_cases hng : no_gaps = true
    · have hbr : repeat_points_internals times n_kernel no_gaps
          = (incrAt (incrAt (List.replicate times.length (1 : ℤ)) 0 ((n_kernel : ℤ) - 1))
              (times.length - 1) ((n_kernel : ℤ) - 1),
             List.replicate (n_kernel - 1) false ++ List.replicate times.length true
               ++ List.replicate (n_kernel - 1) false) := by
        unfold repeat_points_internals
        rw [if_neg hk, hng]
        rfl
      rw [hbr, hcast, ← hsig]
      exact ends_assemble signal (List.replicate signal.length 1)
        (List.replicate signal.length true) (n_kernel - 1)
        (by simp) hs2
        (fun i hi => by rw [getD_replicate_lt _ _ _ _ (by simpa using hi)])
        (by
          rw [List.map_replicate, List.length_replicate]
          show signal.length = (List.replicate signal.length ((1 : ℤ).toNat)).sum
          simp)
        (by
          have hmap2 : (List.replicate signal.length (1 : ℤ)).map Int.toNat
              = List.replicate signal.length 1 := by
            rw [List.map_replicate]
            rfl
          rw [hmap2, npRepeat_ones signal]
          exact maskSelect_all_true signal)
    · have hngf : no_gaps = false := by
        cases no_gaps
        · rfl
        · exact absurd rfl hng
      have hbr : repeat_points_internals times n_kernel no_gaps
          = (incrAt (incrAt (rpi_reps times n_kernel) 0 ((n_kernel : ℤ) - 1))
              (times.length - 1) ((n_kernel : ℤ) - 1),
             List.replicate (n_kernel - 1) false ++ rpi_mask1 times n_kernel
               ++ List.replicate (n_kernel - 1) false) := by
        unfold repeat_points_internals
        rw [if_neg hk, hngf]
        rfl
      rw [hbr, hcast, ← hsig]
      exact ends_assemble signal (rpi_reps times n_kernel) (rpi_mask1 times n_kernel)
        (n_kernel - 1)
        (by rw [rpi_reps_length times n_kernel hL, hsig]) hs2
        (fun i hi => by
          have hiL : i < times.length := by
            rw [← rpi_reps_length times n_kernel hL]
            exact hi
          exact (rpi_reps_ge times n_kernel hL hn2 i hiL).1)
        (by rw [rpi_mask1_length times n_kernel hL]; rfl)
        (rpi_mid_roundtrip times n_kernel signal hL hn2 hsig)

/-- Witness for C9: times [0, 1], kernel width 2, default gap handling, signal
[5, 7]. -/
theorem C9_repeat_points_roundtrip_witness :
    ((repeat_points_internals [(0 : ℚ), 1] 2 false).2.length
      = (npRepeat [(5 : ℚ), 7] ((repeat_points_internals [(0 : ℚ), 1] 2 false).1.map
          Int.toNat)).length)
    ∧ maskSelect
        (npRepeat [(5 : ℚ), 7] ((repeat_points_internals [(0 : ℚ), 1] 2 false).1.map
          Int.toNat))
        (repeat_points_internals [(0 : ℚ), 1] 2 false).2 = [(5 : ℚ), 7] :=
  C9_repeat_points_roundtrip [(0 : ℚ), 1] 2 false (by norm_num [List.Sorted])
    (by norm_num) (by norm_num) [(5 : ℚ), 7] (by norm_num)

/-! ## estimate_period and its helpers -/

end Eclipsr
